import Mathlib

/-!
The schema documentation generator `websitedoc`.

A shallow embedding of `websitedoc/generator.go` and `websitedoc/resource.go`.

* Go strings are byte sequences (`GoString`); `name[8:len(name)]`, `len` and `<` act on bytes.
* The `go/ast` nodes the generator inspects are constructors of `Node`; every other node kind
  is `Node.Other`, which carries its Go type name and its children in the order `ast.Walk`
  visits them.
* A call ends in one of four ways (`Outcome`): a normal return, a returned `error`, a run-time
  panic (failed type assertion, nil dereference, slice out of range, explicit `panic`), or it is
  still running when the recursion budget of the model is used up.
* `strconv.Unquote` and `strings.TrimSpace` belong to the Go standard library; the
  development is parametric in them (`Lib`).
-/

namespace Websitedoc

/-! ## Strings, maps, outcomes -/

/-- A Go `string`: an immutable sequence of bytes. -/
abbrev GoString := List UInt8

/-- The bytes (UTF-8) of a string constant of the source. -/
def str (s : String) : GoString := s.toUTF8.data.toList

/-- Go's `<` on strings: lexicographic order on bytes. -/
def strLess : GoString → GoString → Bool
  | [], [] => false
  | [], _ :: _ => true
  | _ :: _, [] => false
  | a :: as, b :: bs => if a < b then true else if b < a then false else strLess as bs

/-- A Go `map[string]V`, as the list of its assignments, the latest first. -/
def GoMap (V : Type) := List (GoString × V)

/-- The empty map, `map[string]V{}`. -/
def GoMap.empty {V : Type} : GoMap V := ([] : List (GoString × V))

/-- The comma-ok lookup `v, ok := m[k]`. -/
def GoMap.lookup {V : Type} (m : GoMap V) (k : GoString) : Option V := List.lookup k m

/-- The assignment `m[k] = v`. -/
def GoMap.insert {V : Type} (m : GoMap V) (k : GoString) (v : V) : GoMap V := (k, v) :: m

/-- The keys of a map. -/
def GoMap.keys {V : Type} (m : GoMap V) : List GoString := List.map Prod.fst m

/-- The plain lookup `m[k]` of a `map[string]string`: the empty string for a missing key. -/
def GoMap.index (m : GoMap GoString) (k : GoString) : GoString := (m.lookup k).getD []

/-- Go `error` values the generator returns. -/
inductive Error where
  /-- The value `strconv.ErrSyntax`, returned by `strconv.Unquote`. -/
  | ErrSyntax
  /-- An error made by `fmt.Errorf`, with its message. -/
  | Errorf (msg : GoString)
  deriving DecidableEq, Repr

/-- How a call ends. -/
inductive Outcome (α : Type) where
  /-- Normal return (with a nil error, for a function that returns one). -/
  | ok (a : α)
  /-- Return of a non-nil error. -/
  | error (e : Error)
  /-- Run-time panic. -/
  | panic
  /-- The recursion budget of the model ran out: the call has not finished. -/
  | diverge
  deriving DecidableEq, Repr

/-- The standard-library functions the generator calls on strings. -/
structure Lib where
  /-- The function `strconv.Unquote`; `none` is the error `strconv.ErrSyntax`. -/
  Unquote : GoString → Option GoString
  /-- The function `strings.TrimSpace`. -/
  TrimSpace : GoString → GoString

/-! ## The syntax tree (`go/ast`) -/

/-- The nodes of `go/ast`. -/
inductive Node where
  /-- An identifier, `*ast.Ident`. -/
  | Ident (Name : GoString)
  /-- A literal of basic type, `*ast.BasicLit`, with its source text `Value`. -/
  | BasicLit (Value : GoString)
  /-- A composite literal `Typ{Elts...}`, `*ast.CompositeLit`; `Typ` is nil when elided. -/
  | CompositeLit (Typ : Option Node) (Elts : List Node)
  /-- A pair `Key: Value`, `*ast.KeyValueExpr`. -/
  | KeyValueExpr (Key Value : Node)
  /-- A call `Fun(Args...)`, `*ast.CallExpr`. -/
  | CallExpr (Fun : Node) (Args : List Node)
  /-- A selector `X.Sel`, `*ast.SelectorExpr`. -/
  | SelectorExpr (X : Node) (Sel : GoString)
  /-- A pointer type or dereference `*X`, `*ast.StarExpr`. -/
  | StarExpr (X : Node)
  /-- Any other node, with its Go type name and its children in `ast.Walk` order. -/
  | Other (typeName : GoString) (children : List Node)
  deriving Repr

/-- The value of a `*ast.CompositeLit`. -/
structure CompositeLit where
  /-- The literal type, nil when elided. -/
  Typ : Option Node
  /-- The elements. -/
  Elts : List Node
  deriving Repr

/-- The literal as a node. -/
def CompositeLit.toNode (c : CompositeLit) : Node := .CompositeLit c.Typ c.Elts

/-- The Go type name of a node, as `%T` prints it. -/
def Node.typeName : Node → GoString
  | .Ident _ => str "*ast.Ident"
  | .BasicLit _ => str "*ast.BasicLit"
  | .CompositeLit _ _ => str "*ast.CompositeLit"
  | .KeyValueExpr _ _ => str "*ast.KeyValueExpr"
  | .CallExpr _ _ => str "*ast.CallExpr"
  | .SelectorExpr _ _ => str "*ast.SelectorExpr"
  | .StarExpr _ => str "*ast.StarExpr"
  | .Other t _ => t

/-- One entry of a parameter or result list, `*ast.Field`. -/
structure Field where
  /-- The declared names, possibly none. -/
  Names : List GoString
  /-- The type expression. -/
  Typ : Node
  deriving Repr

/-- A function declaration, `*ast.FuncDecl`. -/
structure FuncDecl where
  /-- The text of the doc comment, `Doc.Text()`; empty when there is none. -/
  Doc : GoString
  /-- The receiver list of a method. -/
  Recv : Option (List Field)
  /-- The function name, `Name.Name`. -/
  Name : GoString
  /-- The parameters, `Type.Params.List`. -/
  Params : List Field
  /-- The results, `Type.Results`; nil when the function has none. -/
  Results : Option (List Field)
  /-- The body, a block statement; nil for a declaration without body. -/
  Body : Option Node
  deriving Repr

/-- A field as a node: its names, then its type. -/
def Field.toNode (f : Field) : Node :=
  .Other (str "*ast.Field") (f.Names.map Node.Ident ++ [f.Typ])

/-- A field list as a node. -/
def fieldListNode (fs : List Field) : Node :=
  .Other (str "*ast.FieldList") (fs.map Field.toNode)

/-- The declaration as a node, children in `ast.Walk` order: receiver, name, type, body.
The doc comment group is left out: it holds comments only, which no visitor here looks at. -/
def FuncDecl.toNode (f : FuncDecl) : Node :=
  .Other (str "*ast.FuncDecl")
    ((f.Recv.map fieldListNode).toList
      ++ [Node.Ident f.Name,
          Node.Other (str "*ast.FuncType")
            (fieldListNode f.Params :: (f.Results.map fieldListNode).toList)]
      ++ f.Body.toList)

/-- One step of `ast.Inspect`: call the visitor on the node; descend when it says so. -/
def visitNode {σ : Type} (f : σ → Node → Outcome (σ × Bool)) (s : σ) (n : Node)
    (children : σ → Outcome σ) : Outcome σ :=
  match f s n with
  | .ok (s1, true) => children s1
  | .ok (s1, false) => .ok s1
  | .error e => .error e
  | .panic => .panic
  | .diverge => .diverge

mutual
/-- The traversal `ast.Inspect(n, f)`: depth first, a node before its children; the children
of a node are skipped when `f` returns false on it. The captured variables of the closure
are the state `s`. -/
def Inspect {σ : Type} (f : σ → Node → Outcome (σ × Bool)) (s : σ) : Node → Outcome σ
  | .Ident name => visitNode f s (.Ident name) (fun s1 => .ok s1)
  | .BasicLit v => visitNode f s (.BasicLit v) (fun s1 => .ok s1)
  | .CompositeLit none es =>
    visitNode f s (.CompositeLit none es) (fun s1 => InspectList f s1 es)
  | .CompositeLit (some t) es =>
    visitNode f s (.CompositeLit (some t) es) (fun s1 =>
      match Inspect f s1 t with
      | .ok s2 => InspectList f s2 es
      | .error e => .error e
      | .panic => .panic
      | .diverge => .diverge)
  | .KeyValueExpr k v =>
    visitNode f s (.KeyValueExpr k v) (fun s1 =>
      match Inspect f s1 k with
      | .ok s2 => Inspect f s2 v
      | .error e => .error e
      | .panic => .panic
      | .diverge => .diverge)
  | .CallExpr fn args =>
    visitNode f s (.CallExpr fn args) (fun s1 =>
      match Inspect f s1 fn with
      | .ok s2 => InspectList f s2 args
      | .error e => .error e
      | .panic => .panic
      | .diverge => .diverge)
  | .SelectorExpr x sel =>
    visitNode f s (.SelectorExpr x sel) (fun s1 =>
      match Inspect f s1 x with
      | .ok s2 => visitNode f s2 (.Ident sel) (fun s3 => .ok s3)
      | .error e => .error e
      | .panic => .panic
      | .diverge => .diverge)
  | .StarExpr x => visitNode f s (.StarExpr x) (fun s1 => Inspect f s1 x)
  | .Other t cs => visitNode f s (.Other t cs) (fun s1 => InspectList f s1 cs)
/-- The traversal of a list of nodes, one after the other. -/
def InspectList {σ : Type} (f : σ → Node → Outcome (σ × Bool)) (s : σ) : List Node → Outcome σ
  | [] => .ok s
  | n :: ns =>
    match Inspect f s n with
    | .ok s1 => InspectList f s1 ns
    | .error e => .error e
    | .panic => .panic
    | .diverge => .diverge
end

/-! ## Declaration classifier -/

/-- The import path of the schema package. -/
def schemaPkg : GoString := str "github.com/hashicorp/terraform/helper/schema"

/-- The import path of the provider package. -/
def terraformPkg : GoString := str "github.com/hashicorp/terraform/terraform"

/-- The function `isSelectorFromPackage(imports, sel, pack)` on the selector `X.Sel`. -/
def isSelectorFromPackage (imports : GoMap GoString) (X : Node) (_Sel : GoString)
    (pack : GoString) : Bool :=
  match X with
  | .Ident name => imports.index name == pack
  | _ => false

/-- The function `hasResultSelectorName(imports, f, i, pack, selector)`. -/
def hasResultSelectorName (imports : GoMap GoString) (f : FuncDecl) (i : Nat)
    (pack selector : GoString) : Bool :=
  match f.Results with
  | none => false
  | some list =>
    match list.get? i with
    | none => false
    | some fld =>
      match fld.Typ with
      | .StarExpr (.SelectorExpr x sel) =>
        if sel == selector then isSelectorFromPackage imports x sel pack else false
      | .SelectorExpr x sel =>
        if !isSelectorFromPackage imports x sel pack then false else sel == selector
      | _ => false

/-- The function `isResourceFunc`. -/
def isResourceFunc (imports : GoMap GoString) (f : FuncDecl) : Bool :=
  hasResultSelectorName imports f 0 schemaPkg (str "Resource")

/-- The function `isProviderFunc`. -/
def isProviderFunc (imports : GoMap GoString) (f : FuncDecl) : Bool :=
  hasResultSelectorName imports f 0 terraformPkg (str "ResourceProvider")

/-- The function `isSchemaFunc`. -/
def isSchemaFunc (imports : GoMap GoString) (f : FuncDecl) : Bool :=
  hasResultSelectorName imports f 0 schemaPkg (str "Schema")

/-- Where the classification switch of `Generate` puts a function declaration. -/
inductive DeclKind where
  /-- Stored in `resFuncs`. -/
  | resource
  /-- Stored in `schemaFuncs`. -/
  | schema
  /-- Stored in `provFunc`. -/
  | provider
  /-- No case of the switch applies. -/
  | none
  deriving DecidableEq, Repr

/-- The `switch` of `Generate` over one function declaration: the first case that holds. -/
def classifyDecl (imports : GoMap GoString) (dec : FuncDecl) : DeclKind :=
  if isResourceFunc imports dec then .resource
  else if isSchemaFunc imports dec then .schema
  else if isProviderFunc imports dec then .provider
  else .none

/-! ## Registry extractor -/

/-- The body of the loop of `extractResourceFuncNames`, for one element: the unquoted key and
the callee name. -/
def registryEntry (L : Lib) (e : Node) : Outcome (GoString × GoString) :=
  match e with
  | .KeyValueExpr key value =>
    match key with
    | .BasicLit raw =>
      match L.Unquote raw with
      | none => .error .ErrSyntax
      | some k =>
        match value with
        | .CallExpr (.Ident v) _ => .ok (k, v)
        | _ => .panic
    | _ => .panic
  | _ => .panic

/-- The loop of `extractResourceFuncNames` over the elements. -/
def extractResourceFuncNamesLoop (L : Lib) : GoMap GoString → List Node → Outcome (GoMap GoString)
  | res, [] => .ok res
  | res, e :: es =>
    match registryEntry L e with
    | .ok (k, v) => extractResourceFuncNamesLoop L (res.insert k v) es
    | .error err => .error err
    | .panic => .panic
    | .diverge => .diverge

/-- The function `extractResourceFuncNames(cl)`; `cl` may be nil. -/
def extractResourceFuncNames (L : Lib) (cl : Option CompositeLit) : Outcome (GoMap GoString) :=
  match cl with
  | none => .panic
  | some c => extractResourceFuncNamesLoop L GoMap.empty c.Elts

/-- The value of a registry field, `n.Value.(*ast.CompositeLit)`. -/
def assertCompositeLit (v : Node) : Outcome CompositeLit :=
  match v with
  | .CompositeLit t es => .ok ⟨t, es⟩
  | _ => .panic

/-- The visitor of `extractProviderData`; the state is `(dsAst, rAst)`. -/
def providerVisit (s : Option CompositeLit × Option CompositeLit) (n : Node) :
    Outcome ((Option CompositeLit × Option CompositeLit) × Bool) :=
  match n with
  | .KeyValueExpr (.Ident k) v =>
    if k == str "DataSourcesMap" then
      match assertCompositeLit v with
      | .ok c => .ok ((some c, s.2), s.2.isNone)
      | .error e => .error e
      | .panic => .panic
      | .diverge => .diverge
    else if k == str "ResourcesMap" then
      match assertCompositeLit v with
      | .ok c => .ok ((s.1, some c), s.1.isNone)
      | .error e => .error e
      | .panic => .panic
      | .diverge => .diverge
    else .ok (s, s.1.isNone || s.2.isNone)
  | _ => .ok (s, s.1.isNone || s.2.isNone)

/-- The function `extractProviderData(provFunc)`: the data source and resource registries. -/
def extractProviderData (L : Lib) (provFunc : FuncDecl) :
    Outcome (GoMap GoString × GoMap GoString) :=
  match Inspect providerVisit (none, none) provFunc.toNode with
  | .ok (dsAst, rAst) =>
    match extractResourceFuncNames L dsAst with
    | .ok dataSources =>
      match extractResourceFuncNames L rAst with
      | .ok resources => .ok (dataSources, resources)
      | .error e => .error e
      | .panic => .panic
      | .diverge => .diverge
    | .error e => .error e
    | .panic => .panic
    | .diverge => .diverge
  | .error e => .error e
  | .panic => .panic
  | .diverge => .diverge

/-! ## Field extractor -/

/-- The loop of `keyValue` over the elements of the literal. -/
def keyValueLoop (L : Lib) (needle : GoString) : List Node → Outcome (Option Node)
  | [] => .ok none
  | e :: es =>
    match e with
    | .KeyValueExpr key value =>
      match key with
      | .BasicLit raw =>
        match L.Unquote raw with
        | none => .error .ErrSyntax
        | some k => if k == needle then .ok (some value) else keyValueLoop L needle es
      | .Ident name => if name == needle then .ok (some value) else keyValueLoop L needle es
      | other => .error (.Errorf (str "unexpected key type " ++ other.typeName))
    | _ => .panic

/-- The function `keyValue(haystack, needle)`; `haystack` may be nil. -/
def keyValue (L : Lib) (haystack : Option CompositeLit) (needle : GoString) :
    Outcome (Option Node) :=
  match haystack with
  | none => .panic
  | some h => keyValueLoop L needle h.Elts

/-- The function `stringKeyValue(haystack, needle)`. -/
def stringKeyValue (L : Lib) (haystack : Option CompositeLit) (needle : GoString) :
    Outcome GoString :=
  match keyValue L haystack needle with
  | .ok none => .ok []
  | .ok (some (.BasicLit raw)) =>
    match L.Unquote raw with
    | some s => .ok s
    | none => .panic
  | .ok (some _) => .panic
  | .error _ => .panic
  | .panic => .panic
  | .diverge => .diverge

/-- The function `boolKeyValue(haystack, needle)`. -/
def boolKeyValue (L : Lib) (haystack : Option CompositeLit) (needle : GoString) :
    Outcome Bool :=
  match keyValue L haystack needle with
  | .ok none => .ok false
  | .ok (some (.Ident name)) => .ok (name == str "true")
  | .ok (some _) => .panic
  | .error _ => .panic
  | .panic => .panic
  | .diverge => .diverge

/-- The call `strings.SplitN(s, "\n", 2)`: cut at the first newline byte, if there is one. -/
def splitFirstNewline (s : GoString) : List GoString :=
  match s.span (fun c => c != 10) with
  | (first, []) => [first]
  | (first, _ :: rest) => [first, rest]

/-- The function `skipFirstLine(s)`. -/
def skipFirstLine (s : GoString) : GoString :=
  match splitFirstNewline s with
  | _ :: second :: _ => second
  | _ => []

/-! ## Resource builder and attribute resolver -/

/-- The struct `Attribute` of `resource.go`. A nil slice and an empty one are both `[]`. -/
structure Attribute where
  /-- Field `Name`. -/
  Name : GoString
  /-- Field `Description`. -/
  Description : GoString
  /-- Field `Optional`. -/
  Optional : Bool
  /-- Field `Required`. -/
  Required : Bool
  /-- Field `Computed`. -/
  Computed : Bool
  /-- Field `Attributes`: the attributes of the nested schema. -/
  Attributes : List Attribute
  /-- Field `Min`. -/
  Min : Int
  /-- Field `Max`. -/
  Max : Int
  deriving Repr

/-- The struct `Resource` of `resource.go`, with the field `Type` that `buildResource` assigns
and `outputFile` reads in `generator.go`. -/
structure Resource where
  /-- Field `Provider`. -/
  Provider : GoString
  /-- Field `Name`. -/
  Name : GoString
  /-- Field `NameSuffix`. -/
  NameSuffix : GoString
  /-- Field `ShortDescription`. -/
  ShortDescription : GoString
  /-- Field `Description`. -/
  Description : GoString
  /-- Modelled from the spec: the field `type` of `Resource` (data model), which the
  declaration in `resource.go` does not list; `buildResource` assigns it a string
  (`Type: resourceType`) and `outputFile` slices it (`r.Type[0:1]`). -/
  Typ : GoString
  /-- Field `Attributes`. -/
  Attributes : List Attribute
  deriving Repr

/-- The struct `schemaFunc`; `Func` may be nil (the zero value a missing map key gives). -/
structure schemaFunc where
  /-- Field `Func`. -/
  Func : Option FuncDecl
  /-- Field `CommentMap`: the comments of the file. Nothing reads it. -/
  CommentMap : List GoString
  /-- Field `Imports`. -/
  Imports : GoMap GoString

/-- The visitor of the search for the schema literal of a builder (`appendAttributes`, the
`*ast.CallExpr` case); the state is `childAst`. The diagnostic `fmt.Printf` calls are left out. -/
def childVisit (imports : GoMap GoString) (childAst : Option CompositeLit) (n : Node) :
    Outcome (Option CompositeLit × Bool) :=
  match n with
  | .CompositeLit (some (.SelectorExpr x sel)) es =>
    if !isSelectorFromPackage imports x sel schemaPkg then .ok (childAst, true)
    else if sel != str "Schema" then .ok (childAst, true)
    else .ok (some ⟨some (.SelectorExpr x sel), es⟩, false)
  | _ => .ok (childAst, childAst.isNone)

/-- The search `ast.Inspect(sf.Func, ...)` for the schema literal of the builder `sf`. -/
def findChildAst (sf : schemaFunc) : Outcome (Option CompositeLit) :=
  match sf.Func with
  | none => .panic
  | some fd => Inspect (childVisit sf.Imports) none fd.toNode

/-- The visitor of `walkToSchema`; the state is `schemaAst`. -/
def schemaVisit (schemaAst : Option CompositeLit) (n : Node) :
    Outcome (Option CompositeLit × Bool) :=
  match n with
  | .KeyValueExpr (.Ident k) v =>
    if k == str "Schema" then
      match assertCompositeLit v with
      | .ok c => .ok (some c, false)
      | .error e => .error e
      | .panic => .panic
      | .diverge => .diverge
    else .ok (schemaAst, schemaAst.isNone)
  | _ => .ok (schemaAst, schemaAst.isNone)

/-- The function `walkToSchema(n)` on a non-nil node. -/
def walkToSchema (n : Node) : Outcome (Option CompositeLit) :=
  Inspect schemaVisit none n

/-- A `for` loop over the elements of a literal that stops at the first element whose step
does not return normally. -/
def forElts (step : List Attribute → Node → Outcome (List Attribute)) :
    List Attribute → List Node → Outcome (List Attribute)
  | attrs, [] => .ok attrs
  | attrs, e :: es =>
    match step attrs e with
    | .ok attrs1 => forElts step attrs1 es
    | .error err => .error err
    | .panic => .panic
    | .diverge => .diverge

/-- The body of the loop of `appendAttributes` for one element; `build` is `buildAttribute`
with the builder index supplied. -/
def appendElt (L : Lib) (build : schemaFunc → GoString → Option CompositeLit → Outcome Attribute)
    (rf : schemaFunc) (schemaFuncs : GoMap schemaFunc) (attrs : List Attribute) (e : Node) :
    Outcome (List Attribute) :=
  match e with
  | .KeyValueExpr key value =>
    match key with
    | .BasicLit raw =>
      match L.Unquote raw with
      | none => .error .ErrSyntax
      | some k =>
        match value with
        | .CompositeLit t es =>
          match build rf k (some ⟨t, es⟩) with
          | .ok att => .ok (attrs ++ [att])
          | .error err => .error err
          | .panic => .panic
          | .diverge => .diverge
        | .CallExpr fn _ =>
          match fn with
          | .Ident callName =>
            match schemaFuncs.lookup callName with
            | none => .error (.Errorf (str "unable to find schema func for " ++ callName))
            | some sf =>
              match findChildAst sf with
              | .ok childAst =>
                match build sf k childAst with
                | .ok att => .ok (attrs ++ [att])
                | .error err => .error err
                | .panic => .panic
                | .diverge => .diverge
              | .error err => .error err
              | .panic => .panic
              | .diverge => .diverge
          | _ => .panic
        | v => .error (.Errorf (str "unexpected schema value node " ++ v.typeName))
    | _ => .panic
  | _ => .panic

mutual
/-- The function `appendAttributes(attrs, rf, schemaAst, schemaFuncs)`, with a recursion
budget; the result is the new value of `*attrs`. -/
def appendAttributes (L : Lib) : Nat → List Attribute → schemaFunc → Option CompositeLit →
    GoMap schemaFunc → Outcome (List Attribute)
  | 0, _, _, _, _ => .diverge
  | fuel + 1, attrs, rf, schemaAst, schemaFuncs =>
    match schemaAst with
    | none => .panic
    | some lit =>
      forElts
        (appendElt L (fun sf k c => buildAttribute L fuel sf k c schemaFuncs) rf schemaFuncs)
        attrs lit.Elts
/-- The function `buildAttribute(sf, name, schema, schemaFuncs)`, with a recursion budget. -/
def buildAttribute (L : Lib) : Nat → schemaFunc → GoString → Option CompositeLit →
    GoMap schemaFunc → Outcome Attribute
  | 0, _, _, _, _ => .diverge
  | fuel + 1, sf, name, schema, schemaFuncs =>
    match stringKeyValue L schema (str "Description") with
    | .ok description =>
      match boolKeyValue L schema (str "Required") with
      | .ok required =>
        match boolKeyValue L schema (str "Optional") with
        | .ok optional =>
          match boolKeyValue L schema (str "Computed") with
          | .ok computed =>
            match schema with
            | none => .panic
            | some lit =>
              match walkToSchema lit.toNode with
              | .ok none =>
                .ok ⟨name, L.TrimSpace description, optional, required, computed, [], 0, 0⟩
              | .ok (some childSchema) =>
                match appendAttributes L fuel [] sf (some childSchema) schemaFuncs with
                | .ok atts =>
                  .ok ⟨name, L.TrimSpace description, optional, required, computed, atts, 0, 0⟩
                | .error err => .error err
                | .panic => .panic
                | .diverge => .diverge
              | .error err => .error err
              | .panic => .panic
              | .diverge => .diverge
          | .error err => .error err
          | .panic => .panic
          | .diverge => .diverge
        | .error err => .error err
        | .panic => .panic
        | .diverge => .diverge
      | .error err => .error err
      | .panic => .panic
      | .diverge => .diverge
    | .error err => .error err
    | .panic => .panic
    | .diverge => .diverge
end

/-- The order `sort.Slice` is asked for: `a` may stand before `b` when `b.Name < a.Name`
does not hold. -/
def nameLE (a b : Attribute) : Prop := strLess b.Name a.Name = false

instance : DecidableRel nameLE := fun a b => inferInstanceAs (Decidable (strLess b.Name a.Name = false))

/-- The call `sort.Slice(attrs, func(i, j) bool { return attrs[i].Name < attrs[j].Name })`.
The library promises a permutation in which no element is less than an earlier one, and no
order among equal names; an insertion sort stands for it. -/
def sortByName (attrs : List Attribute) : List Attribute := List.insertionSort nameLE attrs

/-- The function `buildResource(resourceType, name, rf, schemaFuncs)`, with the recursion
budget of `appendAttributes`. -/
def buildResource (L : Lib) (fuel : Nat) (resourceType name : GoString) (rf : schemaFunc)
    (schemaFuncs : GoMap schemaFunc) : Outcome Resource :=
  if name.length < 8 then .panic
  else
    match rf.Func with
    | none => .panic
    | some fd =>
      match fd.Body with
      | none => .panic
      | some body =>
        match walkToSchema body with
        | .ok schemaAst =>
          match appendAttributes L fuel [] rf schemaAst schemaFuncs with
          | .ok attrs =>
            .ok ⟨str "azurerm", name, name.drop 8, [], L.TrimSpace (skipFirstLine fd.Doc),
              resourceType, sortByName attrs⟩
          | .error err => .error err
          | .panic => .panic
          | .diverge => .diverge
        | .error err => .error err
        | .panic => .panic
        | .diverge => .diverge

/-! ## Vocabulary of the properties -/

/-- The children of a node, in the order `ast.Walk` visits them. -/
def Node.children : Node → List Node
  | .Ident _ => []
  | .BasicLit _ => []
  | .CompositeLit t es => t.toList ++ es
  | .KeyValueExpr k v => [k, v]
  | .CallExpr fn args => fn :: args
  | .SelectorExpr x sel => [x, .Ident sel]
  | .StarExpr x => [x]
  | .Other _ cs => cs

/-- The first declared result of `f` has type `q.S` or `*q.S`, where `q` is an identifier
that the map of imports sends to `pack`. -/
def firstResultIs (imports : GoMap GoString) (f : FuncDecl) (pack S : GoString) : Prop :=
  ∃ fld rest q, f.Results = some (fld :: rest) ∧
    (fld.Typ = .SelectorExpr (.Ident q) S ∨ fld.Typ = .StarExpr (.SelectorExpr (.Ident q) S)) ∧
    imports.lookup q = some pack

/-- The key of an element of a literal, for a pair whose key is an identifier or a string
literal (a basic literal that unquotes): the name, or the unquoted text. -/
def keyOf (L : Lib) : Node → Option GoString
  | .KeyValueExpr (.BasicLit raw) _ => L.Unquote raw
  | .KeyValueExpr (.Ident name) _ => some name
  | _ => none

/-- The unquoted key of an element of a schema or registry literal, for a pair whose key is a
string literal. -/
def quotedKey (L : Lib) : Node → Option GoString
  | .KeyValueExpr (.BasicLit raw) _ => L.Unquote raw
  | _ => none

/-- A well-formed registry entry: a string literal key and a call of a bare identifier. -/
def entryOk (L : Lib) (e : Node) : Prop :=
  ∃ raw k g args, e = .KeyValueExpr (.BasicLit raw) (.CallExpr (.Ident g) args) ∧
    L.Unquote raw = some k

/-- The value of the boolean key `n` in the literal: true when the first element keyed `n` has
the identifier `true` as value; false when it has another value or no element is keyed `n`. -/
def flagOf (L : Lib) (F : CompositeLit) (n : GoString) : Bool :=
  match F.Elts.find? (fun e => keyOf L e == some n) with
  | some (.KeyValueExpr _ (.Ident x)) => x == str "true"
  | _ => false

/-- Whether the node is the identifier `name`. -/
def isIdent (name : GoString) : Node → Bool
  | .Ident x => x == name
  | _ => false

/-- Whether the node is a pair keyed by the identifier `name`. -/
def isKeyed (name : GoString) : Node → Bool
  | .KeyValueExpr k _ => isIdent name k
  | _ => false

mutual
/-- Whether the node, or a node below it at any depth, is a pair keyed by the identifier
`name`. -/
def hasKey (name : GoString) : Node → Bool
  | .Ident _ => false
  | .BasicLit _ => false
  | .CompositeLit none es => hasKeyList name es
  | .CompositeLit (some t) es => hasKey name t || hasKeyList name es
  | .KeyValueExpr k v => isIdent name k || hasKey name k || hasKey name v
  | .CallExpr fn args => hasKey name fn || hasKeyList name args
  | .SelectorExpr x _ => hasKey name x
  | .StarExpr x => hasKey name x
  | .Other _ cs => hasKeyList name cs
/-- Whether one of the nodes has such a pair. -/
def hasKeyList (name : GoString) : List Node → Bool
  | [] => false
  | n :: ns => hasKey name n || hasKeyList name ns
end

mutual
/-- The composite literals of a tree, the node itself included, in traversal order. -/
def compositeLits : Node → List CompositeLit
  | .Ident _ => []
  | .BasicLit _ => []
  | .CompositeLit none es => ⟨none, es⟩ :: compositeLitsList es
  | .CompositeLit (some t) es => ⟨some t, es⟩ :: (compositeLits t ++ compositeLitsList es)
  | .KeyValueExpr k v => compositeLits k ++ compositeLits v
  | .CallExpr fn args => compositeLits fn ++ compositeLitsList args
  | .SelectorExpr x _ => compositeLits x
  | .StarExpr x => compositeLits x
  | .Other _ cs => compositeLitsList cs
/-- The composite literals of a list of trees. -/
def compositeLitsList : List Node → List CompositeLit
  | [] => []
  | n :: ns => compositeLits n ++ compositeLitsList ns
end

/-- The node as a composite literal, when it is one. -/
def Node.asLit : Node → Option Websitedoc.CompositeLit
  | .CompositeLit t es => some ⟨t, es⟩
  | _ => none

mutual
/-- The values of the pairs keyed by the identifier `name` in a tree, at any depth, in
traversal order. -/
def keyedValues (name : GoString) : Node → List Node
  | .Ident _ => []
  | .BasicLit _ => []
  | .CompositeLit none es => keyedValuesList name es
  | .CompositeLit (some t) es => keyedValues name t ++ keyedValuesList name es
  | .KeyValueExpr k v =>
    (if isIdent name k then [v] else []) ++ (keyedValues name k ++ keyedValues name v)
  | .CallExpr fn args => keyedValues name fn ++ keyedValuesList name args
  | .SelectorExpr x _ => keyedValues name x
  | .StarExpr x => keyedValues name x
  | .Other _ cs => keyedValuesList name cs
/-- The values of the pairs keyed by the identifier `name` in a list of trees. -/
def keyedValuesList (name : GoString) : List Node → List Node
  | [] => []
  | n :: ns => keyedValues name n ++ keyedValuesList name ns
end

/-- Whether the literal is typed `alias.Schema` with `alias` imported from the schema package. -/
def isSchemaLit (imports : GoMap GoString) (c : CompositeLit) : Bool :=
  match c.Typ with
  | some (.SelectorExpr x sel) =>
    isSelectorFromPackage imports x sel schemaPkg && sel == str "Schema"
  | _ => false

/-- The composite literals of a tree that are typed `alias.Schema`. -/
def schemaLits (imports : GoMap GoString) (n : Node) : List CompositeLit :=
  (compositeLits n).filter (isSchemaLit imports)

/-- The attribute `a` is what the field `e` of a schema literal resolves to, in the context
`rf` and with the recursion budget `fuel` for `buildAttribute`: `e` is a pair of a string
literal key, which unquoted is the name of `a`, and of a literal, from which `a` is built, or
of a call of a builder of the index, from whose schema literal `a` is built. -/
def fieldResolvesTo (L : Lib) (fuel : Nat) (rf : schemaFunc) (schemaFuncs : GoMap schemaFunc)
    (e : Node) (a : Attribute) : Prop :=
  ∃ raw k v, e = .KeyValueExpr (.BasicLit raw) v ∧ L.Unquote raw = some k ∧ a.Name = k ∧
    ((∃ t es, v = .CompositeLit t es ∧
        buildAttribute L fuel rf k (some ⟨t, es⟩) schemaFuncs = .ok a) ∨
     (∃ g args sf childAst, v = .CallExpr (.Ident g) args ∧ schemaFuncs.lookup g = some sf ∧
        findChildAst sf = .ok childAst ∧ buildAttribute L fuel sf k childAst schemaFuncs = .ok a))

/-! ## A library and a package to run the generator on -/

/-- The ASCII white space `strings.TrimSpace` cuts: tab, newline, vertical tab, form feed,
carriage return, space. -/
def asciiSpace (c : UInt8) : Bool := c == 9 || c == 10 || c == 11 || c == 12 || c == 13 || c == 32

/-- A library for plain text. On an interpreted literal whose body is printable ASCII without
quote and backslash, `Unquote` strips the two quotes, as `strconv.Unquote` does. It rejects
every other text: rightly so a text that does not begin with a quote character or is shorter
than two bytes; raw, character and escaped literals, which `strconv.Unquote` accepts, are
outside of this library. `TrimSpace` cuts ASCII white space at both ends, which is what
`strings.TrimSpace` does to ASCII text. -/
def plainLib : Lib where
  Unquote := fun s =>
    match s with
    | 34 :: rest =>
      match rest.reverse with
      | 34 :: body =>
        if body.all (fun c => decide (32 ≤ c) && decide (c < 127) && c != 34 && c != 92)
        then some body.reverse else none
      | _ => none
    | _ => none
  TrimSpace := fun s => ((s.dropWhile asciiSpace).reverse.dropWhile asciiSpace).reverse

/-- The quoted literal of a plain text. -/
def quoted (s : String) : Node := .BasicLit (str ("\"" ++ s ++ "\""))

/-- The expression `schema.Name`. -/
def schemaSel (name : String) : Node := .SelectorExpr (.Ident (str "schema")) (str name)

/-- The pair `key: value` of a struct literal. -/
def kv (key : String) (value : Node) : Node := .KeyValueExpr (.Ident (str key)) value

/-- The imports of the example file: `schema` and `terraform`. -/
def exampleImports : GoMap GoString :=
  ((GoMap.empty.insert (str "schema") schemaPkg).insert (str "terraform") terraformPkg)

/-- The body `return &T{elts}` of a constructor. -/
def returnLit (typ : Node) (elts : List Node) : Node :=
  .Other (str "*ast.BlockStmt")
    [.Other (str "*ast.ReturnStmt") [.Other (str "*ast.UnaryExpr") [.CompositeLit (some typ) elts]]]

/-- The type `map[string]*schema.Schema`. -/
def schemaMapType : Node :=
  .Other (str "*ast.MapType") [.Ident (str "string"), .StarExpr (schemaSel "Schema")]

/-- The field schema `{Type: schema.TypeString, Required: true}`, written with its type
`schema.Schema`. -/
def requiredString : CompositeLit :=
  ⟨some (schemaSel "Schema"), [kv "Type" (schemaSel "TypeString"), kv "Required" (.Ident (str "true"))]⟩

/-- The builder `func nameSchema() *schema.Schema { return &schema.Schema{...} }`. -/
def nameSchemaDecl : FuncDecl :=
  ⟨[], none, str "nameSchema", [], some [⟨[], .StarExpr (schemaSel "Schema")⟩],
    some (returnLit (schemaSel "Schema") requiredString.Elts)⟩

/-- The field `"lun": {Optional: true}` of the example. -/
def lunField : Node :=
  .KeyValueExpr (quoted "lun") (.CompositeLit none [kv "Optional" (.Ident (str "true"))])

/-- The nested schema of the example:
`map[string]*schema.Schema{"lun": {Optional: true}, "name": nameSchema()}`. -/
def lunNameSchema : CompositeLit :=
  ⟨some schemaMapType,
    [lunField, .KeyValueExpr (quoted "name") (.CallExpr (.Ident (str "nameSchema")) [])]⟩

/-- The field schema `{Type: schema.TypeList, Computed: true, Elem: &schema.Resource{Schema:
...}}` of the attribute `alpha` of the example. -/
def alphaField : CompositeLit :=
  ⟨none, [kv "Type" (schemaSel "TypeList"), kv "Computed" (.Ident (str "true")),
    kv "Elem" (.Other (str "*ast.UnaryExpr")
      [.CompositeLit (some (schemaSel "Resource")) [kv "Schema" lunNameSchema.toNode]])]⟩

/-- The schema literal of the example data source:
`map[string]*schema.Schema{"zeta": {...}, "alpha": {..., Elem: &schema.Resource{Schema: ...}}}`. -/
def imageSchema : CompositeLit :=
  ⟨some schemaMapType,
    [.KeyValueExpr (quoted "zeta")
        (.CompositeLit none [kv "Type" (schemaSel "TypeString"), kv "Required" (.Ident (str "true")),
          kv "Description" (quoted " The zeta. ")]),
     .KeyValueExpr (quoted "alpha") alphaField.toNode]⟩

/-- The constructor `func dataSourceArmImage() *schema.Resource` of the example. -/
def dataSourceArmImage : FuncDecl :=
  ⟨str "dataSourceArmImage builds the schema.\nUse this data source to access an Image.\n", none,
    str "dataSourceArmImage", [], some [⟨[], .StarExpr (schemaSel "Resource")⟩],
    some (returnLit (schemaSel "Resource")
      [kv "Read" (.Ident (str "dataSourceArmImageRead")), kv "Schema" imageSchema.toNode])⟩

/-- The builder index of the example: `nameSchema`. -/
def exampleSchemaFuncs : GoMap schemaFunc :=
  GoMap.empty.insert (str "nameSchema") ⟨some nameSchemaDecl, [], exampleImports⟩

/-- The type `map[string]*schema.Resource`. -/
def resourceMapType : Node :=
  .Other (str "*ast.MapType") [.Ident (str "string"), .StarExpr (schemaSel "Resource")]

/-- The registry `map[string]*schema.Resource{"azurerm_image": dataSourceArmImage()}`. -/
def imageRegistry : CompositeLit :=
  ⟨some resourceMapType,
    [.KeyValueExpr (quoted "azurerm_image") (.CallExpr (.Ident (str "dataSourceArmImage")) [])]⟩

/-- A registry that assigns the key `"azurerm_image"` twice:
`{"azurerm_image": oldImage(), "azurerm_image": dataSourceArmImage()}`. -/
def twiceRegistry : CompositeLit :=
  ⟨some resourceMapType,
    [.KeyValueExpr (quoted "azurerm_image") (.CallExpr (.Ident (str "oldImage")) []),
     .KeyValueExpr (quoted "azurerm_image") (.CallExpr (.Ident (str "dataSourceArmImage")) [])]⟩

/-- The provider constructor of the example, with both registries. -/
def providerDecl : FuncDecl :=
  ⟨[], none, str "Provider", [],
    some [⟨[], .SelectorExpr (.Ident (str "terraform")) (str "ResourceProvider")⟩],
    some (returnLit (schemaSel "Provider")
      [kv "DataSourcesMap" imageRegistry.toNode,
       kv "ResourcesMap" (.CompositeLit (some resourceMapType)
          [.KeyValueExpr (quoted "azurerm_image")
            (.CallExpr (.Ident (str "resourceArmImage")) [])])])⟩

/-- The registry `map[string]*schema.Resource{azurerm_image: dataSourceArmImage()}`, whose key
is an identifier, not a string literal. -/
def identKeyRegistry : CompositeLit :=
  ⟨some resourceMapType,
    [.KeyValueExpr (.Ident (str "azurerm_image"))
      (.CallExpr (.Ident (str "dataSourceArmImage")) [])]⟩

/-- A provider constructor whose `DataSourcesMap` has an identifier as key. -/
def identKeyProvider : FuncDecl :=
  ⟨[], none, str "Provider", [],
    some [⟨[], .SelectorExpr (.Ident (str "terraform")) (str "ResourceProvider")⟩],
    some (returnLit (schemaSel "Provider")
      [kv "DataSourcesMap" identKeyRegistry.toNode, kv "ResourcesMap" imageRegistry.toNode])⟩

/-- A provider constructor without the field `ResourcesMap`. -/
def noResourcesProvider : FuncDecl :=
  ⟨[], none, str "Provider", [],
    some [⟨[], .SelectorExpr (.Ident (str "terraform")) (str "ResourceProvider")⟩],
    some (returnLit (schemaSel "Provider") [kv "DataSourcesMap" imageRegistry.toNode])⟩

/-- A constructor whose schema is the nested schema of the example. -/
def lunNameFunc : schemaFunc :=
  ⟨some ⟨[], none, str "dataSourceLun", [], some [⟨[], .StarExpr (schemaSel "Resource")⟩],
      some (returnLit (schemaSel "Resource") [kv "Schema" lunNameSchema.toNode])⟩,
    [], exampleImports⟩

/-- The example constructor with its imports, as `Generate` stores it in `resFuncs`. -/
def imageFunc : schemaFunc := ⟨some dataSourceArmImage, [], exampleImports⟩

/-- The resource the example constructor is resolved to. -/
def imageResource : Resource :=
  ⟨str "azurerm", str "azurerm_image", str "image", [],
    str "Use this data source to access an Image.", str "datasource",
    [⟨str "alpha", [], false, false, true,
        [⟨str "lun", [], true, false, false, [], 0, 0⟩,
         ⟨str "name", [], false, true, false, [], 0, 0⟩], 0, 0⟩,
     ⟨str "zeta", str "The zeta.", false, true, false, [], 0, 0⟩]⟩

/-! ## Import resolver -/

/-- One import declaration of a file, `*ast.ImportSpec`. -/
structure ImportSpec where
  /-- The local name `Name.Name`; nil when the import has none. -/
  Name : Option GoString
  /-- The source text of the path literal, `Path.Value`. -/
  Path : GoString
  deriving Repr

/-- The function `filepath.Base` of the standard library for the separator `/`: the last
element of the path, trailing slashes removed; `.` for the empty path and `/` for a path of
slashes only. Import paths hold no backslash and no colon, so the result is the same where
the separator is the backslash. -/
def filepathBase (path : GoString) : GoString :=
  if path = [] then str "."
  else
    match ((path.reverse.dropWhile (fun c => c == 47)).takeWhile (fun c => c != 47)).reverse with
    | [] => str "/"
    | c :: seg => c :: seg

/-- The body of the import loop of `Generate` for one import: the new value of `imports`. -/
def addImport (L : Lib) (imports : GoMap GoString) (imp : ImportSpec) : Outcome (GoMap GoString) :=
  if imp.Name == some (str "_") then .ok imports
  else
    match L.Unquote imp.Path with
    | none => .error .ErrSyntax
    | some path =>
      match imp.Name with
      | some name =>
        if name != [] then .ok (imports.insert name path)
        else .ok (imports.insert (filepathBase path) path)
      | none => .ok (imports.insert (filepathBase path) path)

/-- The import loop of `Generate` over `file.Imports`, from the value `imports` has so far. -/
def buildImports (L : Lib) : GoMap GoString → List ImportSpec → Outcome (GoMap GoString)
  | imports, [] => .ok imports
  | imports, imp :: imps =>
    match addImport L imports imp with
    | .ok imports1 => buildImports L imports1 imps
    | .error err => .error err
    | .panic => .panic
    | .diverge => .diverge

/-! ## The function `strings.TrimSpace` -/

/-- The number of bytes of the white space character (`unicode.IsSpace`) whose UTF-8 encoding
the text begins with; 0 when it begins with none. The characters are the six of ASCII,
U+0085, U+00A0, U+1680, U+2000 to U+200A, U+2028, U+2029, U+202F, U+205F and U+3000. -/
def spaceWidth : GoString → Nat
  | [] => 0
  | c :: rest =>
    if asciiSpace c then 1
    else
      match rest with
      | [] => 0
      | d :: rest2 =>
        if c == 0xC2 && (d == 0x85 || d == 0xA0) then 2
        else
          match rest2 with
          | [] => 0
          | e :: _ =>
            if c == 0xE1 && d == 0x9A && e == 0x80 then 3
            else if c == 0xE2 && d == 0x80 &&
                ((decide (0x80 ≤ e) && decide (e ≤ 0x8A)) || e == 0xA8 || e == 0xA9 || e == 0xAF)
              then 3
            else if c == 0xE2 && d == 0x81 && e == 0x9F then 3
            else if c == 0xE3 && d == 0x80 && e == 0x80 then 3
            else 0

/-- The same for the end of the text, given with its bytes in reverse order: the number of
bytes of the white space character the text ends with (`utf8.DecodeLastRuneInString`). -/
def spaceWidthRev : GoString → Nat
  | [] => 0
  | e :: rest =>
    if asciiSpace e then 1
    else
      match rest with
      | [] => 0
      | d :: rest2 =>
        if d == 0xC2 && (e == 0x85 || e == 0xA0) then 2
        else
          match rest2 with
          | [] => 0
          | c :: _ =>
            if c == 0xE1 && d == 0x9A && e == 0x80 then 3
            else if c == 0xE2 && d == 0x80 &&
                ((decide (0x80 ≤ e) && decide (e ≤ 0x8A)) || e == 0xA8 || e == 0xA9 || e == 0xAF)
              then 3
            else if c == 0xE2 && d == 0x81 && e == 0x9F then 3
            else if c == 0xE3 && d == 0x80 && e == 0x80 then 3
            else 0

/-- Cut white space characters from the start of the text, at most `n` of them. -/
def trimLeft : Nat → GoString → GoString
  | 0, s => s
  | n + 1, s => if spaceWidth s = 0 then s else trimLeft n (s.drop (spaceWidth s))

/-- Cut white space characters from the end of a text given in reverse order, at most `n`. -/
def trimRightRev : Nat → GoString → GoString
  | 0, s => s
  | n + 1, s => if spaceWidthRev s = 0 then s else trimRightRev n (s.drop (spaceWidthRev s))

/-- The function `strings.TrimSpace(s)` of the standard library, that is
`strings.TrimFunc(s, unicode.IsSpace)`: all white space characters at the start are cut, then
all at the end. -/
def stringsTrimSpace (s : GoString) : GoString :=
  (trimRightRev s.length (trimLeft s.length s).reverse).reverse

/-! ## Vocabulary of the later properties -/

mutual
/-- The largest number of pairs keyed by the identifier `name` that lie one inside the other
in the tree. -/
def keyDepth (name : GoString) : Node → Nat
  | .Ident _ => 0
  | .BasicLit _ => 0
  | .CompositeLit none es => keyDepthList name es
  | .CompositeLit (some t) es => max (keyDepth name t) (keyDepthList name es)
  | .KeyValueExpr k v =>
    (if isIdent name k then 1 else 0) + max (keyDepth name k) (keyDepth name v)
  | .CallExpr fn args => max (keyDepth name fn) (keyDepthList name args)
  | .SelectorExpr x _ => keyDepth name x
  | .StarExpr x => keyDepth name x
  | .Other _ cs => keyDepthList name cs
/-- The largest such number over a list of trees. -/
def keyDepthList (name : GoString) : List Node → Nat
  | [] => 0
  | n :: ns => max (keyDepth name n) (keyDepthList name ns)
end

/-- The nesting depth of a schema literal: one for its own fields, and one more for every
`Schema` pair that lies inside another. -/
def nestingDepth (S : CompositeLit) : Nat := keyDepth (str "Schema") S.toNode + 1

/-- The builder calls the resolution of the field schema `F` meets without entering a
builder: the calls `g(...)` of a bare identifier that are the value of a field of the nested
`Schema` literal of `F`, or of the nested `Schema` literal of such a field, and so on. -/
inductive Reaches : CompositeLit → GoString → Prop where
  /-- A field of the nested schema is a call of `g`. -/
  | call {F S : CompositeLit} {k : Node} {g : GoString} {args : List Node} :
      walkToSchema F.toNode = .ok (some S) →
      Node.KeyValueExpr k (.CallExpr (.Ident g) args) ∈ S.Elts → Reaches F g
  /-- A field of the nested schema is a literal that reaches `g`. -/
  | nested {F S : CompositeLit} {k : Node} {t : Option Node} {es : List Node} {g : GoString} :
      walkToSchema F.toNode = .ok (some S) →
      Node.KeyValueExpr k (.CompositeLit t es) ∈ S.Elts → Reaches ⟨t, es⟩ g → Reaches F g

/-- The builder calls the resolution of the schema literal `S` meets without entering a
builder. -/
def ReachesFrom (S : CompositeLit) (g : GoString) : Prop :=
  (∃ k args, Node.KeyValueExpr k (.CallExpr (.Ident g) args) ∈ S.Elts) ∨
  (∃ k t es, Node.KeyValueExpr k (.CompositeLit t es) ∈ S.Elts ∧ Reaches ⟨t, es⟩ g)

/-- The import `imp` is not a blank import and `k`, `p` is the entry it stands for: `p` is
its unquoted path and `k` its local name, or the base of `p` when it has none. -/
def importEntry (L : Lib) (imp : ImportSpec) (k p : GoString) : Prop :=
  imp.Name ≠ some (str "_") ∧ L.Unquote imp.Path = some p ∧
    ((∃ name, imp.Name = some name ∧ name ≠ [] ∧ k = name) ∨
     ((imp.Name = none ∨ imp.Name = some []) ∧ k = filepathBase p))

/-! ## Further packages to run the generator on -/

/-- The library of `plainLib` with `strings.TrimSpace` in full. -/
def goLib : Lib where
  Unquote := plainLib.Unquote
  TrimSpace := stringsTrimSpace

/-- A constructor without schema field:
`func dataSourceEmpty() *schema.Resource { return &schema.Resource{Read: dataSourceEmptyRead} }`. -/
def emptyFunc : schemaFunc :=
  ⟨some ⟨[], none, str "dataSourceEmpty", [], some [⟨[], .StarExpr (schemaSel "Resource")⟩],
      some (returnLit (schemaSel "Resource") [kv "Read" (.Ident (str "dataSourceEmptyRead"))])⟩,
    [], exampleImports⟩

/-- The schema `{"lun": {Optional: true}, "disk": azure.DiskSchema()}`, whose second field
calls a qualified function. -/
def qualifiedCallSchema : CompositeLit :=
  ⟨some schemaMapType,
    [lunField,
     .KeyValueExpr (quoted "disk")
      (.CallExpr (.SelectorExpr (.Ident (str "azure")) (str "DiskSchema")) [])]⟩

/-- The schema `{"lun": {Optional: true}, "disk": &schema.Schema{...}}`, whose second field is
the address of a literal. -/
def addressOfSchema : CompositeLit :=
  ⟨some schemaMapType,
    [lunField, .KeyValueExpr (quoted "disk") (.Other (str "*ast.UnaryExpr") [requiredString.toNode])]⟩

/-- The field schema `{Type: schema.TypeBool, Required: isRequired}`. -/
def isRequiredField : CompositeLit :=
  ⟨none, [kv "Type" (schemaSel "TypeBool"), kv "Required" (.Ident (str "isRequired"))]⟩

/-- The field schema `{Type: schema.TypeBool, Required: 1}`. -/
def numberRequiredField : CompositeLit :=
  ⟨none, [kv "Type" (schemaSel "TypeBool"), kv "Required" (.BasicLit (str "1"))]⟩

/-- The nested schema `{"zeta": {Optional: true}, "alpha": {Required: true}}`. -/
def zetaAlphaSchema : CompositeLit :=
  ⟨some schemaMapType,
    [.KeyValueExpr (quoted "zeta") (.CompositeLit none [kv "Optional" (.Ident (str "true"))]),
     .KeyValueExpr (quoted "alpha") (.CompositeLit none [kv "Required" (.Ident (str "true"))])]⟩

/-- The field schema `{Type: schema.TypeList, Elem: &schema.Resource{Schema: ...}}` with the
nested schema `zetaAlphaSchema`. -/
def listField : CompositeLit :=
  ⟨none, [kv "Type" (schemaSel "TypeList"),
    kv "Elem" (.Other (str "*ast.UnaryExpr")
      [.CompositeLit (some (schemaSel "Resource")) [kv "Schema" zetaAlphaSchema.toNode]])]⟩

/-- A constructor with the schema `{"disk": listField}`. -/
def diskFunc : schemaFunc :=
  ⟨some ⟨[], none, str "dataSourceDisk", [], some [⟨[], .StarExpr (schemaSel "Resource")⟩],
      some (returnLit (schemaSel "Resource")
        [kv "Schema" (.CompositeLit (some schemaMapType)
          [.KeyValueExpr (quoted "disk") listField.toNode])])⟩,
    [], exampleImports⟩

/-- The resource the constructor `diskFunc` is resolved to: the nested attributes are in the
order of the source, `zeta` before `alpha`. -/
def diskResource : Resource :=
  ⟨str "azurerm", str "azurerm_disk", str "disk", [], [], str "datasource",
    [⟨str "disk", [], false, false, false,
        [⟨str "zeta", [], true, false, false, [], 0, 0⟩,
         ⟨str "alpha", [], false, true, false, [], 0, 0⟩], 0, 0⟩]⟩

/-- The literal `schema.Resource{Schema: A, Schema: B}` with the key `Schema` twice, `A` the
schema of the example and `B` the nested one. -/
def twoSchemas : Node :=
  .CompositeLit (some (schemaSel "Resource"))
    [kv "Schema" imageSchema.toNode, kv "Schema" lunNameSchema.toNode]

/-- The body `return wrapper{Res: &schema.Resource{Schema: A}, Schema: B}`: a pair keyed
`Schema` in a later element of an enclosing literal. -/
def wrapperBody : Node :=
  returnLit (.Ident (str "wrapper"))
    [kv "Res" (.Other (str "*ast.UnaryExpr")
        [.CompositeLit (some (schemaSel "Resource")) [kv "Schema" imageSchema.toNode]]),
     kv "Schema" lunNameSchema.toNode]

/-- The imports `import ( "fmt"; _ "net/http/pprof"; tf "github.com/hashicorp/terraform/terraform";
"github.com/hashicorp/terraform/helper/schema"; fmt "log" )` of a file. -/
def exampleImportSpecs : List ImportSpec :=
  [⟨none, str "\"fmt\""⟩,
   ⟨some (str "_"), str "\"net/http/pprof\""⟩,
   ⟨some (str "tf"), str "\"github.com/hashicorp/terraform/terraform\""⟩,
   ⟨none, str "\"github.com/hashicorp/terraform/helper/schema\""⟩,
   ⟨some (str "fmt"), str "\"log\""⟩]

/-- A builder whose schema literal nests two `Schema` literals:
`&schema.Schema{Elem: &schema.Resource{Schema: {"inner": {Elem: &schema.Resource{Schema:
{"leaf": {Optional: true}}}}}}}`. -/
def deepLit : CompositeLit :=
  ⟨some (schemaSel "Schema"),
    [kv "Elem" (.Other (str "*ast.UnaryExpr")
      [.CompositeLit (some (schemaSel "Resource"))
        [kv "Schema" (.CompositeLit (some schemaMapType)
          [.KeyValueExpr (quoted "inner") (.CompositeLit none
            [kv "Elem" (.Other (str "*ast.UnaryExpr")
              [.CompositeLit (some (schemaSel "Resource"))
                [kv "Schema" (.CompositeLit (some schemaMapType)
                  [.KeyValueExpr (quoted "leaf")
                    (.CompositeLit none [kv "Optional" (.Ident (str "true"))])])]])])])]])]⟩

/-- The builder index with the one builder `deepSchema`, whose schema literal is `deepLit`. -/
def deepSchemaFuncs : GoMap schemaFunc :=
  GoMap.empty.insert (str "deepSchema")
    ⟨some ⟨[], none, str "deepSchema", [], some [⟨[], .StarExpr (schemaSel "Schema")⟩],
        some (returnLit (schemaSel "Schema") deepLit.Elts)⟩, [], exampleImports⟩

/-- The schema `{"deep": deepSchema()}`. -/
def deepCallSchema : CompositeLit :=
  ⟨some schemaMapType,
    [.KeyValueExpr (quoted "deep") (.CallExpr (.Ident (str "deepSchema")) [])]⟩

/-- The schema literal of a builder that calls itself:
`&schema.Schema{Elem: &schema.Resource{Schema: {"self": selfSchema()}}}`. -/
def selfLit : CompositeLit :=
  ⟨some (schemaSel "Schema"),
    [kv "Elem" (.Other (str "*ast.UnaryExpr")
      [.CompositeLit (some (schemaSel "Resource"))
        [kv "Schema" (.CompositeLit (some schemaMapType)
          [.KeyValueExpr (quoted "self") (.CallExpr (.Ident (str "selfSchema")) [])])]])]⟩

/-- The schema literal of a builder that calls a missing builder before it calls itself:
`&schema.Schema{Elem: &schema.Resource{Schema: {"x": missing(), "self": selfSchema()}}}`. -/
def selfAfterMissingLit : CompositeLit :=
  ⟨some (schemaSel "Schema"),
    [kv "Elem" (.Other (str "*ast.UnaryExpr")
      [.CompositeLit (some (schemaSel "Resource"))
        [kv "Schema" (.CompositeLit (some schemaMapType)
          [.KeyValueExpr (quoted "x") (.CallExpr (.Ident (str "missing")) []),
           .KeyValueExpr (quoted "self") (.CallExpr (.Ident (str "selfSchema")) [])])]])]⟩

/-- The builder `selfSchema` with the schema literal `lit`, as `Generate` stores it. -/
def selfBuilder (lit : CompositeLit) : schemaFunc :=
  ⟨some ⟨[], none, str "selfSchema", [], some [⟨[], .StarExpr (schemaSel "Schema")⟩],
      some (returnLit (schemaSel "Schema") lit.Elts)⟩, [], exampleImports⟩

/-- The builder index with the one builder `selfSchema`, whose schema literal is `lit`. -/
def selfSchemaFuncs (lit : CompositeLit) : GoMap schemaFunc :=
  GoMap.empty.insert (str "selfSchema") (selfBuilder lit)

/-- The schema `{"loop": selfSchema()}`. -/
def selfCallSchema : CompositeLit :=
  ⟨some schemaMapType,
    [.KeyValueExpr (quoted "loop") (.CallExpr (.Ident (str "selfSchema")) [])]⟩

/-! ## A chain of builders -/

/-- The element `Elem: &schema.Resource{Schema: map[string]*schema.Schema{fields}}`. -/
def elemSchema (fields : List Node) : Node :=
  kv "Elem" (.Other (str "*ast.UnaryExpr")
    [.CompositeLit (some (schemaSel "Resource"))
      [kv "Schema" (.CompositeLit (some schemaMapType) fields)]])

/-- The schema literal `&schema.Schema{Elem: &schema.Resource{Schema: {"a": {Elem:
&schema.Resource{Schema: {"b": value}}}}}}` of a builder: two `Schema` literals, one inside
the other, and the field `b` of the inner one with the given value. -/
def chainLit (value : Node) : CompositeLit :=
  ⟨some (schemaSel "Schema"),
    [elemSchema [.KeyValueExpr (quoted "a")
      (.CompositeLit none [elemSchema [.KeyValueExpr (quoted "b") value]])]]⟩

/-- The builder `func name() *schema.Schema { return &schema.Schema{...} }` with the schema
literal `lit`, as `Generate` stores it. -/
def chainBuilder (name : String) (lit : CompositeLit) : schemaFunc :=
  ⟨some ⟨[], none, str name, [], some [⟨[], .StarExpr (schemaSel "Schema")⟩],
      some (returnLit (schemaSel "Schema") lit.Elts)⟩, [], exampleImports⟩

/-- The builder index of three builders: the field `b` of `first` calls `second()`, that of
`second` calls `third()`, and that of `third` is the literal `{Optional: true}`. -/
def chainSchemaFuncs : GoMap schemaFunc :=
  ((GoMap.empty.insert (str "third")
      (chainBuilder "third" (chainLit (.CompositeLit none [kv "Optional" (.Ident (str "true"))])))).insert
    (str "second") (chainBuilder "second" (chainLit (.CallExpr (.Ident (str "third")) [])))).insert
    (str "first") (chainBuilder "first" (chainLit (.CallExpr (.Ident (str "second")) [])))

/-- The schema `{"top": first()}`. -/
def chainCallSchema : CompositeLit :=
  ⟨some schemaMapType, [.KeyValueExpr (quoted "top") (.CallExpr (.Ident (str "first")) [])]⟩

/-- What the schema `{"top": first()}` resolves to. -/
def chainAttributes : List Attribute :=
  let leaf (name : String) (inner : List Attribute) : Attribute :=
    ⟨str name, [], false, false, false, inner, 0, 0⟩
  [leaf "top" [leaf "a" [leaf "b" [leaf "a" [leaf "b" [leaf "a"
    [⟨str "b", [], true, false, false, [], 0, 0⟩]]]]]]]

/-! ## Byte order and sorting -/

theorem u8_lt_iff (a b : UInt8) : a < b ↔ a.toNat < b.toNat := Iff.rfl

theorem strLess_asymm : ∀ (a b : GoString), strLess a b = true → strLess b a = false
  | [], [], h => by simp [strLess] at h
  | [], _ :: _, _ => by simp [strLess]
  | _ :: _, [], h => by simp [strLess] at h
  | a :: as, b :: bs, h => by
    unfold strLess at h ⊢
    by_cases h1 : a < b
    · have h2 : ¬ b < a := UInt8.lt_asymm h1
      simp [h1, h2]
    · by_cases h2 : b < a
      · simp [h1, h2] at h
      · simp only [h1, h2, if_false] at h ⊢
        exact strLess_asymm as bs h

theorem strLess_le_trans : ∀ (a b c : GoString),
    strLess b a = false → strLess c b = false → strLess c a = false
  | [], _, c, _, _ => by cases c <;> simp [strLess]
  | _ :: _, [], _, h1, _ => by simp [strLess] at h1
  | _ :: _, _ :: _, [], _, h2 => by simp [strLess] at h2
  | a :: as, b :: bs, c :: cs, h1, h2 => by
    unfold strLess at h1 h2 ⊢
    by_cases hba : b < a
    · simp [hba] at h1
    · by_cases hcb : c < b
      · simp [hcb] at h2
      · simp only [hba, hcb, if_false] at h1 h2
        have hca : ¬ c < a := by
          rw [u8_lt_iff] at hba hcb ⊢; omega
        simp only [hca, if_false]
        by_cases hab : a < b
        · have hac : a < c := by
            rw [u8_lt_iff] at hab hcb ⊢; omega
          simp [hac]
        · simp only [hab, if_false] at h1
          by_cases hbc : b < c
          · have hac : a < c := by
              rw [u8_lt_iff] at hbc hba ⊢; omega
            simp [hac]
          · simp only [hbc, if_false] at h2
            have hac : ¬ a < c := by
              rw [u8_lt_iff] at hab hbc ⊢; omega
            simp only [hac, if_false]
            exact strLess_le_trans as bs cs h1 h2

theorem nameLE_total (a b : Attribute) : nameLE a b ∨ nameLE b a := by
  unfold nameLE
  cases h : strLess b.Name a.Name with
  | false => exact Or.inl rfl
  | true => exact Or.inr (strLess_asymm _ _ h)

theorem nameLE_trans (a b c : Attribute) (h1 : nameLE a b) (h2 : nameLE b c) : nameLE a c := by
  unfold nameLE at *
  exact strLess_le_trans a.Name b.Name c.Name h1 h2

theorem sortByName_sorted (l : List Attribute) : List.Sorted nameLE (sortByName l) :=
  @List.sorted_insertionSort Attribute nameLE _ ⟨nameLE_total⟩ ⟨nameLE_trans⟩ l

theorem sortByName_perm (l : List Attribute) : (sortByName l).Perm l :=
  List.perm_insertionSort nameLE l

/-! ## Declaration classifier -/

theorem index_eq_iff (imports : GoMap GoString) (q pack : GoString) (hp : pack ≠ []) :
    (imports.index q == pack) = true ↔ imports.lookup q = some pack := by
  unfold GoMap.index
  cases h : imports.lookup q with
  | none =>
    simp only [Option.getD_none, beq_iff_eq]
    constructor
    · intro h1; exact absurd h1.symm hp
    · intro h1; cases h1
  | some v => simp

theorem hasResultSelectorName_iff (imports : GoMap GoString) (f : FuncDecl) (pack S : GoString)
    (hp : pack ≠ []) :
    hasResultSelectorName imports f 0 pack S = true ↔ firstResultIs imports f pack S := by
  unfold hasResultSelectorName firstResultIs
  cases hres : f.Results with
  | none => simp
  | some list =>
    cases list with
    | nil => simp
    | cons fld rest =>
      simp only [List.get?_cons_zero, Option.some.injEq, List.cons.injEq]
      constructor
      · intro h
        refine ⟨fld, rest, ?_⟩
        split at h
        · rename_i x sel heq
          split at h
          · rename_i hsel
            unfold isSelectorFromPackage at h
            split at h
            · rename_i q
              have hs : sel = S := by simpa using hsel
              subst hs
              exact ⟨q, ⟨rfl, rfl⟩, Or.inr heq, (index_eq_iff imports q pack hp).1 h⟩
            · cases h
          · cases h
        · rename_i x sel heq
          split at h
          · cases h
          · rename_i hpk
            unfold isSelectorFromPackage at hpk
            split at hpk
            · rename_i q
              have hs : sel = S := by simpa using h
              subst hs
              have hq : (imports.index q == pack) = true := by simpa using hpk
              exact ⟨q, ⟨rfl, rfl⟩, Or.inl heq, (index_eq_iff imports q pack hp).1 hq⟩
            · simp at hpk
        · cases h
      · rintro ⟨fld1, rest1, q, ⟨rfl, rfl⟩, hty, hq⟩
        have hq1 := (index_eq_iff imports q pack hp).2 hq
        rcases hty with hty | hty
        · rw [hty]; simp [isSelectorFromPackage, hq1]
        · rw [hty]; simp [isSelectorFromPackage, hq1]

theorem schemaPkg_ne_nil : schemaPkg ≠ [] := by decide

theorem terraformPkg_ne_nil : terraformPkg ≠ [] := by decide

theorem firstResultIs_selector {imports : GoMap GoString} {f : FuncDecl} {p1 p2 S1 S2 : GoString}
    (h1 : firstResultIs imports f p1 S1) (h2 : firstResultIs imports f p2 S2) : S1 = S2 := by
  obtain ⟨fld1, rest1, q1, hr1, ht1, _⟩ := h1
  obtain ⟨fld2, rest2, q2, hr2, ht2, _⟩ := h2
  rw [hr1] at hr2
  have hf : fld1 = fld2 := by
    have := Option.some.inj hr2
    exact (List.cons.inj this).1
  subst hf
  rcases ht1 with ht1 | ht1 <;> rcases ht2 with ht2 | ht2 <;> rw [ht1] at ht2 <;>
    first
    | (cases ht2; rfl)
    | cases ht2

/-- C7: each of the three classifiers holds exactly when the function declares a result and the
type of its first result is `q.S` or `*q.S`, `q` an identifier the import map sends to the
package path of that classifier and `S` its symbol; a function without results is put in no
index. -/
theorem classifier_iff_first_result (imports : GoMap GoString) (f : FuncDecl) :
    (isResourceFunc imports f = true ↔ firstResultIs imports f schemaPkg (str "Resource")) ∧
    (isSchemaFunc imports f = true ↔ firstResultIs imports f schemaPkg (str "Schema")) ∧
    (isProviderFunc imports f = true ↔
      firstResultIs imports f terraformPkg (str "ResourceProvider")) ∧
    ((f.Results = none ∨ f.Results = some []) → classifyDecl imports f = .none) ∧
    ((¬ ∃ pack S, firstResultIs imports f pack S) → classifyDecl imports f = .none) := by
  have hR := hasResultSelectorName_iff imports f schemaPkg (str "Resource") schemaPkg_ne_nil
  have hS := hasResultSelectorName_iff imports f schemaPkg (str "Schema") schemaPkg_ne_nil
  have hP := hasResultSelectorName_iff imports f terraformPkg (str "ResourceProvider")
    terraformPkg_ne_nil
  refine ⟨hR, hS, hP, ?_, ?_⟩
  · intro h
    have hno : ∀ pack S, ¬ firstResultIs imports f pack S := by
      rintro pack S ⟨fld, rest, q, hr, _⟩
      rcases h with h | h <;> rw [h] at hr <;> simp at hr
    have h1 : isResourceFunc imports f = false := by
      rw [Bool.eq_false_iff]; exact fun hh => hno _ _ (hR.1 hh)
    have h2 : isSchemaFunc imports f = false := by
      rw [Bool.eq_false_iff]; exact fun hh => hno _ _ (hS.1 hh)
    have h3 : isProviderFunc imports f = false := by
      rw [Bool.eq_false_iff]; exact fun hh => hno _ _ (hP.1 hh)
    simp [classifyDecl, h1, h2, h3]
  · intro h
    have h1 : isResourceFunc imports f = false := by
      rw [Bool.eq_false_iff]; exact fun hh => h ⟨_, _, hR.1 hh⟩
    have h2 : isSchemaFunc imports f = false := by
      rw [Bool.eq_false_iff]; exact fun hh => h ⟨_, _, hS.1 hh⟩
    have h3 : isProviderFunc imports f = false := by
      rw [Bool.eq_false_iff]; exact fun hh => h ⟨_, _, hP.1 hh⟩
    simp [classifyDecl, h1, h2, h3]

/-- C8: no function declaration satisfies two of the three classifiers, so the case of the
classification switch a declaration takes is the one classifier that holds of it, whatever
the order of the cases. -/
theorem classifier_exclusive (imports : GoMap GoString) (f : FuncDecl) :
    ¬ (isResourceFunc imports f = true ∧ isSchemaFunc imports f = true) ∧
    ¬ (isResourceFunc imports f = true ∧ isProviderFunc imports f = true) ∧
    ¬ (isSchemaFunc imports f = true ∧ isProviderFunc imports f = true) ∧
    (classifyDecl imports f = .resource ↔ isResourceFunc imports f = true) ∧
    (classifyDecl imports f = .schema ↔ isSchemaFunc imports f = true) ∧
    (classifyDecl imports f = .provider ↔ isProviderFunc imports f = true) := by
  have hR := hasResultSelectorName_iff imports f schemaPkg (str "Resource") schemaPkg_ne_nil
  have hS := hasResultSelectorName_iff imports f schemaPkg (str "Schema") schemaPkg_ne_nil
  have hP := hasResultSelectorName_iff imports f terraformPkg (str "ResourceProvider")
    terraformPkg_ne_nil
  have hRS : ¬ (isResourceFunc imports f = true ∧ isSchemaFunc imports f = true) := by
    rintro ⟨h1, h2⟩
    have := firstResultIs_selector (hR.1 h1) (hS.1 h2)
    revert this; decide
  have hRP : ¬ (isResourceFunc imports f = true ∧ isProviderFunc imports f = true) := by
    rintro ⟨h1, h2⟩
    have := firstResultIs_selector (hR.1 h1) (hP.1 h2)
    revert this; decide
  have hSP : ¬ (isSchemaFunc imports f = true ∧ isProviderFunc imports f = true) := by
    rintro ⟨h1, h2⟩
    have := firstResultIs_selector (hS.1 h1) (hP.1 h2)
    revert this; decide
  refine ⟨hRS, hRP, hSP, ?_, ?_, ?_⟩
  · unfold classifyDecl
    cases h1 : isResourceFunc imports f <;> cases h2 : isSchemaFunc imports f <;>
      cases h3 : isProviderFunc imports f <;> simp
  · unfold classifyDecl
    cases h1 : isResourceFunc imports f <;> cases h2 : isSchemaFunc imports f <;>
      cases h3 : isProviderFunc imports f <;> simp_all
  · unfold classifyDecl
    cases h1 : isResourceFunc imports f <;> cases h2 : isSchemaFunc imports f <;>
      cases h3 : isProviderFunc imports f <;> simp_all

/-! ## The traversal -/

theorem InspectList_singleton {σ : Type} (f : σ → Node → Outcome (σ × Bool)) (s : σ) (n : Node) :
    InspectList f s [n] = Inspect f s n := by
  unfold InspectList
  cases Inspect f s n <;> simp [InspectList]

theorem Inspect_eq {σ : Type} (f : σ → Node → Outcome (σ × Bool)) (s : σ) (n : Node) :
    Inspect f s n = visitNode f s n (fun s1 => InspectList f s1 n.children) := by
  cases n with
  | Ident x => simp [Inspect, Node.children, InspectList]
  | BasicLit v => simp [Inspect, Node.children, InspectList]
  | CompositeLit t es =>
    cases t with
    | none => simp [Inspect, Node.children]
    | some t => simp [Inspect, Node.children, InspectList]
  | KeyValueExpr k v =>
    simp only [Inspect, Node.children]
    congr 1
    funext s1
    rw [InspectList]
    cases Inspect f s1 k <;> simp [InspectList_singleton]
  | CallExpr fn args => simp [Inspect, Node.children, InspectList]
  | SelectorExpr x sel =>
    simp only [Inspect, Node.children]
    congr 1
    funext s1
    rw [InspectList]
    cases Inspect f s1 x <;> simp [InspectList_singleton, Inspect]
  | StarExpr x => simp [Inspect, Node.children, InspectList_singleton]
  | Other t cs => simp [Inspect, Node.children]

mutual
theorem Node.induct {P : Node → Prop} (h : ∀ n, (∀ c ∈ n.children, P c) → P n) : ∀ n, P n
  | .Ident x => h _ (by simp [Node.children])
  | .BasicLit v => h _ (by simp [Node.children])
  | .CompositeLit none es => h _ (by
      simpa [Node.children] using Node.inductList h es)
  | .CompositeLit (some t) es => h _ (by
      intro c hc
      simp only [Node.children, Option.toList, List.singleton_append, List.mem_cons] at hc
      rcases hc with hc | hc
      · rw [hc]; exact Node.induct h t
      · exact Node.inductList h es c hc)
  | .KeyValueExpr k v => h _ (by
      intro c hc
      simp only [Node.children, List.mem_cons, List.mem_singleton, List.not_mem_nil,
        or_false] at hc
      rcases hc with hc | hc
      · rw [hc]; exact Node.induct h k
      · rw [hc]; exact Node.induct h v)
  | .CallExpr fn args => h _ (by
      intro c hc
      simp only [Node.children, List.mem_cons] at hc
      rcases hc with hc | hc
      · rw [hc]; exact Node.induct h fn
      · exact Node.inductList h args c hc)
  | .SelectorExpr x sel => h _ (by
      intro c hc
      simp only [Node.children, List.mem_cons, List.mem_singleton, List.not_mem_nil,
        or_false] at hc
      rcases hc with hc | hc
      · rw [hc]; exact Node.induct h x
      · rw [hc]; exact h _ (by simp [Node.children]))
  | .StarExpr x => h _ (by
      intro c hc
      simp only [Node.children, List.mem_singleton] at hc
      rw [hc]
      exact Node.induct h x)
  | .Other t cs => h _ (by
      simpa [Node.children] using Node.inductList h cs)
theorem Node.inductList {P : Node → Prop} (h : ∀ n, (∀ c ∈ n.children, P c) → P n) :
    ∀ ns : List Node, ∀ c ∈ ns, P c
  | [] => fun c hc => by cases hc
  | n :: ns => fun c hc => by
    rcases List.mem_cons.1 hc with h1 | h1
    · rw [h1]; exact Node.induct h n
    · exact Node.inductList h ns c h1
end

theorem hasKeyList_append (name : GoString) :
    ∀ as bs : List Node, hasKeyList name (as ++ bs) = (hasKeyList name as || hasKeyList name bs)
  | [], bs => by simp [hasKeyList]
  | a :: as, bs => by simp [hasKeyList, hasKeyList_append name as bs, Bool.or_assoc]

theorem hasKey_eq (name : GoString) (n : Node) :
    hasKey name n = (isKeyed name n || hasKeyList name n.children) := by
  cases n with
  | Ident x => simp [hasKey, isKeyed, Node.children, hasKeyList]
  | BasicLit v => simp [hasKey, isKeyed, Node.children, hasKeyList]
  | CompositeLit t es =>
    cases t with
    | none => simp [hasKey, isKeyed, Node.children]
    | some t => simp [hasKey, isKeyed, Node.children, hasKeyList]
  | KeyValueExpr k v => simp [hasKey, isKeyed, Node.children, hasKeyList, Bool.or_assoc]
  | CallExpr fn args => simp [hasKey, isKeyed, Node.children, hasKeyList]
  | SelectorExpr x sel => simp [hasKey, isKeyed, Node.children, hasKeyList]
  | StarExpr x => simp [hasKey, isKeyed, Node.children, hasKeyList]
  | Other t cs => simp [hasKey, isKeyed, Node.children]

theorem hasKeyList_false {name : GoString} {ns : List Node} (h : hasKeyList name ns = false) :
    ∀ c ∈ ns, hasKey name c = false := by
  induction ns with
  | nil => intro c hc; cases hc
  | cons n ns ih =>
    simp only [hasKeyList, Bool.or_eq_false_iff] at h
    intro c hc
    rcases List.mem_cons.1 hc with h1 | h1
    · subst h1; exact h.1
    · exact ih h.2 c h1

/-! ## The search of `walkToSchema` -/

theorem schemaVisit_of_not_keyed (s : Option CompositeLit) (n : Node)
    (h : isKeyed (str "Schema") n = false) : schemaVisit s n = .ok (s, s.isNone) := by
  unfold schemaVisit
  split
  · rename_i k v
    split
    · rename_i hk
      simp [isKeyed, isIdent, hk] at h
    · rfl
  · rfl

theorem walkList_unchanged :
    ∀ ns : List Node,
      (∀ c ∈ ns, ∀ s, Inspect schemaVisit s c = .ok s) →
      ∀ s, InspectList schemaVisit s ns = .ok s
  | [], _, s => by simp [InspectList]
  | n :: ns, h, s => by
    simp [InspectList, h n (List.mem_cons_self _ _) s,
      walkList_unchanged ns (fun c hc => h c (List.mem_cons_of_mem _ hc)) s]

theorem walk_unchanged : ∀ n : Node, hasKey (str "Schema") n = false →
    ∀ s, Inspect schemaVisit s n = .ok s := by
  intro n
  induction n using Node.induct with
  | h n ih =>
    intro hk s
    rw [hasKey_eq, Bool.or_eq_false_iff] at hk
    rw [Inspect_eq, visitNode, schemaVisit_of_not_keyed s n hk.1]
    cases s with
    | some c => rfl
    | none =>
      exact walkList_unchanged n.children
        (fun c hc s => ih c hc (hasKeyList_false hk.2 c hc) s) none

theorem walkToSchema_none_of_no_key (n : Node) (h : hasKey (str "Schema") n = false) :
    walkToSchema n = .ok none :=
  walk_unchanged n h none

/-! ## Invariants of a traversal -/

theorem InspectList_rel {σ : Type} (f : σ → Node → Outcome (σ × Bool)) (R : σ → σ → Prop)
    (p : Prop) (hrefl : ∀ s, R s s) (htrans : ∀ a b c, R a b → R b c → R a c) :
    ∀ cs : List Node,
      (∀ c ∈ cs, ∀ s, (∃ s1, Inspect f s c = .ok s1 ∧ R s s1) ∨ (p ∧ Inspect f s c = .panic)) →
      ∀ s, (∃ s1, InspectList f s cs = .ok s1 ∧ R s s1) ∨ (p ∧ InspectList f s cs = .panic)
  | [], _, s => Or.inl ⟨s, rfl, hrefl s⟩
  | c :: cs, h, s => by
    rcases h c (List.mem_cons_self _ _) s with ⟨s1, h1, r1⟩ | ⟨hp, h1⟩
    · rcases InspectList_rel f R p hrefl htrans cs
          (fun c1 hc1 => h c1 (List.mem_cons_of_mem _ hc1)) s1 with ⟨s2, h2, r2⟩ | ⟨hp, h2⟩
      · exact Or.inl ⟨s2, by simp [InspectList, h1, h2], htrans _ _ _ r1 r2⟩
      · exact Or.inr ⟨hp, by simp [InspectList, h1, h2]⟩
    · exact Or.inr ⟨hp, by simp [InspectList, h1]⟩

/-- A relation between the state before and after, kept by every call of the visitor on the
nodes of a tree, is kept by the traversal of the tree; the traversal panics only if the
visitor may. -/
theorem Inspect_rel {σ : Type} (f : σ → Node → Outcome (σ × Bool)) (R : σ → σ → Prop)
    (Q : Node → Prop) (p : Prop) (hrefl : ∀ s, R s s) (htrans : ∀ a b c, R a b → R b c → R a c)
    (hQ : ∀ n, Q n → ∀ c ∈ n.children, Q c)
    (hstep : ∀ s n, Q n → (∃ s1 b, f s n = .ok (s1, b) ∧ R s s1) ∨ (p ∧ f s n = .panic)) :
    ∀ n, Q n → ∀ s, (∃ s1, Inspect f s n = .ok s1 ∧ R s s1) ∨ (p ∧ Inspect f s n = .panic) := by
  intro n
  induction n using Node.induct with
  | h n ih =>
    intro hq s
    rw [Inspect_eq, visitNode]
    rcases hstep s n hq with ⟨s1, b, hf, hr⟩ | ⟨hp, hf⟩
    · rw [hf]
      cases b with
      | false => exact Or.inl ⟨s1, rfl, hr⟩
      | true =>
        rcases InspectList_rel f R p hrefl htrans n.children
            (fun c hc s => ih c hc (hQ n hq c hc) s) s1 with ⟨s2, h2, r2⟩ | ⟨hp, h2⟩
        · exact Or.inl ⟨s2, h2, htrans _ _ _ hr r2⟩
        · exact Or.inr ⟨hp, h2⟩
    · rw [hf]
      exact Or.inr ⟨hp, rfl⟩

theorem InspectList_progress {σ : Type} (f : σ → Node → Outcome (σ × Bool)) (D : σ → Prop)
    (H : Node → Prop) :
    ∀ cs : List Node,
      (∀ c ∈ cs, ∀ s s1, D s → Inspect f s c = .ok s1 → D s1) →
      (∀ c ∈ cs, H c → ∀ s s1, Inspect f s c = .ok s1 → D s1) →
      ∀ s s1, (D s ∨ ∃ c ∈ cs, H c) → InspectList f s cs = .ok s1 → D s1
  | [], _, _, s, s1, hd, h => by
    simp only [InspectList, Outcome.ok.injEq] at h
    subst h
    rcases hd with hd | ⟨c, hc, _⟩
    · exact hd
    · cases hc
  | c :: cs, hpres, hprog, s, s1, hd, h => by
    unfold InspectList at h
    split at h
    · rename_i s2 h2
      have ih := InspectList_progress f D H cs
        (fun c1 hc1 => hpres c1 (List.mem_cons_of_mem _ hc1))
        (fun c1 hc1 => hprog c1 (List.mem_cons_of_mem _ hc1)) s2 s1
      apply ih _ h
      rcases hd with hd | ⟨c1, hc1, hH⟩
      · exact Or.inl (hpres c (List.mem_cons_self _ _) s s2 hd h2)
      · rcases List.mem_cons.1 hc1 with h3 | h3
        · subst h3
          exact Or.inl (hprog c1 (List.mem_cons_self _ _) hH s s2 h2)
        · exact Or.inr ⟨c1, h3, hH⟩
    all_goals cases h

/-- When the visitor sets the state to "found" on every target node, keeps a found state
found, and descends as long as nothing is found, the traversal of a tree that holds a target
ends in a found state. -/
theorem Inspect_progress {σ : Type} (f : σ → Node → Outcome (σ × Bool)) (D : σ → Prop)
    (T H : Node → Prop)
    (hH : ∀ n, H n → T n ∨ ∃ c ∈ n.children, H c)
    (hT : ∀ s n s1 b, T n → f s n = .ok (s1, b) → D s1)
    (hD : ∀ s n s1 b, D s → f s n = .ok (s1, b) → D s1)
    (hgo : ∀ s n s1 b, f s n = .ok (s1, b) → ¬ D s1 → b = true) :
    ∀ n, (∀ s s1, D s → Inspect f s n = .ok s1 → D s1) ∧
      (H n → ∀ s s1, Inspect f s n = .ok s1 → D s1) := by
  intro n
  induction n using Node.induct with
  | h n ih =>
    have hpres : ∀ s s1, D s → Inspect f s n = .ok s1 → D s1 := by
      intro s s1 hd h
      rw [Inspect_eq, visitNode] at h
      split at h
      · rename_i s2 hf
        exact InspectList_progress f D H n.children (fun c hc => (ih c hc).1)
          (fun c hc => (ih c hc).2) s2 s1 (Or.inl (hD s n s2 true hd hf)) h
      · rename_i s2 hf
        injection h with h
        subst h
        exact hD s n s2 false hd hf
      all_goals cases h
    refine ⟨hpres, ?_⟩
    intro hh s s1 h
    rw [Inspect_eq, visitNode] at h
    split at h
    · rename_i s2 hf
      apply InspectList_progress f D H n.children (fun c hc => (ih c hc).1)
        (fun c hc => (ih c hc).2) s2 s1 _ h
      rcases hH n hh with ht | hc
      · exact Or.inl (hT s n s2 true ht hf)
      · exact Or.inr hc
    · rename_i s2 hf
      injection h with h
      subst h
      by_contra hnd
      have := hgo s n s2 false hf hnd
      cases this
    all_goals cases h

/-! ## What `walkToSchema` finds -/

theorem mem_keyedValuesList {name : GoString} {v : Node} :
    ∀ {ns : List Node}, v ∈ keyedValuesList name ns ↔ ∃ c ∈ ns, v ∈ keyedValues name c
  | [] => by simp [keyedValuesList]
  | n :: ns => by
    simp only [keyedValuesList, List.mem_append, List.exists_mem_cons_iff]
    rw [mem_keyedValuesList]

theorem mem_keyedValues_child {name : GoString} {v : Node} (n c : Node) (hc : c ∈ n.children)
    (hv : v ∈ keyedValues name c) : v ∈ keyedValues name n := by
  cases n with
  | Ident x => simp [Node.children] at hc
  | BasicLit x => simp [Node.children] at hc
  | CompositeLit t es =>
    cases t with
    | none =>
      simp only [Node.children, Option.toList, List.nil_append] at hc
      simp only [keyedValues, mem_keyedValuesList]
      exact ⟨c, hc, hv⟩
    | some t =>
      simp only [Node.children, Option.toList, List.singleton_append, List.mem_cons] at hc
      simp only [keyedValues, List.mem_append, mem_keyedValuesList]
      rcases hc with hc | hc
      · subst hc; exact Or.inl hv
      · exact Or.inr ⟨c, hc, hv⟩
  | KeyValueExpr k v1 =>
    simp only [Node.children, List.mem_cons, List.mem_singleton, List.not_mem_nil,
      or_false] at hc
    simp only [keyedValues, List.mem_append]
    rcases hc with hc | hc
    · subst hc; exact Or.inr (Or.inl hv)
    · subst hc; exact Or.inr (Or.inr hv)
  | CallExpr fn args =>
    simp only [Node.children, List.mem_cons] at hc
    simp only [keyedValues, List.mem_append, mem_keyedValuesList]
    rcases hc with hc | hc
    · subst hc; exact Or.inl hv
    · exact Or.inr ⟨c, hc, hv⟩
  | SelectorExpr x sel =>
    simp only [Node.children, List.mem_cons, List.mem_singleton, List.not_mem_nil,
      or_false] at hc
    rcases hc with hc | hc
    · subst hc; simpa [keyedValues] using hv
    · subst hc; simp [keyedValues] at hv
  | StarExpr x =>
    simp only [Node.children, List.mem_singleton] at hc
    subst hc
    simpa [keyedValues] using hv
  | Other t cs =>
    simp only [Node.children] at hc
    simp only [keyedValues, mem_keyedValuesList]
    exact ⟨c, hc, hv⟩

theorem schemaVisit_cases (s : Option CompositeLit) (n : Node) :
    (isKeyed (str "Schema") n = true ∧ ∃ k v, n = .KeyValueExpr k v ∧
      ((∃ c, v.asLit = some c ∧ schemaVisit s n = .ok (some c, false)) ∨
        schemaVisit s n = .panic)) ∨
    (isKeyed (str "Schema") n = false ∧ schemaVisit s n = .ok (s, s.isNone)) := by
  by_cases hk : isKeyed (str "Schema") n = true
  · left
    refine ⟨hk, ?_⟩
    cases n with
    | KeyValueExpr k v =>
      refine ⟨k, v, rfl, ?_⟩
      cases k with
      | Ident x =>
        have hx : (x == str "Schema") = true := by simpa [isKeyed, isIdent] using hk
        cases v with
        | CompositeLit t es =>
          exact Or.inl ⟨⟨t, es⟩, rfl, by simp [schemaVisit, hx, assertCompositeLit]⟩
        | _ => exact Or.inr (by simp [schemaVisit, hx, assertCompositeLit])
      | _ => simp [isKeyed, isIdent] at hk
    | _ => simp [isKeyed] at hk
  · right
    have hk1 : isKeyed (str "Schema") n = false := by simpa using hk
    exact ⟨hk1, schemaVisit_of_not_keyed s n hk1⟩

theorem keyedValues_self {name : GoString} {k v : Node}
    (h : isKeyed name (.KeyValueExpr k v) = true) : v ∈ keyedValues name (.KeyValueExpr k v) := by
  have h1 : isIdent name k = true := h
  simp [keyedValues, h1]

/-- The search of `walkToSchema` panics or returns; what it returns is the value, a composite
literal, of a pair keyed `Schema` of the tree, and it is not nil when the tree has such a
pair. -/
theorem walkToSchema_spec (root : Node) :
    walkToSchema root = .panic ∨
    ∃ r, walkToSchema root = .ok r ∧
      (∀ c, r = some c → c.toNode ∈ keyedValues (str "Schema") root) ∧
      (hasKey (str "Schema") root = true → r ≠ none) := by
  have hsound := Inspect_rel schemaVisit
    (fun s s1 => s1 = s ∨ ∃ c, c.toNode ∈ keyedValues (str "Schema") root ∧ s1 = some c)
    (fun n => ∀ x ∈ keyedValues (str "Schema") n, x ∈ keyedValues (str "Schema") root) True
    (fun s => Or.inl rfl)
    (by
      rintro a b c (h1 | h1) (h2 | h2)
      · exact Or.inl (h2.trans h1)
      · exact Or.inr h2
      · exact Or.inr (h2 ▸ h1)
      · exact Or.inr h2)
    (fun n hq c hc x hx => hq x (mem_keyedValues_child n c hc hx))
    (by
      intro s n hq
      rcases schemaVisit_cases s n with ⟨hk, k, v, hn, h⟩ | ⟨_, h⟩
      · rcases h with ⟨c, hc, hv⟩ | hv
        · left
          refine ⟨some c, false, hv, Or.inr ⟨c, ?_, rfl⟩⟩
          subst hn
          have hmem := hq v (keyedValues_self hk)
          cases v with
          | CompositeLit t es =>
            simp only [Node.asLit, Option.some.injEq] at hc
            subst hc
            exact hmem
          | _ => simp [Node.asLit] at hc
        · exact Or.inr ⟨trivial, hv⟩
      · exact Or.inl ⟨s, s.isNone, h, Or.inl rfl⟩)
    root (fun x hx => hx) none
  rcases hsound with ⟨r, hr, hrel⟩ | ⟨_, hp⟩
  · right
    refine ⟨r, hr, ?_, ?_⟩
    · intro c hc
      rcases hrel with h1 | ⟨c1, hc1, h1⟩
      · rw [h1] at hc; cases hc
      · rw [h1] at hc; cases hc; exact hc1
    · intro hkey
      exact (Inspect_progress schemaVisit (fun s => s ≠ none)
        (fun n => isKeyed (str "Schema") n = true) (fun n => hasKey (str "Schema") n = true)
        (by
          intro n hn
          rw [hasKey_eq, Bool.or_eq_true] at hn
          rcases hn with hn | hn
          · exact Or.inl hn
          · right
            by_contra hno
            have hall : ∀ c ∈ n.children, hasKey (str "Schema") c = false := by
              intro c hc
              by_contra h1
              exact hno ⟨c, hc, by simpa using h1⟩
            have : hasKeyList (str "Schema") n.children = false := by
              generalize n.children = cs at hall
              induction cs with
              | nil => rfl
              | cons c cs ih =>
                simp only [hasKeyList, Bool.or_eq_false_iff]
                exact ⟨hall c (List.mem_cons_self _ _),
                  ih (fun c1 hc1 => hall c1 (List.mem_cons_of_mem _ hc1))⟩
            rw [this] at hn
            cases hn)
        (by
          intro s n s1 b ht hv
          rcases schemaVisit_cases s n with ⟨_, k, v, hn, h⟩ | ⟨hk, _⟩
          · rcases h with ⟨c, _, hv1⟩ | hv1
            · rw [hv1] at hv
              injection hv with hv
              injection hv with hv _
              rw [← hv]; simp
            · rw [hv1] at hv; cases hv
          · rw [hk] at ht; cases ht)
        (by
          intro s n s1 b hd hv
          rcases schemaVisit_cases s n with ⟨_, k, v, hn, h⟩ | ⟨_, hv1⟩
          · rcases h with ⟨c, _, hv1⟩ | hv1
            · rw [hv1] at hv
              injection hv with hv
              injection hv with hv _
              rw [← hv]; simp
            · rw [hv1] at hv; cases hv
          · rw [hv1] at hv
            injection hv with hv
            injection hv with hv _
            rw [← hv]; exact hd)
        (by
          intro s n s1 b hv hnd
          rcases schemaVisit_cases s n with ⟨_, k, v, hn, h⟩ | ⟨_, hv1⟩
          · rcases h with ⟨c, _, hv1⟩ | hv1
            · rw [hv1] at hv
              injection hv with hv
              injection hv with hv _
              rw [← hv] at hnd; simp at hnd
            · rw [hv1] at hv; cases hv
          · rw [hv1] at hv
            injection hv with hv
            injection hv with hv hb
            rw [← hb]
            rw [← hv] at hnd
            cases s with
            | none => rfl
            | some c => simp at hnd)
        root).2 hkey none r hr
  · exact Or.inl hp

theorem walkToSchema_found {root : Node} {S : CompositeLit}
    (h : walkToSchema root = .ok (some S)) : S.toNode ∈ keyedValues (str "Schema") root := by
  rcases walkToSchema_spec root with hp | ⟨r, hr, hmem, _⟩
  · rw [hp] at h; cases h
  · rw [hr] at h
    injection h with h
    exact hmem S h

theorem walkToSchema_some_of_key {root : Node} {r : Option CompositeLit}
    (hkey : hasKey (str "Schema") root = true) (h : walkToSchema root = .ok r) :
    ∃ S, r = some S ∧ S.toNode ∈ keyedValues (str "Schema") root := by
  rcases walkToSchema_spec root with hp | ⟨r1, hr, hmem, hne⟩
  · rw [hp] at h; cases h
  · rw [hr] at h
    injection h with h
    subst h
    cases r1 with
    | none => exact absurd rfl (hne hkey)
    | some S => exact ⟨S, rfl, hmem S rfl⟩

/-! ## Field extractor -/

theorem keyValueLoop_absent (L : Lib) (n : GoString) :
    ∀ elts : List Node, (∀ e ∈ elts, keyOf L e ≠ none) → (∀ e ∈ elts, keyOf L e ≠ some n) →
      keyValueLoop L n elts = .ok none
  | [], _, _ => rfl
  | e :: es, hk, hn => by
    have hk1 := hk e (List.mem_cons_self _ _)
    have hn1 := hn e (List.mem_cons_self _ _)
    have ih := keyValueLoop_absent L n es (fun e1 h1 => hk e1 (List.mem_cons_of_mem _ h1))
      (fun e1 h1 => hn e1 (List.mem_cons_of_mem _ h1))
    cases e with
    | KeyValueExpr key value =>
      cases key with
      | BasicLit raw =>
        simp only [keyOf] at hk1 hn1
        cases hu : L.Unquote raw with
        | none => exact absurd hu hk1
        | some k =>
          have hne : k ≠ n := fun h => hn1 (by rw [hu, h])
          simp [keyValueLoop, hu, hne, ih]
      | Ident name =>
        simp only [keyOf] at hn1
        have hne : name ≠ n := fun h => hn1 (by rw [h])
        simp [keyValueLoop, hne, ih]
      | _ => exact absurd rfl hk1
    | _ => exact absurd rfl hk1

theorem keyValueLoop_first (L : Lib) (n : GoString) (key v : Node) (post : List Node)
    (hkey : keyOf L (.KeyValueExpr key v) = some n) :
    ∀ pre : List Node, (∀ e ∈ pre, keyOf L e ≠ none) → (∀ e ∈ pre, keyOf L e ≠ some n) →
      keyValueLoop L n (pre ++ .KeyValueExpr key v :: post) = .ok (some v)
  | [], _, _ => by
    cases key with
    | BasicLit raw =>
      simp only [keyOf] at hkey
      simp [keyValueLoop, hkey]
    | Ident name =>
      simp only [keyOf, Option.some.injEq] at hkey
      simp [keyValueLoop, hkey]
    | _ => simp [keyOf] at hkey
  | e :: es, hk, hn => by
    have hk1 := hk e (List.mem_cons_self _ _)
    have hn1 := hn e (List.mem_cons_self _ _)
    have ih := keyValueLoop_first L n key v post hkey es
      (fun e1 h1 => hk e1 (List.mem_cons_of_mem _ h1))
      (fun e1 h1 => hn e1 (List.mem_cons_of_mem _ h1))
    cases e with
    | KeyValueExpr key1 value1 =>
      cases key1 with
      | BasicLit raw =>
        simp only [keyOf] at hk1 hn1
        cases hu : L.Unquote raw with
        | none => exact absurd hu hk1
        | some k =>
          have hne : k ≠ n := fun h => hn1 (by rw [hu, h])
          simp [keyValueLoop, hu, hne, ih]
      | Ident name =>
        simp only [keyOf] at hn1
        have hne : name ≠ n := fun h => hn1 (by rw [h])
        simp [keyValueLoop, hne, ih]
      | _ => exact absurd rfl hk1
    | _ => exact absurd rfl hk1

/-- C5: in a literal whose elements are all pairs keyed by a string literal or an identifier,
a key no element carries gives the empty string and false; otherwise the value of the first
element with that key decides: its unquoted text for `stringKeyValue`, and for `boolKeyValue`
true exactly when it is the identifier `true`. -/
theorem keyValue_first_match (L : Lib) (lit : CompositeLit) (n : GoString)
    (hk : ∀ e ∈ lit.Elts, keyOf L e ≠ none) :
    ((∀ e ∈ lit.Elts, keyOf L e ≠ some n) →
      stringKeyValue L (some lit) n = .ok [] ∧ boolKeyValue L (some lit) n = .ok false) ∧
    (∀ pre key v post, lit.Elts = pre ++ .KeyValueExpr key v :: post →
      (∀ e ∈ pre, keyOf L e ≠ some n) → keyOf L (.KeyValueExpr key v) = some n →
      (∀ raw s, v = .BasicLit raw → L.Unquote raw = some s →
        stringKeyValue L (some lit) n = .ok s) ∧
      (∀ x, v = .Ident x → boolKeyValue L (some lit) n = .ok (x == str "true")) ∧
      (boolKeyValue L (some lit) n = .ok true ↔ v = .Ident (str "true"))) := by
  constructor
  · intro hn
    have h := keyValueLoop_absent L n lit.Elts hk hn
    simp [stringKeyValue, boolKeyValue, keyValue, h]
  · intro pre key v post hl hpre hkey
    have hkpre : ∀ e ∈ pre, keyOf L e ≠ none := fun e he =>
      hk e (by rw [hl]; exact List.mem_append_left _ he)
    have h : keyValue L (some lit) n = .ok (some v) := by
      simp only [keyValue, hl]
      exact keyValueLoop_first L n key v post hkey pre hkpre hpre
    refine ⟨?_, ?_, ?_⟩
    · intro raw s hv hu
      subst hv
      simp [stringKeyValue, h, hu]
    · intro x hv
      subst hv
      simp [boolKeyValue, h]
    · unfold boolKeyValue
      rw [h]
      cases v <;> simp

/-- The witness of C5 on `{Type: schema.TypeString, Required: true}`: `Required` is true,
`Optional` is absent; and on `{Required: false, Description: "x"}`. -/
theorem keyValue_first_match_witness :
    (stringKeyValue plainLib (some requiredString) (str "Optional") = .ok [] ∧
      boolKeyValue plainLib (some requiredString) (str "Optional") = .ok false) ∧
    boolKeyValue plainLib (some requiredString) (str "Required") = .ok true ∧
    boolKeyValue plainLib
      (some ⟨none, [kv "Required" (.Ident (str "false")), kv "Description" (quoted "x")]⟩)
      (str "Required") = .ok false ∧
    stringKeyValue plainLib
      (some ⟨none, [kv "Required" (.Ident (str "false")), kv "Description" (quoted "x")]⟩)
      (str "Description") = .ok (str "x") :=
  ⟨(keyValue_first_match plainLib requiredString (str "Optional") (by decide)).1 (by decide),
   ((keyValue_first_match plainLib requiredString (str "Required") (by decide)).2
      [kv "Type" (schemaSel "TypeString")] (.Ident (str "Required")) (.Ident (str "true")) []
      rfl (by decide) rfl).2.2.2 rfl,
   ((keyValue_first_match plainLib
      ⟨none, [kv "Required" (.Ident (str "false")), kv "Description" (quoted "x")]⟩
      (str "Required") (by decide)).2
      [] (.Ident (str "Required")) (.Ident (str "false")) [kv "Description" (quoted "x")]
      rfl (by decide) rfl).2.1 (str "false") rfl,
   ((keyValue_first_match plainLib
      ⟨none, [kv "Required" (.Ident (str "false")), kv "Description" (quoted "x")]⟩
      (str "Description") (by decide)).2
      [kv "Required" (.Ident (str "false"))] (.Ident (str "Description")) (quoted "x") []
      rfl (by decide) rfl).1 (str "\"x\"") (str "x") rfl rfl⟩

/-! ## Resource builder -/

theorem buildResource_ok {L : Lib} {fuel : Nat} {t name : GoString} {rf : schemaFunc}
    {sfs : GoMap schemaFunc} {r : Resource} (h : buildResource L fuel t name rf sfs = .ok r) :
    8 ≤ name.length ∧ ∃ fd body schemaAst attrs, rf.Func = some fd ∧ fd.Body = some body ∧
      walkToSchema body = .ok schemaAst ∧
      appendAttributes L fuel [] rf schemaAst sfs = .ok attrs ∧
      r = ⟨str "azurerm", name, name.drop 8, [], L.TrimSpace (skipFirstLine fd.Doc), t,
        sortByName attrs⟩ := by
  unfold buildResource at h
  split at h
  · cases h
  · rename_i hlen
    refine ⟨by omega, ?_⟩
    split at h
    · cases h
    · rename_i fd hfd
      split at h
      · cases h
      · rename_i body hbody
        split at h
        · rename_i schemaAst hw
          split at h
          · rename_i attrs ha
            injection h with h
            exact ⟨fd, body, schemaAst, attrs, hfd, hbody, hw, ha, h.symm⟩
          all_goals cases h
        all_goals cases h

theorem example_buildResource :
    buildResource plainLib 10 (str "datasource") (str "azurerm_image") imageFunc
      exampleSchemaFuncs = .ok imageResource := by rfl

/-- C4: a successful `buildResource` on a name that begins with `azurerm_` returns a resource
with that name, provider `azurerm`, the given type and, as `NameSuffix`, the name without the
prefix; on a name shorter than the 8 bytes of the prefix it panics and returns nothing. -/
theorem buildResource_name_fields (L : Lib) (fuel : Nat) (t name : GoString) (rf : schemaFunc)
    (sfs : GoMap schemaFunc) :
    (∀ r suffix, name = str "azurerm_" ++ suffix → buildResource L fuel t name rf sfs = .ok r →
      r.Name = name ∧ r.Provider = str "azurerm" ∧ r.Typ = t ∧ r.NameSuffix = suffix ∧
      str "azurerm_" ++ r.NameSuffix = r.Name) ∧
    (name.length < 8 → buildResource L fuel t name rf sfs = .panic) := by
  constructor
  · intro r suffix hname h
    obtain ⟨_, fd, body, schemaAst, attrs, _, _, _, _, hr⟩ := buildResource_ok h
    have hdrop : name.drop 8 = suffix := by
      rw [hname]
      exact List.drop_left' (by decide)
    subst hr
    refine ⟨rfl, rfl, rfl, hdrop, ?_⟩
    show str "azurerm_" ++ List.drop 8 name = name
    rw [hdrop]
    exact hname.symm
  · intro hlen
    simp [buildResource, hlen]

/-- The witness of C4: `azurerm_image` gives the suffix `image`; `azurerm` (7 bytes) panics. -/
theorem buildResource_name_fields_witness :
    (imageResource.Name = str "azurerm_image" ∧ imageResource.Provider = str "azurerm" ∧
      imageResource.Typ = str "datasource" ∧ imageResource.NameSuffix = str "image" ∧
      str "azurerm_" ++ imageResource.NameSuffix = imageResource.Name) ∧
    buildResource plainLib 10 (str "datasource") (str "azurerm") imageFunc
      exampleSchemaFuncs = .panic :=
  ⟨(buildResource_name_fields plainLib 10 (str "datasource") (str "azurerm_image") imageFunc
      exampleSchemaFuncs).1 imageResource (str "image") (by decide) example_buildResource,
   (buildResource_name_fields plainLib 10 (str "datasource") (str "azurerm") imageFunc
      exampleSchemaFuncs).2 (by decide)⟩

/-! ## Registry extractor -/

theorem registryEntry_of_entryOk {L : Lib} {e : Node} (h : entryOk L e) :
    ∃ k g, registryEntry L e = .ok (k, g) ∧ quotedKey L e = some k := by
  obtain ⟨raw, k, g, args, he, hu⟩ := h
  subst he
  exact ⟨k, g, by simp [registryEntry, hu], by simp [quotedKey, hu]⟩

theorem lookup_cons_ne {V : Type} (m : GoMap V) (k k1 : GoString) (v : V) (h : k1 ≠ k) :
    GoMap.lookup (GoMap.insert m k1 v) k = GoMap.lookup m k := by
  have hb : (k == k1) = false := by
    rw [beq_eq_false_iff_ne]; exact fun h1 => h h1.symm
  simp [GoMap.lookup, GoMap.insert, List.lookup, hb]

theorem lookup_cons_eq {V : Type} (m : GoMap V) (k : GoString) (v : V) :
    GoMap.lookup (GoMap.insert m k v) k = some v := by
  simp [GoMap.lookup, GoMap.insert, List.lookup]

theorem registryLoop_spec (L : Lib) :
    ∀ (elts : List Node) (res : GoMap GoString), (∀ e ∈ elts, entryOk L e) →
      ∃ m, extractResourceFuncNamesLoop L res elts = .ok m ∧
        (∀ k, k ∈ m.keys ↔ k ∈ res.keys ∨ ∃ e ∈ elts, quotedKey L e = some k) ∧
        (∀ k, (∀ e ∈ elts, quotedKey L e ≠ some k) → m.lookup k = res.lookup k)
  | [], res, _ => ⟨res, rfl, by simp, fun _ _ => rfl⟩
  | e :: es, res, h => by
    obtain ⟨k1, g1, he, hq⟩ := registryEntry_of_entryOk (h e (List.mem_cons_self _ _))
    obtain ⟨m, hm, hkeys, hlook⟩ := registryLoop_spec L es (res.insert k1 g1)
      (fun e1 h1 => h e1 (List.mem_cons_of_mem _ h1))
    refine ⟨m, by simp [extractResourceFuncNamesLoop, he, hm], ?_, ?_⟩
    · intro k
      rw [hkeys k]
      have hins : k ∈ (res.insert k1 g1).keys ↔ k = k1 ∨ k ∈ res.keys := by
        simp [GoMap.keys, GoMap.insert]
      rw [hins]
      constructor
      · rintro ((h1 | h1) | ⟨e1, he1, hk1⟩)
        · exact Or.inr ⟨e, List.mem_cons_self _ _, by rw [hq, h1]⟩
        · exact Or.inl h1
        · exact Or.inr ⟨e1, List.mem_cons_of_mem _ he1, hk1⟩
      · rintro (h1 | ⟨e1, he1, hk1⟩)
        · exact Or.inl (Or.inr h1)
        · rcases List.mem_cons.1 he1 with h2 | h2
          · subst h2
            rw [hq] at hk1
            exact Or.inl (Or.inl (Option.some.inj hk1).symm)
          · exact Or.inr ⟨e1, h2, hk1⟩
    · intro k hk
      rw [hlook k (fun e1 h1 => hk e1 (List.mem_cons_of_mem _ h1))]
      apply lookup_cons_ne
      intro h1
      exact hk e (List.mem_cons_self _ _) (by rw [hq, h1])

theorem registryLoop_last (L : Lib) (raw k g : GoString) (args post : List Node)
    (hu : L.Unquote raw = some k) (hpost : ∀ e ∈ post, entryOk L e)
    (hlast : ∀ e ∈ post, quotedKey L e ≠ some k) :
    ∀ (pre : List Node) (res : GoMap GoString), (∀ e ∈ pre, entryOk L e) →
      ∃ m, extractResourceFuncNamesLoop L res
          (pre ++ .KeyValueExpr (.BasicLit raw) (.CallExpr (.Ident g) args) :: post) = .ok m ∧
        m.lookup k = some g
  | [], res, _ => by
    obtain ⟨m, hm, _, hlook⟩ := registryLoop_spec L post (res.insert k g) hpost
    refine ⟨m, by simp [extractResourceFuncNamesLoop, registryEntry, hu, hm], ?_⟩
    rw [hlook k hlast]
    exact lookup_cons_eq res k g
  | e :: es, res, h => by
    obtain ⟨k1, g1, he, _⟩ := registryEntry_of_entryOk (h e (List.mem_cons_self _ _))
    obtain ⟨m, hm, hlook⟩ := registryLoop_last L raw k g args post hu hpost hlast es
      (res.insert k1 g1) (fun e1 h1 => h e1 (List.mem_cons_of_mem _ h1))
    exact ⟨m, by simp [extractResourceFuncNamesLoop, he, hm], hlook⟩

/-- C9: on a registry literal whose elements are all pairs of a string literal key and a call
of a bare identifier, `extractResourceFuncNames` returns a map without error; its keys are
exactly the unquoted keys of the elements, and each key is sent to the callee of the last
element that carries it. -/
theorem extractResourceFuncNames_last_wins (L : Lib) (cl : CompositeLit)
    (h : ∀ e ∈ cl.Elts, entryOk L e) :
    ∃ m, extractResourceFuncNames L (some cl) = .ok m ∧
      (∀ k, k ∈ m.keys ↔ ∃ e ∈ cl.Elts, quotedKey L e = some k) ∧
      (∀ k, (∀ e ∈ cl.Elts, quotedKey L e ≠ some k) → m.lookup k = none) ∧
      (∀ pre raw g args post k,
        cl.Elts = pre ++ .KeyValueExpr (.BasicLit raw) (.CallExpr (.Ident g) args) :: post →
        L.Unquote raw = some k → (∀ e ∈ post, quotedKey L e ≠ some k) →
        m.lookup k = some g) := by
  obtain ⟨m, hm, hkeys, hlook⟩ := registryLoop_spec L cl.Elts GoMap.empty h
  refine ⟨m, hm, ?_, ?_, ?_⟩
  · intro k
    rw [hkeys k]
    simp [GoMap.keys, GoMap.empty]
  · intro k hk
    rw [hlook k hk]
    rfl
  · intro pre raw g args post k hl hu hlast
    have hpre : ∀ e ∈ pre, entryOk L e := fun e he =>
      h e (by rw [hl]; exact List.mem_append_left _ he)
    have hpost : ∀ e ∈ post, entryOk L e := fun e he =>
      h e (by rw [hl]; exact List.mem_append_right _ (List.mem_cons_of_mem _ he))
    obtain ⟨m1, hm1, hlook1⟩ :=
      registryLoop_last L raw k g args post hu hpost hlast pre GoMap.empty hpre
    have hm2 : extractResourceFuncNamesLoop L GoMap.empty cl.Elts = .ok m1 := by
      rw [hl]; exact hm1
    have : m = m1 := by
      have h3 := hm.symm.trans hm2
      injection h3
    rw [this]
    exact hlook1

/-! ## Attribute resolver -/

theorem forElts_ok {P : Node → Attribute → Prop}
    {step : List Attribute → Node → Outcome (List Attribute)}
    (hstep : ∀ attrs e out, step attrs e = .ok out → ∃ att, out = attrs ++ [att] ∧ P e att) :
    ∀ (elts : List Node) (attrs out : List Attribute), forElts step attrs elts = .ok out →
      ∃ built, out = attrs ++ built ∧ List.Forall₂ P elts built
  | [], attrs, out, h => by
    simp only [forElts, Outcome.ok.injEq] at h
    exact ⟨[], by simp [h], List.Forall₂.nil⟩
  | e :: es, attrs, out, h => by
    unfold forElts at h
    split at h
    · rename_i attrs1 hs
      obtain ⟨att, ha, hp⟩ := hstep attrs e attrs1 hs
      obtain ⟨built, hb, hf⟩ := forElts_ok hstep es attrs1 out h
      exact ⟨att :: built, by rw [hb, ha]; simp, List.Forall₂.cons hp hf⟩
    all_goals cases h

theorem forElts_append (step : List Attribute → Node → Outcome (List Attribute)) :
    ∀ (pre : List Node) (attrs attrs1 : List Attribute) (rest : List Node),
      forElts step attrs pre = .ok attrs1 →
      forElts step attrs (pre ++ rest) = forElts step attrs1 rest
  | [], attrs, attrs1, rest, h => by
    simp only [forElts, Outcome.ok.injEq] at h
    simp [h]
  | e :: es, attrs, attrs1, rest, h => by
    unfold forElts at h
    split at h
    · rename_i attrs2 hs
      simp only [List.cons_append, forElts, hs]
      exact forElts_append step es attrs2 attrs1 rest h
    all_goals cases h

theorem appendElt_ok {L : Lib}
    {build : schemaFunc → GoString → Option CompositeLit → Outcome Attribute}
    {rf : schemaFunc} {sfs : GoMap schemaFunc} {attrs out : List Attribute} {e : Node}
    (h : appendElt L build rf sfs attrs e = .ok out) :
    ∃ raw k v att, e = .KeyValueExpr (.BasicLit raw) v ∧ L.Unquote raw = some k ∧
      out = attrs ++ [att] ∧
      ((∃ t es, v = .CompositeLit t es ∧ build rf k (some ⟨t, es⟩) = .ok att) ∨
       (∃ g args sf childAst, v = .CallExpr (.Ident g) args ∧ sfs.lookup g = some sf ∧
          findChildAst sf = .ok childAst ∧ build sf k childAst = .ok att)) := by
  unfold appendElt at h
  split at h
  · rename_i key value
    split at h
    · rename_i raw
      split at h
      · cases h
      · rename_i k hu
        split at h
        · rename_i t es
          split at h
          · rename_i att hb
            injection h with h
            exact ⟨raw, k, _, att, rfl, hu, h.symm, Or.inl ⟨t, es, rfl, hb⟩⟩
          all_goals cases h
        · rename_i fn args
          split at h
          · rename_i g
            split at h
            · cases h
            · rename_i sf hsf
              split at h
              · rename_i childAst hc
                split at h
                · rename_i att hb
                  injection h with h
                  exact ⟨raw, k, _, att, rfl, hu, h.symm,
                    Or.inr ⟨g, args, sf, childAst, rfl, hsf, hc, hb⟩⟩
                all_goals cases h
              all_goals cases h
          · cases h
        · cases h
    · cases h
  · cases h

theorem buildAttribute_ok {L : Lib} {fuel : Nat} {sf : schemaFunc} {k : GoString}
    {schema : Option CompositeLit} {sfs : GoMap schemaFunc} {att : Attribute}
    (h : buildAttribute L fuel sf k schema sfs = .ok att) :
    ∃ fuel1 lit d r o c, fuel = fuel1 + 1 ∧ schema = some lit ∧
      stringKeyValue L schema (str "Description") = .ok d ∧
      boolKeyValue L schema (str "Required") = .ok r ∧
      boolKeyValue L schema (str "Optional") = .ok o ∧
      boolKeyValue L schema (str "Computed") = .ok c ∧
      ((walkToSchema lit.toNode = .ok none ∧ att = ⟨k, L.TrimSpace d, o, r, c, [], 0, 0⟩) ∨
       (∃ child atts, walkToSchema lit.toNode = .ok (some child) ∧
          appendAttributes L fuel1 [] sf (some child) sfs = .ok atts ∧
          att = ⟨k, L.TrimSpace d, o, r, c, atts, 0, 0⟩)) := by
  cases fuel with
  | zero => simp [buildAttribute] at h
  | succ fuel1 =>
    unfold buildAttribute at h
    split at h
    · rename_i d hd
      split at h
      · rename_i r hr
        split at h
        · rename_i o ho
          split at h
          · rename_i c hc
            split at h
            · cases h
            · rename_i lit
              split at h
              · rename_i hw
                injection h with h
                exact ⟨fuel1, lit, d, r, o, c, rfl, rfl, hd, hr, ho, hc, Or.inl ⟨hw, h.symm⟩⟩
              · rename_i child hw
                split at h
                · rename_i atts ha
                  injection h with h
                  exact ⟨fuel1, lit, d, r, o, c, rfl, rfl, hd, hr, ho, hc,
                    Or.inr ⟨child, atts, hw, ha, h.symm⟩⟩
                all_goals cases h
              all_goals cases h
          all_goals cases h
        all_goals cases h
      all_goals cases h
    all_goals cases h

theorem buildAttribute_name {L : Lib} {fuel : Nat} {sf : schemaFunc} {k : GoString}
    {schema : Option CompositeLit} {sfs : GoMap schemaFunc} {att : Attribute}
    (h : buildAttribute L fuel sf k schema sfs = .ok att) : att.Name = k := by
  obtain ⟨_, _, _, _, _, _, _, _, _, _, _, _, h1⟩ := buildAttribute_ok h
  rcases h1 with ⟨_, h1⟩ | ⟨_, _, _, _, h1⟩ <;> rw [h1]

theorem appendAttributes_ok {L : Lib} {fuel : Nat} {attrs out : List Attribute}
    {rf : schemaFunc} {schemaAst : Option CompositeLit} {sfs : GoMap schemaFunc}
    (h : appendAttributes L fuel attrs rf schemaAst sfs = .ok out) :
    ∃ fuel1 lit built, fuel = fuel1 + 1 ∧ schemaAst = some lit ∧ out = attrs ++ built ∧
      List.Forall₂ (fieldResolvesTo L fuel1 rf sfs) lit.Elts built := by
  cases fuel with
  | zero => simp [appendAttributes] at h
  | succ fuel1 =>
    unfold appendAttributes at h
    split at h
    · cases h
    · rename_i lit
      have hstep : ∀ attrs e out,
          appendElt L (fun sf k c => buildAttribute L fuel1 sf k c sfs) rf sfs attrs e = .ok out →
          ∃ att, out = attrs ++ [att] ∧ fieldResolvesTo L fuel1 rf sfs e att := by
        intro attrs e out hs
        obtain ⟨raw, k, v, att, he, hu, ho, hb⟩ := appendElt_ok hs
        refine ⟨att, ho, raw, k, v, he, hu, ?_, hb⟩
        rcases hb with ⟨_, _, _, hb⟩ | ⟨_, _, _, _, _, _, _, hb⟩ <;> exact buildAttribute_name hb
      obtain ⟨built, hb, hf⟩ := forElts_ok hstep lit.Elts attrs out h
      exact ⟨fuel1, lit, built, rfl, rfl, hb, hf⟩

theorem fieldResolvesTo_key {L : Lib} {fuel : Nat} {rf : schemaFunc} {sfs : GoMap schemaFunc}
    {e : Node} {a : Attribute} (h : fieldResolvesTo L fuel rf sfs e a) :
    quotedKey L e = some a.Name := by
  obtain ⟨raw, k, v, he, hu, hn, _⟩ := h
  rw [he, hn]
  simpa [quotedKey] using hu

/-! ## The recursion budget -/

theorem forElts_mono (step1 step2 : List Attribute → Node → Outcome (List Attribute))
    (h : ∀ attrs e o, step1 attrs e = o → o ≠ .diverge → step2 attrs e = o) :
    ∀ (elts : List Node) (attrs : List Attribute) (o : Outcome (List Attribute)),
      forElts step1 attrs elts = o → o ≠ .diverge → forElts step2 attrs elts = o
  | [], _, _, ho, _ => ho
  | e :: es, attrs, o, ho, hd => by
    unfold forElts at ho ⊢
    cases h1 : step1 attrs e with
    | ok attrs1 =>
      rw [h1] at ho
      rw [h attrs e _ h1 (by simp)]
      exact forElts_mono step1 step2 h es attrs1 o ho hd
    | error err =>
      rw [h1] at ho
      rw [h attrs e _ h1 (by simp)]
      exact ho
    | panic =>
      rw [h1] at ho
      rw [h attrs e _ h1 (by simp)]
      exact ho
    | diverge =>
      rw [h1] at ho
      exact absurd ho.symm hd

theorem appendElt_mono (L : Lib)
    (build1 build2 : schemaFunc → GoString → Option CompositeLit → Outcome Attribute)
    (h : ∀ sf k c o, build1 sf k c = o → o ≠ .diverge → build2 sf k c = o)
    (rf : schemaFunc) (sfs : GoMap schemaFunc) (attrs : List Attribute) (e : Node)
    (o : Outcome (List Attribute)) (ho : appendElt L build1 rf sfs attrs e = o)
    (hd : o ≠ .diverge) : appendElt L build2 rf sfs attrs e = o := by
  cases e with
  | KeyValueExpr key value =>
    cases key with
    | BasicLit raw =>
      simp only [appendElt] at ho ⊢
      cases hu : L.Unquote raw with
      | none => rw [hu] at ho; exact ho
      | some k =>
        rw [hu] at ho
        cases value with
        | CompositeLit t es =>
          simp only at ho ⊢
          cases hb : build1 rf k (some ⟨t, es⟩) with
          | diverge => rw [hb] at ho; exact absurd ho.symm hd
          | ok att => rw [hb] at ho; rw [h _ _ _ _ hb (by simp)]; exact ho
          | error err => rw [hb] at ho; rw [h _ _ _ _ hb (by simp)]; exact ho
          | panic => rw [hb] at ho; rw [h _ _ _ _ hb (by simp)]; exact ho
        | CallExpr fn args =>
          cases fn with
          | Ident g =>
            simp only at ho ⊢
            cases hg : sfs.lookup g with
            | none => rw [hg] at ho; exact ho
            | some sf =>
              rw [hg] at ho
              simp only at ho ⊢
              cases hc : findChildAst sf with
              | ok childAst =>
                rw [hc] at ho
                simp only at ho ⊢
                cases hb : build1 sf k childAst with
                | diverge => rw [hb] at ho; exact absurd ho.symm hd
                | ok att => rw [hb] at ho; rw [h _ _ _ _ hb (by simp)]; exact ho
                | error err => rw [hb] at ho; rw [h _ _ _ _ hb (by simp)]; exact ho
                | panic => rw [hb] at ho; rw [h _ _ _ _ hb (by simp)]; exact ho
              | error err => rw [hc] at ho; exact ho
              | panic => rw [hc] at ho; exact ho
              | diverge => rw [hc] at ho; exact ho
          | _ => exact ho
        | _ => exact ho
    | _ => exact ho
  | _ => exact ho

/-- A call that has finished within a recursion budget finishes in the same way within every
larger one. -/
theorem budget_mono (L : Lib) :
    ∀ fuel : Nat,
      (∀ attrs rf schemaAst sfs o, appendAttributes L fuel attrs rf schemaAst sfs = o →
        o ≠ .diverge → appendAttributes L (fuel + 1) attrs rf schemaAst sfs = o) ∧
      (∀ sf k schema sfs o, buildAttribute L fuel sf k schema sfs = o →
        o ≠ .diverge → buildAttribute L (fuel + 1) sf k schema sfs = o)
  | 0 => ⟨fun _ _ _ _ o ho hd => absurd ho.symm hd, fun _ _ _ _ o ho hd => absurd ho.symm hd⟩
  | fuel + 1 => by
    obtain ⟨ihA, ihB⟩ := budget_mono L fuel
    constructor
    · intro attrs rf schemaAst sfs o ho hd
      cases schemaAst with
      | none => exact ho
      | some lit =>
        simp only [appendAttributes] at ho ⊢
        exact forElts_mono _ _
          (fun attrs e o => appendElt_mono L _ _ (fun sf k c o => ihB sf k c sfs o) rf sfs attrs e o)
          lit.Elts attrs o ho hd
    · intro sf k schema sfs o ho hd
      rw [buildAttribute] at ho ⊢
      cases h1 : stringKeyValue L schema (str "Description") with
      | ok d =>
        rw [h1] at ho
        simp only at ho ⊢
        cases h2 : boolKeyValue L schema (str "Required") with
        | ok r =>
          rw [h2] at ho
          simp only at ho ⊢
          cases h3 : boolKeyValue L schema (str "Optional") with
          | ok op =>
            rw [h3] at ho
            simp only at ho ⊢
            cases h4 : boolKeyValue L schema (str "Computed") with
            | ok c =>
              rw [h4] at ho
              simp only at ho ⊢
              cases schema with
              | none => exact ho
              | some lit =>
                simp only at ho ⊢
                cases h5 : walkToSchema lit.toNode with
                | ok found =>
                  rw [h5] at ho
                  cases found with
                  | none => exact ho
                  | some child =>
                    simp only at ho ⊢
                    cases h6 : appendAttributes L fuel [] sf (some child) sfs with
                    | diverge => rw [h6] at ho; exact absurd ho.symm hd
                    | ok atts => rw [h6] at ho; rw [ihA _ _ _ _ _ h6 (by simp)]; exact ho
                    | error err => rw [h6] at ho; rw [ihA _ _ _ _ _ h6 (by simp)]; exact ho
                    | panic => rw [h6] at ho; rw [ihA _ _ _ _ _ h6 (by simp)]; exact ho
                | error err => rw [h5] at ho; exact ho
                | panic => rw [h5] at ho; exact ho
                | diverge => rw [h5] at ho; exact ho
            | error err => rw [h4] at ho; exact ho
            | panic => rw [h4] at ho; exact ho
            | diverge => rw [h4] at ho; exact ho
          | error err => rw [h3] at ho; exact ho
          | panic => rw [h3] at ho; exact ho
          | diverge => rw [h3] at ho; exact ho
        | error err => rw [h2] at ho; exact ho
        | panic => rw [h2] at ho; exact ho
        | diverge => rw [h2] at ho; exact ho
      | error err => rw [h1] at ho; exact ho
      | panic => rw [h1] at ho; exact ho
      | diverge => rw [h1] at ho; exact ho

/-- C1: when `buildResource` returns a resource, the body of the constructor holds a pair keyed
`Schema` whose value is a literal `S`, the one `walkToSchema` finds; with N the number of
elements of `S`, the attributes of the resource are N, they are a permutation of the attributes
the N fields resolve to (one per field, named by the unquoted key of the field), and they are
sorted by name, ascending in byte order. -/
theorem buildResource_attributes_sorted (L : Lib) (fuel : Nat) (t name : GoString)
    (rf : schemaFunc) (sfs : GoMap schemaFunc) (fd : FuncDecl) (body : Node)
    (r : Resource) (hf : rf.Func = some fd) (hb : fd.Body = some body)
    (hr : buildResource L fuel t name rf sfs = .ok r) :
    (∃ S, walkToSchema body = .ok (some S) ∧ S.toNode ∈ keyedValues (str "Schema") body ∧
      r.Attributes.length = S.Elts.length ∧
      ∃ fuel1 built, fuel = fuel1 + 1 ∧
        appendAttributes L fuel [] rf (some S) sfs = .ok built ∧
        List.Forall₂ (fieldResolvesTo L fuel1 rf sfs) S.Elts built ∧
        List.Forall₂ (fun e a => quotedKey L e = some a.Name) S.Elts built ∧
        r.Attributes.Perm built) ∧
    (∀ N, (∀ v ∈ keyedValues (str "Schema") body, ∃ c, v.asLit = some c ∧ c.Elts.length = N) →
      r.Attributes.length = N) ∧
    List.Sorted nameLE r.Attributes := by
  obtain ⟨_, fd1, body1, schemaAst, attrs, hf1, hb1, hw, ha, hr1⟩ := buildResource_ok hr
  rw [hf] at hf1
  cases hf1
  rw [hb] at hb1
  cases hb1
  obtain ⟨fuel1, S, built, hfuel, hlit, hout, hall⟩ := appendAttributes_ok ha
  subst hlit
  simp only [List.nil_append] at hout
  subst hout
  have hattr : r.Attributes = sortByName attrs := by rw [hr1]
  have hperm : r.Attributes.Perm attrs := by rw [hattr]; exact sortByName_perm attrs
  have hsorted : List.Sorted nameLE r.Attributes := by
    rw [hattr]; exact sortByName_sorted attrs
  have hlen : r.Attributes.length = S.Elts.length := by
    rw [hperm.length_eq, hall.length_eq]
  have hmem := walkToSchema_found hw
  refine ⟨⟨S, hw, hmem, hlen, fuel1, attrs, hfuel, ha, hall, ?_, hperm⟩, ?_, hsorted⟩
  · exact hall.imp (fun _ _ h => fieldResolvesTo_key h)
  · intro N hN
    obtain ⟨c, hc, hcN⟩ := hN _ hmem
    simp only [CompositeLit.toNode, Node.asLit, Option.some.injEq] at hc
    rw [hlen, ← hcN, ← hc]

/-- The witness of C1: the example constructor has the fields `zeta` and `alpha`, in this
order; the resource has the two attributes `alpha`, `zeta`. -/
theorem buildResource_attributes_sorted_witness :
    imageSchema.Elts.length = 2 ∧
    imageResource.Attributes.map (fun a => a.Name) = [str "alpha", str "zeta"] ∧
    (∃ S, walkToSchema (returnLit (schemaSel "Resource")
          [kv "Read" (.Ident (str "dataSourceArmImageRead")), kv "Schema" imageSchema.toNode]) =
        .ok (some S) ∧
      imageResource.Attributes.length = S.Elts.length) ∧
    List.Sorted nameLE imageResource.Attributes :=
  ⟨rfl, rfl,
    (buildResource_attributes_sorted plainLib 10 (str "datasource") (str "azurerm_image")
      imageFunc exampleSchemaFuncs dataSourceArmImage _ imageResource rfl rfl
      example_buildResource).1.imp (fun _ h => ⟨h.1, h.2.2.1⟩),
    (buildResource_attributes_sorted plainLib 10 (str "datasource") (str "azurerm_image")
      imageFunc exampleSchemaFuncs dataSourceArmImage _ imageResource rfl rfl
      example_buildResource).2.2⟩

theorem keyValueLoop_find (L : Lib) (n : GoString) :
    ∀ (elts : List Node) (r : Option Node), keyValueLoop L n elts = .ok r →
      (r = none ∧ elts.find? (fun e => keyOf L e == some n) = none) ∨
      (∃ key v, r = some v ∧
        elts.find? (fun e => keyOf L e == some n) = some (.KeyValueExpr key v))
  | [], r, h => by
    simp only [keyValueLoop, Outcome.ok.injEq] at h
    exact Or.inl ⟨h.symm, rfl⟩
  | e :: es, r, h => by
    unfold keyValueLoop at h
    split at h
    · rename_i key value
      split at h
      · rename_i raw
        split at h
        · cases h
        · rename_i k hu
          by_cases hk : k = n
          · subst hk
            simp only [beq_self_eq_true, if_true, Outcome.ok.injEq] at h
            exact Or.inr ⟨.BasicLit raw, value, h.symm, by simp [List.find?, keyOf, hu]⟩
          · have hb : (k == n) = false := by rw [beq_eq_false_iff_ne]; exact hk
            simp only [hb, Bool.false_eq_true, if_false] at h
            have ih := keyValueLoop_find L n es r h
            have hf : (keyOf L (.KeyValueExpr (.BasicLit raw) value) == some n) = false := by
              simp [keyOf, hu, hk]
            simpa [List.find?, hf] using ih
      · rename_i name
        by_cases hk : name = n
        · subst hk
          simp only [beq_self_eq_true, if_true, Outcome.ok.injEq] at h
          exact Or.inr ⟨.Ident name, value, h.symm, by simp [List.find?, keyOf]⟩
        · have hb : (name == n) = false := by rw [beq_eq_false_iff_ne]; exact hk
          simp only [hb, Bool.false_eq_true, if_false] at h
          have ih := keyValueLoop_find L n es r h
          have hf : (keyOf L (.KeyValueExpr (.Ident name) value) == some n) = false := by
            simp [keyOf, hk]
          simpa [List.find?, hf] using ih
      · cases h
    · cases h

theorem boolKeyValue_flagOf {L : Lib} {F : CompositeLit} {n : GoString} {b : Bool}
    (h : boolKeyValue L (some F) n = .ok b) : b = flagOf L F n := by
  unfold boolKeyValue at h
  split at h
  · rename_i hkv
    injection h with h
    rcases keyValueLoop_find L n F.Elts none hkv with ⟨_, hf⟩ | ⟨_, _, hc, _⟩
    · simp [flagOf, hf, ← h]
    · cases hc
  · rename_i name hkv
    injection h with h
    rcases keyValueLoop_find L n F.Elts _ hkv with ⟨hc, _⟩ | ⟨key, v, hv, hf⟩
    · cases hc
    · cases hv
      simp [flagOf, hf, ← h]
  all_goals cases h

/-- C3: an attribute `buildAttribute` returns for the name `k` and the field schema `F` has the
name `k` and, as `Required`, `Optional` and `Computed`, the values of these keys in `F` (false
when absent); it has no nested attributes when `F` holds no pair keyed `Schema` at any depth;
when `F` holds such a pair, its nested attributes are what the M fields of a nested `Schema`
literal `S` of `F` resolve to (the literal `walkToSchema` finds), M of them, so not none for
M >= 1. And `buildAttribute` does return it, once the four keys are read without panic and the
nested schema, if any, is resolved. -/
theorem buildAttribute_fields (L : Lib) (sf : schemaFunc) (k : GoString) (F : CompositeLit)
    (sfs : GoMap schemaFunc) :
    (∀ fuel att, buildAttribute L fuel sf k (some F) sfs = .ok att →
      att.Name = k ∧ att.Required = flagOf L F (str "Required") ∧
      att.Optional = flagOf L F (str "Optional") ∧
      att.Computed = flagOf L F (str "Computed") ∧
      (hasKey (str "Schema") F.toNode = false → att.Attributes = []) ∧
      (hasKey (str "Schema") F.toNode = true →
        ∃ S fuel2, S.toNode ∈ keyedValues (str "Schema") F.toNode ∧
          walkToSchema F.toNode = .ok (some S) ∧ fuel = fuel2 + 2 ∧
          att.Attributes.length = S.Elts.length ∧
          List.Forall₂ (fieldResolvesTo L fuel2 sf sfs) S.Elts att.Attributes ∧
          (S.Elts ≠ [] → att.Attributes ≠ []))) ∧
    (∀ fuel d r o c, stringKeyValue L (some F) (str "Description") = .ok d →
      boolKeyValue L (some F) (str "Required") = .ok r →
      boolKeyValue L (some F) (str "Optional") = .ok o →
      boolKeyValue L (some F) (str "Computed") = .ok c →
      (hasKey (str "Schema") F.toNode = false →
        buildAttribute L (fuel + 1) sf k (some F) sfs =
          .ok ⟨k, L.TrimSpace d, o, r, c, [], 0, 0⟩) ∧
      (∀ S atts, walkToSchema F.toNode = .ok (some S) →
        appendAttributes L fuel [] sf (some S) sfs = .ok atts →
        buildAttribute L (fuel + 1) sf k (some F) sfs =
          .ok ⟨k, L.TrimSpace d, o, r, c, atts, 0, 0⟩)) := by
  constructor
  · intro fuel att h
    obtain ⟨fuel1, lit, d, r, o, c, hfuel, hlit, _, hr, ho, hc, hcase⟩ := buildAttribute_ok h
    cases hlit
    have hR := boolKeyValue_flagOf hr
    have hO := boolKeyValue_flagOf ho
    have hC := boolKeyValue_flagOf hc
    rcases hcase with ⟨hw, hatt⟩ | ⟨child, atts, hw, ha, hatt⟩
    · subst hatt
      refine ⟨rfl, hR, hO, hC, fun _ => rfl, ?_⟩
      intro hkey
      obtain ⟨S, hS, _⟩ := walkToSchema_some_of_key hkey hw
      cases hS
    · subst hatt
      refine ⟨rfl, hR, hO, hC, ?_, ?_⟩
      · intro hno
        rw [walkToSchema_none_of_no_key _ hno] at hw
        cases hw
      · intro _
        obtain ⟨fuel2, lit2, built, hfuel2, hlit2, hout, hall⟩ := appendAttributes_ok ha
        cases hlit2
        simp only [List.nil_append] at hout
        subst hout
        refine ⟨child, fuel2, walkToSchema_found hw, hw, by omega, hall.length_eq.symm, hall, ?_⟩
        intro hne hnil
        have hlen := hall.length_eq
        have hnil1 : atts = [] := hnil
        rw [hnil1] at hlen
        exact hne (List.length_eq_zero.1 hlen)
  · intro fuel d r o c hd hr ho hc
    constructor
    · intro hno
      simp [buildAttribute, hd, hr, ho, hc, walkToSchema_none_of_no_key _ hno]
    · intro S atts hS ha
      simp [buildAttribute, hd, hr, ho, hc, hS, ha]

/-- The witness of C3: the field schema of `alpha` in the example has a nested schema of two
fields and gets two nested attributes; the field schema `{Optional: true}` gets none. -/
theorem buildAttribute_fields_witness :
    buildAttribute plainLib 4 imageFunc (str "alpha") (some alphaField) exampleSchemaFuncs =
      .ok ⟨str "alpha", [], false, false, true,
        [⟨str "lun", [], true, false, false, [], 0, 0⟩,
         ⟨str "name", [], false, true, false, [], 0, 0⟩], 0, 0⟩ ∧
    buildAttribute plainLib 1 imageFunc (str "lun")
      (some ⟨none, [kv "Optional" (.Ident (str "true"))]⟩) exampleSchemaFuncs =
      .ok ⟨str "lun", [], true, false, false, [], 0, 0⟩ :=
  ⟨((buildAttribute_fields plainLib imageFunc (str "alpha") alphaField exampleSchemaFuncs).2 3 []
      false false true rfl rfl rfl rfl).2 lunNameSchema _ rfl rfl,
   ((buildAttribute_fields plainLib imageFunc (str "lun")
      ⟨none, [kv "Optional" (.Ident (str "true"))]⟩ exampleSchemaFuncs).2 0 [] false
      true false rfl rfl rfl rfl).1 rfl⟩

/-- C6: when a field of a schema literal has as value a call of a bare identifier `g` that is
no key of the builder index, and the fields before it resolve, `appendAttributes` returns the
error `unable to find schema func for g`, and so does `buildResource` on a constructor with
this schema. -/
theorem appendAttributes_unknown_builder (L : Lib) (fuel : Nat) (attrs attrs1 : List Attribute)
    (rf : schemaFunc) (sfs : GoMap schemaFunc) (lit : CompositeLit) (pre post args : List Node)
    (raw k g : GoString)
    (hl : lit.Elts = pre ++ .KeyValueExpr (.BasicLit raw) (.CallExpr (.Ident g) args) :: post)
    (hu : L.Unquote raw = some k) (hg : sfs.lookup g = none)
    (hpre : appendAttributes L (fuel + 1) attrs rf (some ⟨lit.Typ, pre⟩) sfs = .ok attrs1) :
    appendAttributes L (fuel + 1) attrs rf (some lit) sfs =
      .error (.Errorf (str "unable to find schema func for " ++ g)) ∧
    (∀ t name fd body, attrs = [] → 8 ≤ name.length → rf.Func = some fd →
      fd.Body = some body → walkToSchema body = .ok (some lit) →
      buildResource L (fuel + 1) t name rf sfs =
        .error (.Errorf (str "unable to find schema func for " ++ g))) := by
  have h1 : appendAttributes L (fuel + 1) attrs rf (some lit) sfs =
      .error (.Errorf (str "unable to find schema func for " ++ g)) := by
    simp only [appendAttributes] at hpre ⊢
    rw [hl, forElts_append _ pre attrs attrs1 _ hpre]
    simp [forElts, appendElt, hu, hg]
  refine ⟨h1, ?_⟩
  intro t name fd body hattrs hlen hf hb hw
  subst hattrs
  have hlt : ¬ name.length < 8 := by omega
  simp [buildResource, hlt, hf, hb, hw, h1]

/-- The witness of C6: the schema `{"lun": {...}, "name": nameSchema()}` with an empty builder
index. -/
theorem appendAttributes_unknown_builder_witness :
    appendAttributes plainLib 2 [] lunNameFunc (some lunNameSchema) GoMap.empty =
      .error (.Errorf (str "unable to find schema func for nameSchema")) ∧
    buildResource plainLib 2 (str "datasource") (str "azurerm_lun") lunNameFunc GoMap.empty =
      .error (.Errorf (str "unable to find schema func for nameSchema")) :=
  ⟨(appendAttributes_unknown_builder plainLib 1 [] [⟨str "lun", [], true, false, false, [], 0, 0⟩]
      lunNameFunc GoMap.empty lunNameSchema [lunField] [] [] (str ("\"" ++ "name" ++ "\""))
      (str "name") (str "nameSchema") rfl rfl rfl rfl).1,
   (appendAttributes_unknown_builder plainLib 1 [] [⟨str "lun", [], true, false, false, [], 0, 0⟩]
      lunNameFunc GoMap.empty lunNameSchema [lunField] [] [] (str ("\"" ++ "name" ++ "\""))
      (str "name") (str "nameSchema") rfl rfl rfl rfl).2 (str "datasource") (str "azurerm_lun") _ _ rfl (by decide) rfl rfl rfl⟩

/-! ## The search for the schema literal of a builder -/

theorem mem_compositeLitsList {x : CompositeLit} :
    ∀ {ns : List Node}, x ∈ compositeLitsList ns ↔ ∃ c ∈ ns, x ∈ compositeLits c
  | [] => by simp [compositeLitsList]
  | n :: ns => by
    simp only [compositeLitsList, List.mem_append, List.exists_mem_cons_iff]
    rw [mem_compositeLitsList]

theorem mem_compositeLits {x : CompositeLit} (n : Node) :
    x ∈ compositeLits n ↔ n.asLit = some x ∨ ∃ c ∈ n.children, x ∈ compositeLits c := by
  cases n with
  | Ident v => simp [compositeLits, Node.asLit, Node.children]
  | BasicLit v => simp [compositeLits, Node.asLit, Node.children]
  | CompositeLit t es =>
    cases t with
    | none =>
      simp [compositeLits, Node.asLit, Node.children, mem_compositeLitsList, eq_comm]
    | some t =>
      simp [compositeLits, Node.asLit, Node.children, mem_compositeLitsList, eq_comm,
        or_and_right, exists_or]
  | KeyValueExpr k v => simp [compositeLits, Node.asLit, Node.children]
  | CallExpr fn args =>
    simp [compositeLits, Node.asLit, Node.children, mem_compositeLitsList]
  | SelectorExpr x1 sel => simp [compositeLits, Node.asLit, Node.children]
  | StarExpr x1 => simp [compositeLits, Node.asLit, Node.children]
  | Other t cs => simp [compositeLits, Node.asLit, Node.children, mem_compositeLitsList]

theorem mem_schemaLits {im : GoMap GoString} {x : CompositeLit} (n : Node) :
    x ∈ schemaLits im n ↔
      (n.asLit = some x ∧ isSchemaLit im x = true) ∨ ∃ c ∈ n.children, x ∈ schemaLits im c := by
  simp only [schemaLits, List.mem_filter, mem_compositeLits n]
  constructor
  · rintro ⟨h1 | ⟨c, hc, h1⟩, h2⟩
    · exact Or.inl ⟨h1, h2⟩
    · exact Or.inr ⟨c, hc, h1, h2⟩
  · rintro (⟨h1, h2⟩ | ⟨c, hc, h1, h2⟩)
    · exact ⟨Or.inl h1, h2⟩
    · exact ⟨Or.inr ⟨c, hc, h1⟩, h2⟩

theorem childVisit_cases (im : GoMap GoString) (s : Option CompositeLit) (n : Node) :
    (∃ c, n.asLit = some c ∧ isSchemaLit im c = true ∧ childVisit im s n = .ok (some c, false)) ∨
    ((∀ c, n.asLit = some c → isSchemaLit im c = false) ∧
      ∃ b, childVisit im s n = .ok (s, b) ∧ (s = none → b = true)) := by
  unfold childVisit
  split
  · rename_i x sel es
    by_cases h1 : isSelectorFromPackage im x sel schemaPkg = true
    · by_cases h2 : sel = str "Schema"
      · subst h2
        left
        refine ⟨⟨some (.SelectorExpr x (str "Schema")), es⟩, rfl, ?_, ?_⟩
        · simp [isSchemaLit, h1]
        · simp [h1]
      · right
        refine ⟨?_, true, ?_, fun _ => rfl⟩
        · intro c hc
          simp only [Node.asLit, Option.some.injEq] at hc
          subst hc
          simp [isSchemaLit, h1, h2]
        · simp [h1, h2]
    · right
      refine ⟨?_, true, ?_, fun _ => rfl⟩
      · intro c hc
        simp only [Node.asLit, Option.some.injEq] at hc
        subst hc
        simp [isSchemaLit, h1]
      · simp [h1]
  · rename_i hn
    right
    refine ⟨?_, s.isNone, rfl, fun h => by rw [h]; rfl⟩
    intro c hc
    cases n with
    | CompositeLit t es =>
      simp only [Node.asLit, Option.some.injEq] at hc
      subst hc
      cases t with
      | none => simp [isSchemaLit]
      | some t =>
        cases t with
        | SelectorExpr x sel => exact absurd rfl (hn x sel es)
        | _ => simp [isSchemaLit]
    | _ => simp [Node.asLit] at hc

/-- The search for the schema literal of a builder never fails; what it finds is one of the
literals of the declaration typed `alias.Schema`, and it finds one when there is one. -/
theorem childSearch_spec (im : GoMap GoString) (root : Node) :
    ∃ r, Inspect (childVisit im) none root = .ok r ∧
      (∀ c, r = some c → c ∈ schemaLits im root) ∧
      (schemaLits im root ≠ [] → r ≠ none) := by
  have hsound := Inspect_rel (childVisit im)
    (fun s s1 => s1 = s ∨ ∃ c ∈ schemaLits im root, s1 = some c)
    (fun n => ∀ x ∈ schemaLits im n, x ∈ schemaLits im root) False
    (fun s => Or.inl rfl)
    (by
      rintro a b c (h1 | h1) (h2 | h2)
      · exact Or.inl (h2.trans h1)
      · exact Or.inr h2
      · exact Or.inr (h2 ▸ h1)
      · exact Or.inr h2)
    (fun n hq c hc x hx => hq x ((mem_schemaLits n).2 (Or.inr ⟨c, hc, hx⟩)))
    (by
      intro s n hq
      left
      rcases childVisit_cases im s n with ⟨c, hc, hs, hv⟩ | ⟨_, b, hv, _⟩
      · exact ⟨some c, false, hv, Or.inr ⟨c, hq c ((mem_schemaLits n).2 (Or.inl ⟨hc, hs⟩)), rfl⟩⟩
      · exact ⟨s, b, hv, Or.inl rfl⟩)
    root (fun x hx => hx) none
  rcases hsound with ⟨r, hr, hrel⟩ | ⟨hf, _⟩
  · refine ⟨r, hr, ?_, ?_⟩
    · intro c hc
      rcases hrel with h1 | ⟨c1, hc1, h1⟩
      · rw [h1] at hc; cases hc
      · rw [h1] at hc; cases hc; exact hc1
    · intro hne
      have hprog := (Inspect_progress (childVisit im) (fun s => s ≠ none)
        (fun n => ∃ c, n.asLit = some c ∧ isSchemaLit im c = true)
        (fun n => schemaLits im n ≠ [])
        (by
          intro n hn
          obtain ⟨x, hx⟩ := List.exists_mem_of_ne_nil _ hn
          rcases (mem_schemaLits n).1 hx with ⟨h1, h2⟩ | ⟨c, hc, h1⟩
          · exact Or.inl ⟨x, h1, h2⟩
          · exact Or.inr ⟨c, hc, List.ne_nil_of_mem h1⟩)
        (by
          rintro s n s1 b ⟨c, hc, hs⟩ hv
          rcases childVisit_cases im s n with ⟨c1, _, _, hv1⟩ | ⟨hno, _⟩
          · rw [hv1] at hv
            injection hv with hv
            injection hv with hv _
            rw [← hv]; simp
          · rw [hno c hc] at hs; cases hs)
        (by
          intro s n s1 b hd hv
          rcases childVisit_cases im s n with ⟨c1, _, _, hv1⟩ | ⟨_, b1, hv1, _⟩
          · rw [hv1] at hv
            injection hv with hv
            injection hv with hv _
            rw [← hv]; simp
          · rw [hv1] at hv
            injection hv with hv
            injection hv with hv _
            rw [← hv]; exact hd)
        (by
          intro s n s1 b hv hnd
          rcases childVisit_cases im s n with ⟨c1, _, _, hv1⟩ | ⟨_, b1, hv1, hb⟩
          · rw [hv1] at hv
            injection hv with hv
            injection hv with hv _
            rw [← hv] at hnd; simp at hnd
          · rw [hv1] at hv
            injection hv with hv
            injection hv with hv hb1
            rw [← hb1]
            apply hb
            rw [← hv] at hnd
            simpa using hnd)
        root).2 hne none r hr
      exact hprog
  · exact absurd hf id

theorem findChildAst_unique {sf : schemaFunc} {fd : FuncDecl} {Lc : CompositeLit}
    (hfd : sf.Func = some fd) (hex : Lc ∈ schemaLits sf.Imports fd.toNode)
    (honly : ∀ c ∈ schemaLits sf.Imports fd.toNode, c = Lc) :
    findChildAst sf = .ok (some Lc) := by
  obtain ⟨r, hr, hmem, hne⟩ := childSearch_spec sf.Imports fd.toNode
  simp only [findChildAst, hfd]
  rw [hr]
  cases r with
  | none => exact absurd rfl (hne (List.ne_nil_of_mem hex))
  | some c => rw [honly c (hmem c rfl)]

/-! ## The context of a resolution -/

theorem appendElt_congr (L : Lib)
    (build : schemaFunc → GoString → Option CompositeLit → Outcome Attribute)
    (hb : ∀ sf1 sf2 k c, build sf1 k c = build sf2 k c) (rf1 rf2 : schemaFunc)
    (sfs : GoMap schemaFunc) (attrs : List Attribute) (e : Node) :
    appendElt L build rf1 sfs attrs e = appendElt L build rf2 sfs attrs e := by
  cases e with
  | KeyValueExpr key value =>
    cases key with
    | BasicLit raw =>
      simp only [appendElt]
      cases L.Unquote raw with
      | none => rfl
      | some k =>
        cases value with
        | CompositeLit t es => simp only [hb rf1 rf2]
        | _ => rfl
    | _ => rfl
  | _ => rfl

/-- The outcome of a resolution does not depend on the context `rf` it is started in. -/
theorem resolution_context_free (L : Lib) :
    ∀ fuel : Nat,
      (∀ attrs rf1 rf2 schemaAst sfs,
        appendAttributes L fuel attrs rf1 schemaAst sfs =
          appendAttributes L fuel attrs rf2 schemaAst sfs) ∧
      (∀ sf1 sf2 k schema sfs,
        buildAttribute L fuel sf1 k schema sfs = buildAttribute L fuel sf2 k schema sfs)
  | 0 => ⟨fun _ _ _ _ _ => rfl, fun _ _ _ _ _ => rfl⟩
  | fuel + 1 => by
    obtain ⟨ihA, ihB⟩ := resolution_context_free L fuel
    constructor
    · intro attrs rf1 rf2 schemaAst sfs
      cases schemaAst with
      | none => rfl
      | some lit =>
        simp only [appendAttributes]
        have : appendElt L (fun sf k c => buildAttribute L fuel sf k c sfs) rf1 sfs =
            appendElt L (fun sf k c => buildAttribute L fuel sf k c sfs) rf2 sfs := by
          funext attrs e
          exact appendElt_congr L _ (fun sf1 sf2 k c => ihB sf1 sf2 k c sfs) rf1 rf2 sfs attrs e
        rw [this]
    · intro sf1 sf2 k schema sfs
      simp only [buildAttribute, ihA [] sf1 sf2]

/-- C2: when the builder `g` of the index has, among its composite literals, the literal `Lc`
as the only one typed `alias.Schema` (with `alias` imported from the schema package in the
file of `g`), a schema with the one field `key: g()` resolves exactly as the schema with the
one field `key: Lc`, the literal written inline: the same attributes, or the same failure. -/
theorem case_A_B_equivalence (L : Lib) (fuel : Nat) (attrs : List Attribute) (rf : schemaFunc)
    (sfs : GoMap schemaFunc) (t : Option Node) (key : Node) (g : GoString) (args : List Node)
    (Lc : CompositeLit) (sf : schemaFunc) (fd : FuncDecl)
    (hg : sfs.lookup g = some sf) (hfd : sf.Func = some fd)
    (hex : Lc ∈ schemaLits sf.Imports fd.toNode)
    (honly : ∀ c ∈ schemaLits sf.Imports fd.toNode, c = Lc) :
    appendAttributes L fuel attrs rf (some ⟨t, [.KeyValueExpr key (.CallExpr (.Ident g) args)]⟩)
        sfs =
      appendAttributes L fuel attrs rf (some ⟨t, [.KeyValueExpr key Lc.toNode]⟩) sfs := by
  cases fuel with
  | zero => rfl
  | succ fuel =>
    have hchild := findChildAst_unique hfd hex honly
    cases key with
    | BasicLit raw =>
      simp only [appendAttributes, forElts, appendElt, CompositeLit.toNode]
      cases L.Unquote raw with
      | none => rfl
      | some k =>
        simp only [hg, hchild]
        rw [(resolution_context_free L fuel).2 sf rf k (some Lc) sfs]
    | _ => rfl

/-! ## Malformed registries -/

theorem registryEntry_cases (L : Lib) (e : Node) :
    (entryOk L e ∧ ∃ k g, registryEntry L e = .ok (k, g)) ∨
    (¬ entryOk L e ∧ (registryEntry L e = .panic ∨
      (registryEntry L e = .error .ErrSyntax ∧
        ∃ raw v, e = .KeyValueExpr (.BasicLit raw) v ∧ L.Unquote raw = none))) := by
  by_cases hok : entryOk L e
  · obtain ⟨k, g, h, _⟩ := registryEntry_of_entryOk hok
    exact Or.inl ⟨hok, k, g, h⟩
  · right
    refine ⟨hok, ?_⟩
    cases e with
    | KeyValueExpr key value =>
      cases key with
      | BasicLit raw =>
        cases hu : L.Unquote raw with
        | none => exact Or.inr ⟨by simp [registryEntry, hu], raw, value, rfl, hu⟩
        | some k =>
          left
          cases value with
          | CallExpr fn args =>
            cases fn with
            | Ident g => exact absurd ⟨raw, k, g, args, rfl, hu⟩ hok
            | _ => simp [registryEntry, hu]
          | _ => simp [registryEntry, hu]
      | _ => exact Or.inl rfl
    | _ => exact Or.inl rfl

theorem registryLoop_cases (L : Lib) :
    ∀ (elts : List Node) (res : GoMap GoString),
      ((∀ e ∈ elts, entryOk L e) ∧ ∃ m, extractResourceFuncNamesLoop L res elts = .ok m) ∨
      ((∃ e ∈ elts, ¬ entryOk L e) ∧ (extractResourceFuncNamesLoop L res elts = .panic ∨
        (extractResourceFuncNamesLoop L res elts = .error .ErrSyntax ∧
          ∃ e ∈ elts, ∃ raw v, e = .KeyValueExpr (.BasicLit raw) v ∧ L.Unquote raw = none)))
  | [], res => Or.inl ⟨by simp, res, rfl⟩
  | e :: es, res => by
    rcases registryEntry_cases L e with ⟨hok, k, g, he⟩ | ⟨hbad, he⟩
    · rcases registryLoop_cases L es (res.insert k g) with ⟨hall, m, hm⟩ | ⟨⟨e1, he1, hb1⟩, h⟩
      · left
        refine ⟨?_, m, by simp [extractResourceFuncNamesLoop, he, hm]⟩
        intro e1 he1
        rcases List.mem_cons.1 he1 with h1 | h1
        · rw [h1]; exact hok
        · exact hall e1 h1
      · right
        refine ⟨⟨e1, List.mem_cons_of_mem _ he1, hb1⟩, ?_⟩
        rcases h with h | ⟨h, e2, he2, hraw⟩
        · exact Or.inl (by simp [extractResourceFuncNamesLoop, he, h])
        · exact Or.inr ⟨by simp [extractResourceFuncNamesLoop, he, h],
            e2, List.mem_cons_of_mem _ he2, hraw⟩
    · right
      refine ⟨⟨e, List.mem_cons_self _ _, hbad⟩, ?_⟩
      rcases he with he | ⟨he, hraw⟩
      · exact Or.inl (by simp [extractResourceFuncNamesLoop, he])
      · exact Or.inr ⟨by simp [extractResourceFuncNamesLoop, he], e, List.mem_cons_self _ _, hraw⟩

theorem providerVisit_cases (s : Option CompositeLit × Option CompositeLit) (n : Node) :
    providerVisit s n = .panic ∨
    ∃ s1 b, providerVisit s n = .ok (s1, b) ∧
      (isKeyed (str "DataSourcesMap") n = false → s1.1 = s.1) ∧
      (isKeyed (str "ResourcesMap") n = false → s1.2 = s.2) := by
  unfold providerVisit
  split
  · rename_i k v
    by_cases h1 : (k == str "DataSourcesMap") = true
    · simp only [h1, if_true]
      cases v with
      | CompositeLit t es =>
        right
        refine ⟨_, _, rfl, ?_, fun _ => rfl⟩
        intro h
        simp [isKeyed, isIdent, h1] at h
      | _ => exact Or.inl rfl
    · by_cases h2 : (k == str "ResourcesMap") = true
      · simp only [h1, h2, if_true]
        cases v with
        | CompositeLit t es =>
          right
          refine ⟨_, _, rfl, fun _ => rfl, ?_⟩
          intro h
          simp [isKeyed, isIdent, h2] at h
        | _ => exact Or.inl rfl
      · simp only [h1, h2]
        exact Or.inr ⟨_, _, rfl, fun _ => rfl, fun _ => rfl⟩
  · exact Or.inr ⟨_, _, rfl, fun _ => rfl, fun _ => rfl⟩

theorem hasKey_children {name : GoString} {n : Node} (h : hasKey name n = false) :
    isKeyed name n = false ∧ ∀ c ∈ n.children, hasKey name c = false := by
  rw [hasKey_eq, Bool.or_eq_false_iff] at h
  exact ⟨h.1, hasKeyList_false h.2⟩

/-- The search of `extractProviderData` panics or returns; a registry variable is still nil at
the end when the tree holds no pair keyed by the name of that registry. -/
theorem providerSearch_spec (root : Node) :
    Inspect providerVisit (none, none) root = .panic ∨
    ∃ s, Inspect providerVisit (none, none) root = .ok s ∧
      (hasKey (str "DataSourcesMap") root = false → s.1 = none) ∧
      (hasKey (str "ResourcesMap") root = false → s.2 = none) := by
  have h := Inspect_rel providerVisit
    (fun s s1 => (hasKey (str "DataSourcesMap") root = false → s1.1 = s.1) ∧
      (hasKey (str "ResourcesMap") root = false → s1.2 = s.2))
    (fun n => (hasKey (str "DataSourcesMap") root = false →
        hasKey (str "DataSourcesMap") n = false) ∧
      (hasKey (str "ResourcesMap") root = false → hasKey (str "ResourcesMap") n = false)) True
    (fun s => ⟨fun _ => rfl, fun _ => rfl⟩)
    (fun a b c h1 h2 =>
      ⟨fun hk => (h2.1 hk).trans (h1.1 hk), fun hk => (h2.2 hk).trans (h1.2 hk)⟩)
    (fun n hq c hc =>
      ⟨fun hk => (hasKey_children (hq.1 hk)).2 c hc, fun hk => (hasKey_children (hq.2 hk)).2 c hc⟩)
    (by
      intro s n hq
      rcases providerVisit_cases s n with hp | ⟨s1, b, hv, hd, hr⟩
      · exact Or.inr ⟨trivial, hp⟩
      · exact Or.inl ⟨s1, b, hv, fun hk => hd (hasKey_children (hq.1 hk)).1,
          fun hk => hr (hasKey_children (hq.2 hk)).1⟩)
    root ⟨fun hk => hk, fun hk => hk⟩ (none, none)
  rcases h with ⟨s, hs, hrel⟩ | ⟨_, hp⟩
  · exact Or.inr ⟨s, hs, hrel⟩
  · exact Or.inl hp

theorem extractResourceFuncNames_cases (L : Lib) (cl : Option CompositeLit) :
    (∃ c m, cl = some c ∧ (∀ e ∈ c.Elts, entryOk L e) ∧ extractResourceFuncNames L cl = .ok m) ∨
    extractResourceFuncNames L cl = .panic ∨
    (extractResourceFuncNames L cl = .error .ErrSyntax ∧
      ∃ c, cl = some c ∧ ∃ e ∈ c.Elts, ∃ raw v,
        e = .KeyValueExpr (.BasicLit raw) v ∧ L.Unquote raw = none) := by
  cases cl with
  | none => exact Or.inr (Or.inl rfl)
  | some c =>
    rcases registryLoop_cases L c.Elts GoMap.empty with ⟨hall, m, hm⟩ | ⟨_, h | ⟨h, hraw⟩⟩
    · exact Or.inl ⟨c, m, rfl, hall, hm⟩
    · exact Or.inr (Or.inl h)
    · exact Or.inr (Or.inr ⟨h, c, rfl, hraw⟩)

/-- How `extractProviderData` ends: with both registries, all their elements well formed; in a
panic; or with `strconv.ErrSyntax`, for a basic literal key that does not unquote. -/
theorem extractProviderData_cases (L : Lib) (f : FuncDecl) :
    (∃ ds r m1 m2, Inspect providerVisit (none, none) f.toNode = .ok (some ds, some r) ∧
      (∀ e ∈ ds.Elts ++ r.Elts, entryOk L e) ∧ extractProviderData L f = .ok (m1, m2)) ∨
    extractProviderData L f = .panic ∨
    (extractProviderData L f = .error .ErrSyntax ∧
      ∃ ds r c, Inspect providerVisit (none, none) f.toNode = .ok (ds, r) ∧
        (ds = some c ∨ r = some c) ∧
        ∃ e ∈ c.Elts, ∃ raw v, e = .KeyValueExpr (.BasicLit raw) v ∧ L.Unquote raw = none) := by
  unfold extractProviderData
  rcases providerSearch_spec f.toNode with hp | ⟨⟨ds, r⟩, hs, _, _⟩
  · rw [hp]; exact Or.inr (Or.inl rfl)
  · rw [hs]
    simp only
    rcases extractResourceFuncNames_cases L ds with ⟨c1, m1, hc1, hall1, h1⟩ | h1 | ⟨h1, c, hc, hraw⟩
    · rw [h1]
      simp only
      rcases extractResourceFuncNames_cases L r with
        ⟨c2, m2, hc2, hall2, h2⟩ | h2 | ⟨h2, c, hc, hraw⟩
      · rw [h2]
        left
        subst hc1 hc2
        refine ⟨c1, c2, m1, m2, rfl, ?_, rfl⟩
        intro e he
        rcases List.mem_append.1 he with h3 | h3
        · exact hall1 e h3
        · exact hall2 e h3
      · rw [h2]; exact Or.inr (Or.inl rfl)
      · rw [h2]; exact Or.inr (Or.inr ⟨rfl, ds, r, c, rfl, Or.inr hc, hraw⟩)
    · rw [h1]; exact Or.inr (Or.inl rfl)
    · rw [h1]; exact Or.inr (Or.inr ⟨rfl, ds, r, c, rfl, Or.inl hc, hraw⟩)

/-- C10, amended: when a registry assumption is violated, `extractProviderData` returns no
registries. It panics when the constructor has no `DataSourcesMap`; it panics or returns
`strconv.ErrSyntax` when it has no `ResourcesMap`, or when an element of the registries found
is not a pair of a string literal key and a call of a bare identifier; and it returns an error,
`strconv.ErrSyntax`, only when an element of a registry found has a basic literal as key that
does not unquote. -/
theorem extractProviderData_malformed (L : Lib) (f : FuncDecl) :
    (hasKey (str "DataSourcesMap") f.toNode = false → extractProviderData L f = .panic) ∧
    (hasKey (str "ResourcesMap") f.toNode = false →
      extractProviderData L f = .panic ∨ extractProviderData L f = .error .ErrSyntax) ∧
    (∀ ds r, Inspect providerVisit (none, none) f.toNode = .ok (some ds, some r) →
      (∃ e ∈ ds.Elts ++ r.Elts, ¬ entryOk L e) →
      extractProviderData L f = .panic ∨ extractProviderData L f = .error .ErrSyntax) ∧
    (∀ err, extractProviderData L f = .error err →
      err = .ErrSyntax ∧
      ∃ ds r c, Inspect providerVisit (none, none) f.toNode = .ok (ds, r) ∧
        (ds = some c ∨ r = some c) ∧
        ∃ e ∈ c.Elts, ∃ raw v, e = .KeyValueExpr (.BasicLit raw) v ∧ L.Unquote raw = none) := by
  refine ⟨?_, ?_, ?_, ?_⟩
  · intro hk
    unfold extractProviderData
    rcases providerSearch_spec f.toNode with hp | ⟨⟨ds, r⟩, hs, hds, _⟩
    · rw [hp]
    · rw [hs]
      have : ds = none := hds hk
      subst this
      rfl
  · intro hk
    rcases extractProviderData_cases L f with ⟨ds, r, m1, m2, hs, _, _⟩ | h | ⟨h, _⟩
    · rcases providerSearch_spec f.toNode with hp | ⟨s, hs1, _, hr⟩
      · rw [hp] at hs; cases hs
      · rw [hs1] at hs
        injection hs with hs
        have := hr hk
        rw [hs] at this
        cases this
    · exact Or.inl h
    · exact Or.inr h
  · intro ds r hs ⟨e, he, hbad⟩
    rcases extractProviderData_cases L f with ⟨ds1, r1, m1, m2, hs1, hall, _⟩ | h | ⟨h, _⟩
    · rw [hs] at hs1
      injection hs1 with hs1
      injection hs1 with h1 h2
      injection h1 with h1
      injection h2 with h2
      subst h1 h2
      exact absurd (hall e he) hbad
    · exact Or.inl h
    · exact Or.inr h
  · intro err herr
    rcases extractProviderData_cases L f with ⟨_, _, m1, m2, _, _, h⟩ | h | ⟨h, hraw⟩
    · rw [h] at herr; cases herr
    · rw [h] at herr; cases herr
    · rw [h] at herr
      injection herr with herr
      exact ⟨herr.symm, hraw⟩

theorem panic_ne_error {α : Type} {x : Outcome α} (h : x = .panic) (err : Error) :
    x ≠ .error err := by
  rw [h]
  intro h1
  cases h1

theorem identKey_not_entryOk :
    ∃ e ∈ identKeyRegistry.Elts ++ imageRegistry.Elts, ¬ entryOk plainLib e :=
  ⟨.KeyValueExpr (.Ident (str "azurerm_image")) (.CallExpr (.Ident (str "dataSourceArmImage")) []),
    List.mem_append_left _ (List.mem_singleton_self _), by
      rintro ⟨raw, k, g, args, he, _⟩
      cases he⟩

/-- The counterexample to C10: a registry key that is an identifier, and a missing
`ResourcesMap`, end in a panic, not in a returned error. -/
theorem extractProviderData_panics :
    (∃ e ∈ identKeyRegistry.Elts ++ imageRegistry.Elts, ¬ entryOk plainLib e) ∧
    extractProviderData plainLib identKeyProvider = .panic ∧
    (∀ err, extractProviderData plainLib identKeyProvider ≠ .error err) ∧
    hasKey (str "ResourcesMap") noResourcesProvider.toNode = false ∧
    extractProviderData plainLib noResourcesProvider = .panic ∧
    (∀ err, extractProviderData plainLib noResourcesProvider ≠ .error err) :=
  ⟨identKey_not_entryOk, rfl, fun err => panic_ne_error rfl err, rfl, rfl,
    fun err => panic_ne_error rfl err⟩

/-- The witness of C10, amended: the two malformed provider constructors. -/
theorem extractProviderData_malformed_witness :
    (extractProviderData plainLib identKeyProvider = .panic ∨
      extractProviderData plainLib identKeyProvider = .error .ErrSyntax) ∧
    (extractProviderData plainLib noResourcesProvider = .panic ∨
      extractProviderData plainLib noResourcesProvider = .error .ErrSyntax) :=
  ⟨(extractProviderData_malformed plainLib identKeyProvider).2.2.1 identKeyRegistry imageRegistry
      rfl identKey_not_entryOk,
   (extractProviderData_malformed plainLib noResourcesProvider).2.1 rfl⟩

theorem twiceRegistry_ok : ∀ e ∈ twiceRegistry.Elts, entryOk plainLib e := by
  intro e he
  simp only [twiceRegistry, List.mem_cons, List.mem_singleton, List.not_mem_nil, or_false] at he
  rcases he with he | he <;> subst he <;> exact ⟨_, _, _, _, rfl, rfl⟩

/-- The witness of C9: of two elements with the key `"azurerm_image"` the last one decides. -/
theorem extractResourceFuncNames_last_wins_witness :
    ∃ m, extractResourceFuncNames plainLib (some twiceRegistry) = .ok m ∧
      m.lookup (str "azurerm_image") = some (str "dataSourceArmImage") ∧
      m.lookup (str "azurerm_disk") = none :=
  (extractResourceFuncNames_last_wins plainLib twiceRegistry twiceRegistry_ok).imp
    (fun _ h => ⟨h.1,
      h.2.2.2 [.KeyValueExpr (quoted "azurerm_image") (.CallExpr (.Ident (str "oldImage")) [])]
        (str ("\"" ++ "azurerm_image" ++ "\"")) (str "dataSourceArmImage") [] []
        (str "azurerm_image") rfl rfl (by simp),
      h.2.2.1 (str "azurerm_disk") (by decide)⟩)

theorem nameSchema_lits :
    schemaLits exampleImports nameSchemaDecl.toNode = [requiredString] := rfl

/-- The witness of C2: the field `"name": nameSchema()` and the field `"name":
schema.Schema{Type: schema.TypeString, Required: true}` resolve to the same attribute. -/
theorem case_A_B_equivalence_witness :
    appendAttributes plainLib 2 [] imageFunc
        (some ⟨none, [.KeyValueExpr (quoted "name") (.CallExpr (.Ident (str "nameSchema")) [])]⟩)
        exampleSchemaFuncs =
      appendAttributes plainLib 2 [] imageFunc
        (some ⟨none, [.KeyValueExpr (quoted "name") requiredString.toNode]⟩) exampleSchemaFuncs ∧
    appendAttributes plainLib 2 [] imageFunc
        (some ⟨none, [.KeyValueExpr (quoted "name") requiredString.toNode]⟩) exampleSchemaFuncs =
      .ok [⟨str "name", [], false, true, false, [], 0, 0⟩] :=
  ⟨case_A_B_equivalence plainLib 2 [] imageFunc exampleSchemaFuncs none (quoted "name")
      (str "nameSchema") [] requiredString ⟨some nameSchemaDecl, [], exampleImports⟩
      nameSchemaDecl rfl rfl
      (by rw [nameSchema_lits]; exact List.mem_singleton_self _)
      (fun c hc => by rw [nameSchema_lits] at hc; exact List.mem_singleton.1 hc),
    rfl⟩

/-! ## The later claims: failures, order, context -/

/-- C11: on a constructor whose body holds no pair keyed `Schema`, `buildResource` ends in a
panic (the nil schema literal is dereferenced in `appendAttributes`) for every recursion
budget that lets `appendAttributes` start; it never returns an error. -/
theorem buildResource_no_schema_panics (L : Lib) (t name : GoString) (rf : schemaFunc)
    (sfs : GoMap schemaFunc) (fd : FuncDecl) (body : Node) (hf : rf.Func = some fd)
    (hb : fd.Body = some body) (hno : hasKey (str "Schema") body = false) :
    (∀ fuel, buildResource L (fuel + 1) t name rf sfs = .panic) ∧
    (∀ fuel err, buildResource L fuel t name rf sfs ≠ .error err) := by
  have hw := walkToSchema_none_of_no_key body hno
  have h1 : ∀ fuel, buildResource L (fuel + 1) t name rf sfs = .panic := by
    intro fuel
    by_cases hlen : name.length < 8
    · simp [buildResource, hlen]
    · simp [buildResource, hlen, hf, hb, hw, appendAttributes]
  refine ⟨h1, ?_⟩
  intro fuel err
  cases fuel with
  | zero =>
    by_cases hlen : name.length < 8
    · simp [buildResource, hlen]
    · simp [buildResource, hlen, hf, hb, hw, appendAttributes]
  | succ fuel => exact panic_ne_error (h1 fuel) err

/-- The witness of C11: the constructor `return &schema.Resource{Read: dataSourceEmptyRead}`. -/
theorem buildResource_no_schema_panics_witness :
    buildResource plainLib 5 (str "datasource") (str "azurerm_empty") emptyFunc
      exampleSchemaFuncs = .panic :=
  (buildResource_no_schema_panics plainLib (str "datasource") (str "azurerm_empty") emptyFunc
    exampleSchemaFuncs _ _ rfl rfl rfl).1 4

/-- C12: a field with a string literal key, after fields that resolve, makes
`appendAttributes` return the error `unexpected schema value node T` when its value is neither
a composite literal nor a call (`T` the node type of the value); when the value is a call of
something else than a bare identifier, such as `pkg.F()`, `appendAttributes` panics. -/
theorem appendAttributes_value_shapes (L : Lib) (fuel : Nat) (attrs attrs1 : List Attribute)
    (rf : schemaFunc) (sfs : GoMap schemaFunc) (lit : CompositeLit) (pre post : List Node)
    (raw k : GoString) (v : Node)
    (hl : lit.Elts = pre ++ .KeyValueExpr (.BasicLit raw) v :: post)
    (hu : L.Unquote raw = some k)
    (hpre : appendAttributes L (fuel + 1) attrs rf (some ⟨lit.Typ, pre⟩) sfs = .ok attrs1) :
    ((∀ t es, v ≠ .CompositeLit t es) → (∀ fn args, v ≠ .CallExpr fn args) →
      appendAttributes L (fuel + 1) attrs rf (some lit) sfs =
        .error (.Errorf (str "unexpected schema value node " ++ v.typeName))) ∧
    (∀ fn args, v = .CallExpr fn args → (∀ g, fn ≠ .Ident g) →
      appendAttributes L (fuel + 1) attrs rf (some lit) sfs = .panic) := by
  constructor
  · intro h1 h2
    simp only [appendAttributes] at hpre ⊢
    rw [hl, forElts_append _ pre attrs attrs1 _ hpre]
    cases v with
    | CompositeLit t es => exact absurd rfl (h1 t es)
    | CallExpr fn args => exact absurd rfl (h2 fn args)
    | _ => simp [forElts, appendElt, hu, Node.typeName]
  · intro fn args hv hfn
    subst hv
    simp only [appendAttributes] at hpre ⊢
    rw [hl, forElts_append _ pre attrs attrs1 _ hpre]
    cases fn with
    | Ident g => exact absurd rfl (hfn g)
    | _ => simp [forElts, appendElt, hu]

/-- The witness of C12: the value `&schema.Schema{...}` gives the error, the value
`azure.DiskSchema()` a panic. -/
theorem appendAttributes_value_shapes_witness :
    appendAttributes plainLib 3 [] imageFunc (some addressOfSchema) exampleSchemaFuncs =
      .error (.Errorf (str "unexpected schema value node *ast.UnaryExpr")) ∧
    appendAttributes plainLib 3 [] imageFunc (some qualifiedCallSchema) exampleSchemaFuncs =
      .panic :=
  ⟨(appendAttributes_value_shapes plainLib 2 [] [⟨str "lun", [], true, false, false, [], 0, 0⟩]
      imageFunc exampleSchemaFuncs addressOfSchema [lunField] []
      (str ("\"" ++ "disk" ++ "\"")) (str "disk")
      (.Other (str "*ast.UnaryExpr") [requiredString.toNode]) rfl rfl rfl).1
      (fun _ _ h => by cases h) (fun _ _ h => by cases h),
   (appendAttributes_value_shapes plainLib 2 [] [⟨str "lun", [], true, false, false, [], 0, 0⟩]
      imageFunc exampleSchemaFuncs qualifiedCallSchema [lunField] []
      (str ("\"" ++ "disk" ++ "\"")) (str "disk")
      (.CallExpr (.SelectorExpr (.Ident (str "azure")) (str "DiskSchema")) []) rfl rfl rfl).2
      _ _ rfl (fun _ h => by cases h)⟩

/-- The counterexample to C13: the value `isRequired` of the key `Required`, an identifier
that is neither `true` nor `false`, is answered with false, not with a panic. -/
theorem boolKeyValue_other_identifier :
    keyOf plainLib (kv "Required" (.Ident (str "isRequired"))) = some (str "Required") ∧
    boolKeyValue plainLib (some isRequiredField) (str "Required") = .ok false :=
  ⟨rfl, rfl⟩

/-- C13, amended: when an element keyed `n` is present (after elements keyed otherwise by a
string literal or an identifier), `boolKeyValue` requires the value of the first such element
to be an identifier: any other node is fatal, a panic. For an identifier it returns whether
the name is `true`: true for `true`, false for `false` and for every other identifier. -/
theorem boolKeyValue_requires_identifier (L : Lib) (lit : CompositeLit) (n : GoString)
    (pre post : List Node) (key v : Node)
    (hl : lit.Elts = pre ++ .KeyValueExpr key v :: post)
    (hk : ∀ e ∈ pre, keyOf L e ≠ none) (hpre : ∀ e ∈ pre, keyOf L e ≠ some n)
    (hkey : keyOf L (.KeyValueExpr key v) = some n) :
    (∀ x, v = .Ident x → boolKeyValue L (some lit) n = .ok (x == str "true")) ∧
    ((∀ x, v ≠ .Ident x) → boolKeyValue L (some lit) n = .panic) := by
  have h : keyValue L (some lit) n = .ok (some v) := by
    simp only [keyValue, hl]
    exact keyValueLoop_first L n key v post hkey pre hk hpre
  constructor
  · intro x hv
    subst hv
    simp [boolKeyValue, h]
  · intro hv
    unfold boolKeyValue
    rw [h]
    cases v with
    | Ident x => exact absurd rfl (hv x)
    | _ => rfl

/-- The witness of C13, amended: `Required: isRequired` gives false, `Required: 1` a panic. -/
theorem boolKeyValue_requires_identifier_witness :
    boolKeyValue plainLib (some isRequiredField) (str "Required") = .ok false ∧
    boolKeyValue plainLib (some numberRequiredField) (str "Required") = .panic :=
  ⟨(boolKeyValue_requires_identifier plainLib isRequiredField (str "Required")
      [kv "Type" (schemaSel "TypeBool")] [] (.Ident (str "Required")) (.Ident (str "isRequired"))
      rfl (by decide) (by decide) rfl).1 (str "isRequired") rfl,
   (boolKeyValue_requires_identifier plainLib numberRequiredField (str "Required")
      [kv "Type" (schemaSel "TypeBool")] [] (.Ident (str "Required")) (.BasicLit (str "1"))
      rfl (by decide) (by decide) rfl).2 (fun _ h => by cases h)⟩

theorem example_diskResource :
    buildResource plainLib 5 (str "datasource") (str "azurerm_disk") diskFunc
      exampleSchemaFuncs = .ok diskResource := by rfl

/-- C15: the nested fields `zeta`, `alpha`, written in this order in the source, give the
nested attributes `zeta`, `alpha` in this order, which is not ascending: `buildAttribute` does
not sort the list it builds, only `buildResource` sorts the list of the resource. -/
theorem nested_attributes_not_sorted :
    buildResource plainLib 5 (str "datasource") (str "azurerm_disk") diskFunc
      exampleSchemaFuncs = .ok diskResource ∧
    List.Sorted nameLE diskResource.Attributes ∧
    (diskResource.Attributes.map
        (fun a => a.Attributes.map (fun b => b.Name))) = [[str "zeta", str "alpha"]] ∧
    ∀ a ∈ diskResource.Attributes, ¬ List.Sorted nameLE a.Attributes := by
  refine ⟨example_diskResource, ?_, rfl, ?_⟩
  · simp [diskResource, List.Sorted]
  · intro a ha
    simp only [diskResource, List.mem_singleton] at ha
    subst ha
    intro h
    have h1 := List.rel_of_sorted_cons h ⟨str "alpha", [], false, true, false, [], 0, 0⟩
      (List.mem_singleton_self _)
    revert h1
    unfold nameLE
    decide

theorem lunNameSchema_ne_imageSchema : lunNameSchema ≠ imageSchema := by
  intro h
  have h1 := congrArg (fun c : CompositeLit => c.Elts.map (quotedKey plainLib)) h
  revert h1
  simp only [lunNameSchema, imageSchema, lunField]
  decide

/-- C19: on the literal `schema.Resource{Schema: A, Schema: B}`, and on a body where the pair
`Schema: B` is a later element of a literal that encloses the pair `Schema: A`, the first pair
keyed `Schema` in depth-first order has the value `A`, and `walkToSchema` returns `B`, the
value of the last pair it visits. -/
theorem walkToSchema_returns_last :
    (keyedValues (str "Schema") twoSchemas).head? = some imageSchema.toNode ∧
    walkToSchema twoSchemas = .ok (some lunNameSchema) ∧
    (keyedValues (str "Schema") wrapperBody).head? = some imageSchema.toNode ∧
    walkToSchema wrapperBody = .ok (some lunNameSchema) ∧
    lunNameSchema ≠ imageSchema :=
  ⟨rfl, rfl, rfl, rfl, lunNameSchema_ne_imageSchema⟩

/-- C20: the outcome of `appendAttributes` and of `buildAttribute` is the same in every two
caller contexts, for the same schema literal, builder index and recursion budget; and
`buildResource` reads of its context the declaration only, neither the comment map nor the
map of the imports. -/
theorem resolution_ignores_context (L : Lib) (fuel : Nat) (attrs : List Attribute)
    (rf1 rf2 : schemaFunc) (schemaAst : Option CompositeLit) (sfs : GoMap schemaFunc)
    (k t name : GoString) :
    appendAttributes L fuel attrs rf1 schemaAst sfs =
      appendAttributes L fuel attrs rf2 schemaAst sfs ∧
    buildAttribute L fuel rf1 k schemaAst sfs = buildAttribute L fuel rf2 k schemaAst sfs ∧
    buildResource L fuel t name ⟨rf1.Func, rf1.CommentMap, rf1.Imports⟩ sfs =
      buildResource L fuel t name ⟨rf1.Func, rf2.CommentMap, rf2.Imports⟩ sfs := by
  refine ⟨(resolution_context_free L fuel).1 attrs rf1 rf2 schemaAst sfs,
    (resolution_context_free L fuel).2 rf1 rf2 k schemaAst sfs, ?_⟩
  unfold buildResource
  simp only
  by_cases hlen : name.length < 8
  · simp [hlen]
  · simp only [hlen, if_false]
    cases rf1.Func with
    | none => rfl
    | some fd =>
      simp only
      cases fd.Body with
      | none => rfl
      | some body =>
        simp only
        cases walkToSchema body with
        | ok schemaAst1 =>
          simp only
          rw [(resolution_context_free L fuel).1 []
            ⟨some fd, rf1.CommentMap, rf1.Imports⟩ ⟨some fd, rf2.CommentMap, rf2.Imports⟩]
        | _ => rfl

/-! ## The import map -/

theorem importEntry_unique {L : Lib} {imp : ImportSpec} {k p k1 p1 : GoString}
    (h : importEntry L imp k p) (h1 : importEntry L imp k1 p1) : k = k1 ∧ p = p1 := by
  obtain ⟨_, hp, hk⟩ := h
  obtain ⟨_, hp1, hk1⟩ := h1
  have hpp : p = p1 := by
    rw [hp] at hp1
    exact Option.some.inj hp1
  subst hpp
  refine ⟨?_, rfl⟩
  rcases hk with ⟨name, hn, hne, rfl⟩ | ⟨hn, rfl⟩
  · rcases hk1 with ⟨name1, hn1, _, rfl⟩ | ⟨hn1, rfl⟩
    · rw [hn] at hn1
      exact Option.some.inj hn1
    · rcases hn1 with hn1 | hn1
      · rw [hn] at hn1
        cases hn1
      · rw [hn] at hn1
        exact absurd (Option.some.inj hn1) hne
  · rcases hk1 with ⟨name1, hn1, hne1, rfl⟩ | ⟨_, rfl⟩
    · rcases hn with hn | hn
      · rw [hn] at hn1
        cases hn1
      · rw [hn] at hn1
        exact absurd (Option.some.inj hn1).symm hne1
    · rfl

/-- The three ways one import is dealt with. -/
theorem addImport_cases (L : Lib) (imports : GoMap GoString) (imp : ImportSpec) :
    (imp.Name = some (str "_") ∧ addImport L imports imp = .ok imports) ∨
    (imp.Name ≠ some (str "_") ∧ L.Unquote imp.Path = none ∧
      addImport L imports imp = .error .ErrSyntax) ∨
    (∃ k p, importEntry L imp k p ∧ addImport L imports imp = .ok (imports.insert k p)) := by
  by_cases hb : imp.Name = some (str "_")
  · left
    exact ⟨hb, by simp [addImport, hb]⟩
  · right
    cases hu : L.Unquote imp.Path with
    | none =>
      left
      exact ⟨hb, rfl, by simp [addImport, hb, hu]⟩
    | some p =>
      right
      cases hn : imp.Name with
      | none =>
        exact ⟨filepathBase p, p, ⟨hb, hu, Or.inr ⟨Or.inl hn, rfl⟩⟩,
          by simp [addImport, hu, hn]⟩
      | some name =>
        have hb1 : name ≠ str "_" := fun h => hb (by rw [hn, h])
        by_cases he : name = []
        · subst he
          refine ⟨filepathBase p, p, ⟨hb, hu, Or.inr ⟨Or.inr hn, rfl⟩⟩, ?_⟩
          simp only [addImport, hu, hn]
          have h1 : (some ([] : GoString) == some (str "_")) = false := by decide
          simp [h1]
        · exact ⟨name, p, ⟨hb, hu, Or.inl ⟨name, hn, he, rfl⟩⟩,
            by simp [addImport, hu, hn, hb1, he]⟩

theorem not_importEntry_blank {L : Lib} {imp : ImportSpec} (h : imp.Name = some (str "_"))
    (k p : GoString) : ¬ importEntry L imp k p := fun he => he.1 h

/-- The import loop returns a map when every path that is read can be unquoted. -/
theorem buildImports_total (L : Lib) :
    ∀ (imps : List ImportSpec) (m0 : GoMap GoString),
      (∀ imp ∈ imps, imp.Name ≠ some (str "_") → L.Unquote imp.Path ≠ none) →
      ∃ m, buildImports L m0 imps = .ok m
  | [], m0, _ => ⟨m0, rfl⟩
  | imp :: imps, m0, hq => by
    have hq1 : ∀ i ∈ imps, i.Name ≠ some (str "_") → L.Unquote i.Path ≠ none :=
      fun i hi => hq i (List.mem_cons_of_mem _ hi)
    rcases addImport_cases L m0 imp with ⟨hb, ha⟩ | ⟨hb, hu, _⟩ | ⟨k1, p1, he, ha⟩
    · obtain ⟨m, hm⟩ := buildImports_total L imps m0 hq1
      exact ⟨m, by simp [buildImports, ha, hm]⟩
    · exact absurd hu (hq imp (List.mem_cons_self _ _) hb)
    · obtain ⟨m, hm⟩ := buildImports_total L imps (m0.insert k1 p1) hq1
      exact ⟨m, by simp [buildImports, ha, hm]⟩

/-- The entries of the map the import loop returns are those it had and those of the imports,
and a key no import stands for keeps its value. -/
theorem buildImports_spec (L : Lib) :
    ∀ (imps : List ImportSpec) (m0 m : GoMap GoString), buildImports L m0 imps = .ok m →
        (∀ k p, m.lookup k = some p →
          m0.lookup k = some p ∨ ∃ imp ∈ imps, importEntry L imp k p) ∧
        (∀ k, (∀ imp ∈ imps, ∀ p, ¬ importEntry L imp k p) → m.lookup k = m0.lookup k)
  | [], m0, m, hm => by
    cases hm
    exact ⟨fun _ _ h => Or.inl h, fun _ _ => rfl⟩
  | imp :: imps, m0, m, hm => by
    rcases addImport_cases L m0 imp with ⟨hb, ha⟩ | ⟨hb, hu, ha⟩ | ⟨k1, p1, he, ha⟩
    · simp only [buildImports, ha] at hm
      obtain ⟨h1, h2⟩ := buildImports_spec L imps m0 m hm
      refine ⟨?_, ?_⟩
      · intro k p hk
        rcases h1 k p hk with h | ⟨i, hi, hie⟩
        · exact Or.inl h
        · exact Or.inr ⟨i, List.mem_cons_of_mem _ hi, hie⟩
      · intro k hk
        exact h2 k (fun i hi => hk i (List.mem_cons_of_mem _ hi))
    · simp [buildImports, ha] at hm
    · simp only [buildImports, ha] at hm
      obtain ⟨h1, h2⟩ := buildImports_spec L imps (m0.insert k1 p1) m hm
      refine ⟨?_, ?_⟩
      · intro k p hk
        rcases h1 k p hk with h | ⟨i, hi, hie⟩
        · by_cases hkk : k1 = k
          · subst hkk
            rw [lookup_cons_eq] at h
            cases h
            exact Or.inr ⟨imp, List.mem_cons_self _ _, he⟩
          · rw [lookup_cons_ne _ _ _ _ hkk] at h
            exact Or.inl h
        · exact Or.inr ⟨i, List.mem_cons_of_mem _ hi, hie⟩
      · intro k hk
        rw [h2 k (fun i hi => hk i (List.mem_cons_of_mem _ hi))]
        have hkk : k1 ≠ k := by
          intro h
          subst h
          exact hk imp (List.mem_cons_self _ _) p1 he
        exact lookup_cons_ne _ _ _ _ hkk

/-- The entry of the last import that stands for a key is the one the map holds. -/
theorem buildImports_last (L : Lib) (imp : ImportSpec) (post : List ImportSpec)
    (k p : GoString) (he : importEntry L imp k p)
    (hpost : ∀ i ∈ post, ∀ p2, ¬ importEntry L i k p2) :
    ∀ (pre : List ImportSpec) (m0 m : GoMap GoString),
      buildImports L m0 (pre ++ imp :: post) = .ok m → m.lookup k = some p
  | [], m0, m, hm => by
    rcases addImport_cases L m0 imp with ⟨hb, _⟩ | ⟨_, hu, _⟩ | ⟨k1, p1, he1, ha⟩
    · exact absurd he (not_importEntry_blank hb k p)
    · rw [he.2.1] at hu
      cases hu
    · obtain ⟨rfl, rfl⟩ := importEntry_unique he he1
      simp only [List.nil_append, buildImports, ha] at hm
      rw [(buildImports_spec L post _ m hm).2 k hpost]
      exact lookup_cons_eq _ _ _
  | j :: pre, m0, m, hm => by
    simp only [List.cons_append, buildImports] at hm
    cases ha : addImport L m0 j with
    | ok m1 =>
      rw [ha] at hm
      exact buildImports_last L imp post k p he hpost pre m1 m hm
    | error e => rw [ha] at hm; cases hm
    | panic => rw [ha] at hm; cases hm
    | diverge => rw [ha] at hm; cases hm

theorem takeWhile_segment (l rest : List UInt8) (hs : (47 : UInt8) ∉ l) :
    (l ++ 47 :: rest).takeWhile (fun c => c != 47) = l ∧ l.takeWhile (fun c => c != 47) = l := by
  induction l with
  | nil => simp [List.takeWhile]
  | cons c l ih =>
    have hc : c ≠ 47 := fun h => hs (by simp [h])
    have hl : (47 : UInt8) ∉ l := fun h => hs (List.mem_cons_of_mem _ h)
    have hcb : (c != 47) = true := by simpa using hc
    simp [List.takeWhile_cons, hcb, ih hl]

/-- The base of a path that ends in a segment without slash is the segment. -/
theorem filepathBase_segment (dir seg : GoString) (hne : seg ≠ []) (hs : (47 : UInt8) ∉ seg) :
    filepathBase (dir ++ 47 :: seg) = seg ∧ filepathBase seg = seg := by
  have hr : (47 : UInt8) ∉ seg.reverse := by simpa using hs
  have hrn : seg.reverse ≠ [] := by simpa using hne
  obtain ⟨x, r, hxr⟩ := List.exists_cons_of_ne_nil hrn
  have hx : x ≠ 47 := by
    intro h
    apply hr
    rw [hxr, h]
    exact List.mem_cons_self _ _
  have hd : ∀ rest : List UInt8, (seg.reverse ++ rest).dropWhile (fun c => c == 47) =
      seg.reverse ++ rest := by
    intro rest
    rw [hxr]
    have hxb : (x == 47) = false := by simpa using hx
    simp [List.dropWhile_cons, hxb]
  obtain ⟨y, t, hyt⟩ := List.exists_cons_of_ne_nil hne
  constructor
  · have h1 : dir ++ 47 :: seg ≠ [] := by simp
    unfold filepathBase
    rw [if_neg h1, List.reverse_append, List.reverse_cons, List.append_assoc, hd,
      List.singleton_append, (takeWhile_segment seg.reverse dir.reverse hr).1,
      List.reverse_reverse]
    rw [hyt]
  · unfold filepathBase
    have h2 := hd []
    rw [List.append_nil] at h2
    rw [if_neg hne, h2, (takeWhile_segment seg.reverse [] hr).2, List.reverse_reverse]
    rw [hyt]

/-- C16: when the path literal of every import that is no blank import can be unquoted, the
loop over the imports of a file returns a map. Every entry of the map is the entry of
an import that is no blank import: its value is the unquoted path, its key the local name of
the import, or the base of the path when the import has none. The entry of an import is in
the map unless a later import stands for the same key, and the base of a path that ends in
a slash and a segment is the segment. -/
theorem buildImports_entries (L : Lib) (imps : List ImportSpec)
    (hq : ∀ imp ∈ imps, imp.Name ≠ some (str "_") → L.Unquote imp.Path ≠ none) :
    ∃ m, buildImports L GoMap.empty imps = .ok m ∧
      (∀ k p, m.lookup k = some p → ∃ imp ∈ imps, importEntry L imp k p) ∧
      (∀ pre imp post k p, imps = pre ++ imp :: post → importEntry L imp k p →
        (∀ i ∈ post, ∀ p2, ¬ importEntry L i k p2) → m.lookup k = some p) ∧
      (∀ imp ∈ imps, imp.Name = some (str "_") → ∀ k p, ¬ importEntry L imp k p) ∧
      (∀ dir seg : GoString, seg ≠ [] → (47 : UInt8) ∉ seg →
        filepathBase (dir ++ 47 :: seg) = seg ∧ filepathBase seg = seg) := by
  obtain ⟨m, hm⟩ := buildImports_total L imps GoMap.empty hq
  refine ⟨m, hm, ?_, ?_, fun _ _ hb => not_importEntry_blank hb, filepathBase_segment⟩
  · intro k p hk
    rcases (buildImports_spec L imps _ m hm).1 k p hk with h | h
    · simp [GoMap.lookup, GoMap.empty] at h
    · exact h
  · intro pre imp post k p hi he hpost
    subst hi
    exact buildImports_last L imp post k p he hpost pre _ m hm

theorem exampleImportSpecs_ok :
    ∀ imp ∈ exampleImportSpecs, imp.Name ≠ some (str "_") →
      plainLib.Unquote imp.Path ≠ none := by
  intro imp hi _
  simp only [exampleImportSpecs, List.mem_cons, List.mem_singleton, List.not_mem_nil,
    or_false] at hi
  rcases hi with rfl | rfl | rfl | rfl | rfl <;> decide

/-- The witness of C16: of the imports `"fmt"`, `_ "net/http/pprof"`, `tf ".../terraform"`,
`".../helper/schema"` and `fmt "log"` the map holds `fmt` for `log`, the later of the two,
`tf` and `schema` for the full paths, and no key `pprof`. -/
theorem buildImports_entries_witness :
    ∃ m, buildImports plainLib GoMap.empty exampleImportSpecs = .ok m ∧
      m.lookup (str "fmt") = some (str "log") ∧
      m.lookup (str "tf") = some terraformPkg ∧
      m.lookup (str "schema") = some schemaPkg ∧
      m.lookup (str "pprof") = none := by
  obtain ⟨m, hm, h1, h2, _, _⟩ := buildImports_entries plainLib exampleImportSpecs
    exampleImportSpecs_ok
  have hv : m = [(str "fmt", str "log"), (str "schema", schemaPkg), (str "tf", terraformPkg),
      (str "fmt", str "fmt")] := by
    have h0 : buildImports plainLib GoMap.empty exampleImportSpecs =
        .ok [(str "fmt", str "log"), (str "schema", schemaPkg), (str "tf", terraformPkg),
          (str "fmt", str "fmt")] := by rfl
    rw [h0] at hm
    exact (Outcome.ok.inj hm).symm
  refine ⟨m, hm, ?_, ?_, ?_, ?_⟩
  · exact h2 (exampleImportSpecs.take 4) ⟨some (str "fmt"), str "\"log\""⟩ [] (str "fmt")
      (str "log") rfl
      ⟨by decide, rfl, Or.inl ⟨str "fmt", rfl, by decide, rfl⟩⟩
      (fun i hi => by cases hi)
  · subst hv; rfl
  · subst hv; rfl
  · subst hv; rfl

/-! ## The description of a resource -/

theorem spaceWidth_pos_ne_nil {s : GoString} (h : spaceWidth s ≠ 0) : s ≠ [] := by
  intro hs
  subst hs
  exact h rfl

theorem spaceWidthRev_pos_ne_nil {s : GoString} (h : spaceWidthRev s ≠ 0) : s ≠ [] := by
  intro hs
  subst hs
  exact h rfl

theorem length_drop_lt {s : GoString} {w : Nat} (hs : s ≠ []) (hw : w ≠ 0) :
    (s.drop w).length < s.length := by
  have : 0 < s.length := List.length_pos.mpr hs
  rw [List.length_drop]
  omega

/-- All white space at the start is cut when the bound is the length of the text. -/
theorem trimLeft_spaceWidth : ∀ (n : Nat) (s : GoString), s.length ≤ n →
    spaceWidth (trimLeft n s) = 0
  | 0, s, h => by
    have hs : s = [] := List.length_eq_zero.mp (by omega)
    subst hs
    rfl
  | n + 1, s, h => by
    unfold trimLeft
    by_cases hw : spaceWidth s = 0
    · rw [if_pos hw]
      exact hw
    · rw [if_neg hw]
      have := length_drop_lt (spaceWidth_pos_ne_nil hw) hw
      exact trimLeft_spaceWidth n _ (by omega)

/-- All white space at the end is cut when the bound is the length of the text. -/
theorem trimRightRev_spaceWidthRev : ∀ (n : Nat) (s : GoString), s.length ≤ n →
    spaceWidthRev (trimRightRev n s) = 0
  | 0, s, h => by
    have hs : s = [] := List.length_eq_zero.mp (by omega)
    subst hs
    rfl
  | n + 1, s, h => by
    unfold trimRightRev
    by_cases hw : spaceWidthRev s = 0
    · rw [if_pos hw]
      exact hw
    · rw [if_neg hw]
      have := length_drop_lt (spaceWidthRev_pos_ne_nil hw) hw
      exact trimRightRev_spaceWidthRev n _ (by omega)

theorem trimLeft_drop : ∀ (n : Nat) (s : GoString), ∃ k, trimLeft n s = s.drop k
  | 0, s => ⟨0, rfl⟩
  | n + 1, s => by
    unfold trimLeft
    by_cases hw : spaceWidth s = 0
    · rw [if_pos hw]
      exact ⟨0, rfl⟩
    · rw [if_neg hw]
      obtain ⟨k, hk⟩ := trimLeft_drop n (s.drop (spaceWidth s))
      exact ⟨spaceWidth s + k, by rw [hk, List.drop_drop]⟩

theorem trimRightRev_drop : ∀ (n : Nat) (s : GoString), ∃ k, trimRightRev n s = s.drop k
  | 0, s => ⟨0, rfl⟩
  | n + 1, s => by
    unfold trimRightRev
    by_cases hw : spaceWidthRev s = 0
    · rw [if_pos hw]
      exact ⟨0, rfl⟩
    · rw [if_neg hw]
      obtain ⟨k, hk⟩ := trimRightRev_drop n (s.drop (spaceWidthRev s))
      exact ⟨spaceWidthRev s + k, by rw [hk, List.drop_drop]⟩

/-- A white space character at the start of a text is one at the start of every longer text. -/
theorem spaceWidth_append (p x : GoString) (h : spaceWidth p ≠ 0) :
    spaceWidth (p ++ x) = spaceWidth p := by
  match p, h with
  | [], h => exact absurd rfl h
  | [c], h =>
    by_cases hc : asciiSpace c = true
    · simp [spaceWidth, hc]
    · exfalso
      apply h
      simp [spaceWidth, hc]
  | [c, d], h =>
    by_cases hc : asciiSpace c = true
    · simp [spaceWidth, hc]
    · by_cases h2 : (c == 0xC2 && (d == 0x85 || d == 0xA0)) = true
      · simp only [spaceWidth, hc, List.cons_append, List.nil_append, h2]
        cases x <;> simp [spaceWidth, hc, h2]
      · exfalso
        apply h
        simp only [spaceWidth, hc, h2]
        simp
  | c :: d :: e :: r, h => rfl

/-- A text that begins with no white space has no prefix that begins with white space. -/
theorem spaceWidth_take (s : GoString) (j : Nat) (h : spaceWidth s = 0) :
    spaceWidth (s.take j) = 0 := by
  by_contra hne
  have := spaceWidth_append (s.take j) (s.drop j) hne
  rw [List.take_append_drop] at this
  exact hne (this ▸ h)

/-- The result of `strings.TrimSpace` begins and ends with no white space character. -/
theorem stringsTrimSpace_trimmed (s : GoString) :
    spaceWidth (stringsTrimSpace s) = 0 ∧ spaceWidthRev (stringsTrimSpace s).reverse = 0 := by
  obtain ⟨k, hk⟩ := trimLeft_drop s.length s
  have hlen : (trimLeft s.length s).reverse.length ≤ s.length := by
    rw [List.length_reverse, hk, List.length_drop]
    omega
  constructor
  · obtain ⟨j, hj⟩ := trimRightRev_drop s.length (trimLeft s.length s).reverse
    unfold stringsTrimSpace
    rw [hj, List.drop_reverse, List.reverse_reverse]
    exact spaceWidth_take _ _ (trimLeft_spaceWidth s.length s (le_refl _))
  · unfold stringsTrimSpace
    rw [List.reverse_reverse]
    exact trimRightRev_spaceWidthRev _ _ hlen

/-- The function `skipFirstLine` cuts the text after its first newline. -/
theorem skipFirstLine_spec (d : GoString) :
    ((10 : UInt8) ∉ d → skipFirstLine d = []) ∧
    ((10 : UInt8) ∈ d → ∃ first, d = first ++ 10 :: skipFirstLine d ∧ (10 : UInt8) ∉ first) := by
  induction d with
  | nil => exact ⟨fun _ => rfl, fun h => by cases h⟩
  | cons c d ih =>
    by_cases hc : c = 10
    · subst hc
      refine ⟨fun h => absurd (List.mem_cons_self _ _) h, fun _ => ⟨[], ?_, by simp⟩⟩
      simp [skipFirstLine, splitFirstNewline, List.span, List.span.loop]
    · have hcb : (c != 10) = true := by simpa using hc
      have hs : skipFirstLine (c :: d) = skipFirstLine d := by
        simp only [skipFirstLine, splitFirstNewline, List.span_eq_take_drop,
          List.takeWhile_cons, List.dropWhile_cons, hcb, if_true]
        cases List.dropWhile (fun c => c != 10) d <;> rfl
      rw [hs]
      constructor
      · intro h
        exact ih.1 (fun h1 => h (List.mem_cons_of_mem _ h1))
      · intro h
        have hd : (10 : UInt8) ∈ d := by
          rcases List.mem_cons.mp h with h1 | h1
          · exact absurd h1.symm hc
          · exact h1
        obtain ⟨first, hf, hn⟩ := ih.2 hd
        refine ⟨c :: first, by rw [List.cons_append, ← hf], ?_⟩
        intro h1
        rcases List.mem_cons.mp h1 with h2 | h2
        · exact hc h2.symm
        · exact hn h2

/-- C14: with `strings.TrimSpace` of the library, the description of the resource
`buildResource` returns is the trimmed `skipFirstLine(d)` of the documentation text `d` of the
constructor, where `skipFirstLine(d)` is empty when `d` has no newline and otherwise
`d = first ++ "\n" ++ skipFirstLine(d)` with no newline in `first`; the description begins and
ends with no white space character, and is empty when `d` has no newline. -/
theorem buildResource_description (L : Lib) (fuel : Nat) (t name : GoString) (rf : schemaFunc)
    (sfs : GoMap schemaFunc) (r : Resource) (fd : FuncDecl)
    (ht : ∀ s, L.TrimSpace s = stringsTrimSpace s) (hf : rf.Func = some fd)
    (hr : buildResource L fuel t name rf sfs = .ok r) :
    r.Description = stringsTrimSpace (skipFirstLine fd.Doc) ∧
    (∀ d : GoString, ((10 : UInt8) ∉ d → skipFirstLine d = []) ∧
      ((10 : UInt8) ∈ d →
        ∃ first, d = first ++ 10 :: skipFirstLine d ∧ (10 : UInt8) ∉ first)) ∧
    spaceWidth r.Description = 0 ∧ spaceWidthRev r.Description.reverse = 0 ∧
    ((10 : UInt8) ∉ fd.Doc → r.Description = []) := by
  obtain ⟨_, fd1, body, schemaAst, attrs, hf1, _, _, _, rfl⟩ := buildResource_ok hr
  rw [hf] at hf1
  cases hf1
  have hd : (⟨str "azurerm", name, name.drop 8, [], L.TrimSpace (skipFirstLine fd.Doc), t,
      sortByName attrs⟩ : Resource).Description = stringsTrimSpace (skipFirstLine fd.Doc) :=
    ht _
  rw [hd]
  refine ⟨rfl, skipFirstLine_spec, (stringsTrimSpace_trimmed _).1,
    (stringsTrimSpace_trimmed _).2, ?_⟩
  intro h
  rw [(skipFirstLine_spec fd.Doc).1 h]
  rfl

theorem example_buildResource_goLib :
    buildResource goLib 5 (str "datasource") (str "azurerm_image") imageFunc
      exampleSchemaFuncs = .ok imageResource := by rfl

/-- The witness of C14: the example constructor, whose documentation is
`dataSourceArmImage builds the schema.`, a newline, `Use this data source to access an Image.`
and a newline. -/
theorem buildResource_description_witness :
    imageResource.Description = str "Use this data source to access an Image." ∧
    spaceWidth imageResource.Description = 0 ∧
    spaceWidthRev imageResource.Description.reverse = 0 :=
  have h := buildResource_description goLib 5 (str "datasource") (str "azurerm_image") imageFunc
    exampleSchemaFuncs imageResource dataSourceArmImage (fun _ => rfl) rfl
    example_buildResource_goLib
  ⟨rfl, h.2.2.1, h.2.2.2.1⟩

/-! ## Where the resolution can run out of budget -/

theorem keyValueLoop_ne_diverge (L : Lib) (needle : GoString) :
    ∀ es : List Node, keyValueLoop L needle es ≠ .diverge
  | [] => by simp [keyValueLoop]
  | e :: es => by
    have ih := keyValueLoop_ne_diverge L needle es
    unfold keyValueLoop
    split
    · split
      · split
        · simp
        · split
          · simp
          · exact ih
      · split
        · simp
        · exact ih
      · simp
    · simp

theorem keyValue_ne_diverge (L : Lib) (h : Option CompositeLit) (needle : GoString) :
    keyValue L h needle ≠ .diverge := by
  cases h with
  | none => simp [keyValue]
  | some c => exact keyValueLoop_ne_diverge L needle c.Elts

theorem stringKeyValue_ne_diverge (L : Lib) (h : Option CompositeLit) (needle : GoString) :
    stringKeyValue L h needle ≠ .diverge := by
  have hk := keyValue_ne_diverge L h needle
  unfold stringKeyValue
  split
  · simp
  · split <;> simp
  · simp
  · simp
  · simp
  · rename_i hd
    exact absurd hd hk

theorem boolKeyValue_ne_diverge (L : Lib) (h : Option CompositeLit) (needle : GoString) :
    boolKeyValue L h needle ≠ .diverge := by
  have hk := keyValue_ne_diverge L h needle
  unfold boolKeyValue
  split
  · simp
  · simp
  · simp
  · simp
  · simp
  · rename_i hd
    exact absurd hd hk

theorem walkToSchema_ne_diverge (n : Node) : walkToSchema n ≠ .diverge := by
  rcases walkToSchema_spec n with h | ⟨r, h, _⟩ <;> rw [h] <;> simp

theorem findChildAst_ne_diverge (sf : schemaFunc) : findChildAst sf ≠ .diverge := by
  unfold findChildAst
  cases sf.Func with
  | none => simp
  | some fd =>
    obtain ⟨r, h, _⟩ := childSearch_spec sf.Imports fd.toNode
    simp only
    rw [h]
    simp

/-- A loop over the elements runs out of budget only where one of its steps does. -/
theorem forElts_diverge {step : List Attribute → Node → Outcome (List Attribute)} :
    ∀ (es : List Node) (attrs : List Attribute), forElts step attrs es = .diverge →
      ∃ e ∈ es, ∃ a, step a e = .diverge
  | [], _, h => by simp [forElts] at h
  | e :: es, attrs, h => by
    unfold forElts at h
    cases hs : step attrs e with
    | ok attrs1 =>
      rw [hs] at h
      obtain ⟨e1, he1, a, ha⟩ := forElts_diverge es attrs1 h
      exact ⟨e1, List.mem_cons_of_mem _ he1, a, ha⟩
    | error err => rw [hs] at h; cases h
    | panic => rw [hs] at h; cases h
    | diverge => exact ⟨e, List.mem_cons_self _ _, attrs, hs⟩

/-- The step for one field runs out of budget only in `buildAttribute`, called for the literal
of the field or for the schema literal of the builder the field calls. -/
theorem appendElt_diverge {L : Lib}
    {build : schemaFunc → GoString → Option CompositeLit → Outcome Attribute}
    {rf : schemaFunc} {sfs : GoMap schemaFunc} {attrs : List Attribute} {e : Node}
    (h : appendElt L build rf sfs attrs e = .diverge) :
    (∃ key k t es, e = .KeyValueExpr key (.CompositeLit t es) ∧
      build rf k (some ⟨t, es⟩) = .diverge) ∨
    (∃ key k g args sf childAst, e = .KeyValueExpr key (.CallExpr (.Ident g) args) ∧
      sfs.lookup g = some sf ∧ findChildAst sf = .ok childAst ∧
      build sf k childAst = .diverge) := by
  cases e with
  | KeyValueExpr key value =>
    cases key with
    | BasicLit raw =>
      simp only [appendElt] at h
      cases hu : L.Unquote raw with
      | none => rw [hu] at h; cases h
      | some k =>
        rw [hu] at h
        cases value with
        | CompositeLit t es =>
          simp only at h
          left
          refine ⟨.BasicLit raw, k, t, es, rfl, ?_⟩
          cases hb : build rf k (some ⟨t, es⟩) with
          | diverge => rfl
          | ok a => rw [hb] at h; cases h
          | error err => rw [hb] at h; cases h
          | panic => rw [hb] at h; cases h
        | CallExpr fn args =>
          cases fn with
          | Ident g =>
            simp only at h
            cases hl : sfs.lookup g with
            | none => rw [hl] at h; cases h
            | some sf =>
              rw [hl] at h
              simp only at h
              cases hc : findChildAst sf with
              | ok childAst =>
                rw [hc] at h
                simp only at h
                right
                refine ⟨.BasicLit raw, k, g, args, sf, childAst, rfl, hl, hc, ?_⟩
                cases hb : build sf k childAst with
                | diverge => rfl
                | ok a => rw [hb] at h; cases h
                | error err => rw [hb] at h; cases h
                | panic => rw [hb] at h; cases h
              | error err => rw [hc] at h; cases h
              | panic => rw [hc] at h; cases h
              | diverge => exact absurd hc (findChildAst_ne_diverge sf)
          | _ => cases h
        | _ => cases h
    | _ => cases h
  | _ => cases h

/-- The function `buildAttribute` with a budget runs out of it only in `appendAttributes`,
called for the nested schema. -/
theorem buildAttribute_diverge {L : Lib} {n : Nat} {sf : schemaFunc} {k : GoString}
    {schema : Option CompositeLit} {sfs : GoMap schemaFunc}
    (h : buildAttribute L (n + 1) sf k schema sfs = .diverge) :
    ∃ F S, schema = some F ∧ walkToSchema F.toNode = .ok (some S) ∧
      appendAttributes L n [] sf (some S) sfs = .diverge := by
  rw [buildAttribute] at h
  cases h1 : stringKeyValue L schema (str "Description") with
  | ok d =>
    rw [h1] at h
    simp only at h
    cases h2 : boolKeyValue L schema (str "Required") with
    | ok r =>
      rw [h2] at h
      simp only at h
      cases h3 : boolKeyValue L schema (str "Optional") with
      | ok o =>
        rw [h3] at h
        simp only at h
        cases h4 : boolKeyValue L schema (str "Computed") with
        | ok c =>
          rw [h4] at h
          simp only at h
          cases schema with
          | none => cases h
          | some F =>
            simp only at h
            cases hw : walkToSchema F.toNode with
            | ok r =>
              rw [hw] at h
              cases r with
              | none => cases h
              | some S =>
                simp only at h
                refine ⟨F, S, rfl, hw, ?_⟩
                cases ha : appendAttributes L n [] sf (some S) sfs with
                | diverge => rfl
                | ok a => rw [ha] at h; cases h
                | error err => rw [ha] at h; cases h
                | panic => rw [ha] at h; cases h
            | error err => rw [hw] at h; cases h
            | panic => rw [hw] at h; cases h
            | diverge => exact absurd hw (walkToSchema_ne_diverge _)
        | error err => rw [h4] at h; cases h
        | panic => rw [h4] at h; cases h
        | diverge => exact absurd h4 (boolKeyValue_ne_diverge _ _ _)
      | error err => rw [h3] at h; cases h
      | panic => rw [h3] at h; cases h
      | diverge => exact absurd h3 (boolKeyValue_ne_diverge _ _ _)
    | error err => rw [h2] at h; cases h
    | panic => rw [h2] at h; cases h
    | diverge => exact absurd h2 (boolKeyValue_ne_diverge _ _ _)
  | error err => rw [h1] at h; cases h
  | panic => rw [h1] at h; cases h
  | diverge => exact absurd h1 (stringKeyValue_ne_diverge _ _ _)

/-! ## The depth of the `Schema` pairs -/

theorem keyDepthList_le (name : GoString) :
    ∀ (ns : List Node) (c : Node), c ∈ ns → keyDepth name c ≤ keyDepthList name ns
  | [], c, h => by cases h
  | n :: ns, c, h => by
    rw [keyDepthList]
    rcases List.mem_cons.1 h with h1 | h1
    · subst h1
      exact le_max_left _ _
    · exact le_trans (keyDepthList_le name ns c h1) (le_max_right _ _)

theorem keyDepth_child (name : GoString) (n c : Node) (h : c ∈ n.children) :
    keyDepth name c ≤ keyDepth name n := by
  cases n with
  | Ident x => simp [Node.children] at h
  | BasicLit v => simp [Node.children] at h
  | CompositeLit t es =>
    cases t with
    | none =>
      simp only [Node.children, Option.toList, List.nil_append] at h
      rw [keyDepth]
      exact keyDepthList_le name es c h
    | some t =>
      simp only [Node.children, Option.toList, List.singleton_append, List.mem_cons] at h
      rw [keyDepth]
      rcases h with h | h
      · subst h
        exact le_max_left _ _
      · exact le_trans (keyDepthList_le name es c h) (le_max_right _ _)
  | KeyValueExpr k v =>
    simp only [Node.children, List.mem_cons, List.mem_singleton, List.not_mem_nil,
      or_false] at h
    rw [keyDepth]
    rcases h with h | h
    · subst h
      exact le_trans (le_max_left _ _) (Nat.le_add_left _ _)
    · subst h
      exact le_trans (le_max_right _ _) (Nat.le_add_left _ _)
  | CallExpr fn args =>
    simp only [Node.children, List.mem_cons] at h
    rw [keyDepth]
    rcases h with h | h
    · subst h
      exact le_max_left _ _
    · exact le_trans (keyDepthList_le name args c h) (le_max_right _ _)
  | SelectorExpr x sel =>
    simp only [Node.children, List.mem_cons, List.mem_singleton, List.not_mem_nil,
      or_false] at h
    rw [keyDepth]
    rcases h with h | h
    · subst h
      exact le_refl _
    · subst h
      simp [keyDepth]
  | StarExpr x =>
    simp only [Node.children, List.mem_singleton] at h
    subst h
    rw [keyDepth]
  | Other t cs =>
    simp only [Node.children] at h
    rw [keyDepth]
    exact keyDepthList_le name cs c h

theorem mem_keyedValues_cases {name : GoString} {v : Node} (n : Node)
    (h : v ∈ keyedValues name n) :
    (∃ k, n = .KeyValueExpr k v ∧ isIdent name k = true) ∨
    ∃ c ∈ n.children, v ∈ keyedValues name c := by
  cases n with
  | Ident x => simp [keyedValues] at h
  | BasicLit x => simp [keyedValues] at h
  | CompositeLit t es =>
    right
    cases t with
    | none =>
      simp only [keyedValues, mem_keyedValuesList] at h
      simpa [Node.children] using h
    | some t =>
      simp only [keyedValues, List.mem_append, mem_keyedValuesList] at h
      simp only [Node.children, Option.toList, List.singleton_append, List.mem_cons]
      rcases h with h | ⟨c, hc, hv⟩
      · exact ⟨t, Or.inl rfl, h⟩
      · exact ⟨c, Or.inr hc, hv⟩
  | KeyValueExpr k v1 =>
    simp only [keyedValues, List.mem_append] at h
    rcases h with h | h | h
    · left
      by_cases hk : isIdent name k = true
      · rw [if_pos hk, List.mem_singleton] at h
        exact ⟨k, by rw [h], hk⟩
      · rw [if_neg hk] at h
        cases h
    · exact Or.inr ⟨k, by simp [Node.children], h⟩
    · exact Or.inr ⟨v1, by simp [Node.children], h⟩
  | CallExpr fn args =>
    right
    simp only [keyedValues, List.mem_append, mem_keyedValuesList] at h
    simp only [Node.children, List.mem_cons]
    rcases h with h | ⟨c, hc, hv⟩
    · exact ⟨fn, Or.inl rfl, h⟩
    · exact ⟨c, Or.inr hc, hv⟩
  | SelectorExpr x sel =>
    right
    simp only [keyedValues] at h
    exact ⟨x, by simp [Node.children], h⟩
  | StarExpr x =>
    right
    simp only [keyedValues] at h
    exact ⟨x, by simp [Node.children], h⟩
  | Other t cs =>
    right
    simp only [keyedValues, mem_keyedValuesList] at h
    simpa [Node.children] using h

/-- The value of a pair keyed `name` lies one level less deep than the tree it is found in. -/
theorem keyDepth_keyedValues (name : GoString) (n : Node) :
    ∀ v ∈ keyedValues name n, keyDepth name v + 1 ≤ keyDepth name n := by
  induction n using Node.induct with
  | h n ih =>
    intro v hv
    rcases mem_keyedValues_cases n hv with ⟨k, rfl, hk⟩ | ⟨c, hc, hvc⟩
    · rw [keyDepth.eq_def (name) (.KeyValueExpr k v)]
      simp only [hk, if_true]
      have := le_max_right (keyDepth name k) (keyDepth name v)
      omega
    · exact le_trans (ih c hc v hvc) (keyDepth_child name n c hc)

theorem keyDepth_walkToSchema {F S : CompositeLit} (h : walkToSchema F.toNode = .ok (some S)) :
    keyDepth (str "Schema") S.toNode + 1 ≤ keyDepth (str "Schema") F.toNode :=
  keyDepth_keyedValues _ _ _ (walkToSchema_found h)

theorem keyDepth_field {S : CompositeLit} {key : Node} {t : Option Node} {es : List Node}
    (name : GoString) (h : Node.KeyValueExpr key (.CompositeLit t es) ∈ S.Elts) :
    keyDepth name (CompositeLit.toNode ⟨t, es⟩) ≤ keyDepth name S.toNode := by
  have h1 : keyDepth name (.CompositeLit t es) ≤
      keyDepth name (.KeyValueExpr key (.CompositeLit t es)) :=
    keyDepth_child name _ _ (by simp [Node.children])
  have h2 : keyDepth name (.KeyValueExpr key (.CompositeLit t es)) ≤ keyDepth name S.toNode :=
    keyDepth_child name _ _ (by
      cases hS : S.Typ <;> simp [CompositeLit.toNode, Node.children, hS, h])
  exact le_trans h1 h2

/-! ## Termination -/

/-- With no builder that reaches itself, measured by a rank that falls along every call from
the schema literal of one builder to another, the resolution does not run out of a budget of
`2 * (d + 1 + D * r)` for `appendAttributes` and `2 * d + 1 + 2 * D * r` for `buildAttribute`:
`d` bounds the depth of the `Schema` pairs of the literal, `D` that of the schema literals of
the builders, and `r` is above the ranks of the builders the literal reaches. -/
theorem resolution_budget (L : Lib) (sfs : GoMap schemaFunc) (rank : GoString → Nat) (D : Nat)
    (hD : ∀ g sf C, sfs.lookup g = some sf → findChildAst sf = .ok (some C) →
      keyDepth (str "Schema") C.toNode ≤ D)
    (hrank : ∀ g sf C g1, sfs.lookup g = some sf → findChildAst sf = .ok (some C) →
      Reaches C g1 → (sfs.lookup g1).isSome → rank g1 < rank g) :
    ∀ n : Nat,
      (∀ (S : CompositeLit) (d r : Nat) (attrs : List Attribute) (rf : schemaFunc),
        keyDepth (str "Schema") S.toNode ≤ d →
        (∀ g, ReachesFrom S g → (sfs.lookup g).isSome → rank g < r) →
        2 * (d + 1 + D * r) ≤ n →
        appendAttributes L n attrs rf (some S) sfs ≠ .diverge) ∧
      (∀ (F : Option CompositeLit) (d r : Nat) (sf : schemaFunc) (k : GoString),
        (∀ C, F = some C → keyDepth (str "Schema") C.toNode ≤ d ∧
          ∀ g, Reaches C g → (sfs.lookup g).isSome → rank g < r) →
        2 * d + 1 + 2 * D * r ≤ n →
        buildAttribute L n sf k F sfs ≠ .diverge)
  | 0 => ⟨fun _ _ _ _ _ _ _ hn => by omega, fun _ _ _ _ _ _ hn => by omega⟩
  | n + 1 => by
    obtain ⟨ihA, ihB⟩ := resolution_budget L sfs rank D hD hrank n
    constructor
    · intro S d r attrs rf hd hr hn hdiv
      simp only [appendAttributes] at hdiv
      obtain ⟨e, he, a, hs⟩ := forElts_diverge _ _ hdiv
      rcases appendElt_diverge hs with ⟨key, k, t, es, rfl, hb⟩ |
        ⟨key, k, g, args, sf, childAst, rfl, hl, hc, hb⟩
      · have h3 : 2 * D * r = 2 * (D * r) := by ring
        refine ihB (some ⟨t, es⟩) d r rf k ?_ (by omega) hb
        intro C hC
        cases hC
        exact ⟨le_trans (keyDepth_field _ he) hd,
          fun g hg => hr g (Or.inr ⟨key, t, es, he, hg⟩)⟩
      · have hg : rank g < r := hr g (Or.inl ⟨key, args, he⟩) (by simp [hl])
        refine ihB childAst D (rank g) sf k ?_ ?_ hb
        · intro C hC
          subst hC
          exact ⟨hD g sf C hl hc, fun g1 => hrank g sf C g1 hl hc⟩
        · have h1 : D * (rank g + 1) ≤ D * r := Nat.mul_le_mul_left D hg
          have h2 : D * (rank g + 1) = D * rank g + D := by ring
          have h3 : 2 * D * rank g = 2 * (D * rank g) := by ring
          omega
    · intro F d r sf k hF hn hdiv
      obtain ⟨C, S, rfl, hw, ha⟩ := buildAttribute_diverge hdiv
      obtain ⟨hd, hr⟩ := hF C rfl
      have hk := keyDepth_walkToSchema hw
      refine ihA S (d - 1) r [] sf (by omega) ?_ ?_ ha
      · rintro g (⟨key, args, hmem⟩ | ⟨key, t, es, hmem, hreach⟩)
        · exact hr g (Reaches.call hw hmem)
        · exact hr g (Reaches.nested hw hmem hreach)
      · have h3 : 2 * D * r = 2 * (D * r) := by ring
        omega

theorem budget_mono_le (L : Lib) (n : Nat) (attrs : List Attribute) (rf : schemaFunc)
    (S : Option CompositeLit) (sfs : GoMap schemaFunc)
    (h : appendAttributes L n attrs rf S sfs ≠ .diverge) :
    ∀ m, n ≤ m → appendAttributes L m attrs rf S sfs = appendAttributes L n attrs rf S sfs := by
  intro m hm
  induction m, hm using Nat.le_induction with
  | base => rfl
  | succ m _ ih =>
    rw [← ih] at h ⊢
    exact (budget_mono L m).1 attrs rf S sfs _ rfl h

/-! ## The chain of builders -/

theorem walkToSchema_chainLit (v : Node) :
    walkToSchema (chainLit v).toNode = .ok (some ⟨some schemaMapType,
      [.KeyValueExpr (quoted "a") (.CompositeLit none [elemSchema [.KeyValueExpr (quoted "b") v]])]⟩) := by
  rfl

theorem walkToSchema_chainInner (v : Node) :
    walkToSchema (CompositeLit.toNode ⟨none, [elemSchema [.KeyValueExpr (quoted "b") v]]⟩) =
      .ok (some ⟨some schemaMapType, [.KeyValueExpr (quoted "b") v]⟩) := by
  rfl

/-- What the schema literal of a builder of the chain reaches is what its field `b` is. -/
theorem reaches_chainLit {v : Node} {g : GoString} (h : Reaches (chainLit v) g) :
    (∃ args, v = .CallExpr (.Ident g) args) ∨
    (∃ t es, v = .CompositeLit t es ∧ Reaches ⟨t, es⟩ g) := by
  cases h with
  | call hw hmem =>
    rw [walkToSchema_chainLit] at hw
    cases hw
    simp at hmem
  | nested hw hmem hr =>
    rw [walkToSchema_chainLit] at hw
    cases hw
    simp only [List.mem_singleton, Node.KeyValueExpr.injEq, Node.CompositeLit.injEq] at hmem
    obtain ⟨_, rfl, rfl⟩ := hmem
    cases hr with
    | call hw1 hmem1 =>
      rw [walkToSchema_chainInner] at hw1
      cases hw1
      simp only [List.mem_singleton, Node.KeyValueExpr.injEq] at hmem1
      exact Or.inl ⟨_, hmem1.2.symm⟩
    | nested hw1 hmem1 hr1 =>
      rw [walkToSchema_chainInner] at hw1
      cases hw1
      simp only [List.mem_singleton, Node.KeyValueExpr.injEq] at hmem1
      exact Or.inr ⟨_, _, hmem1.2.symm, hr1⟩

/-- The three builders of the chain and their schema literals. -/
theorem chain_lookup {g : GoString} {sf : schemaFunc} (h : chainSchemaFuncs.lookup g = some sf) :
    (g = str "first" ∧ ∃ v, findChildAst sf = .ok (some (chainLit v)) ∧
      v = .CallExpr (.Ident (str "second")) []) ∨
    (g = str "second" ∧ ∃ v, findChildAst sf = .ok (some (chainLit v)) ∧
      v = .CallExpr (.Ident (str "third")) []) ∨
    (g = str "third" ∧ ∃ v, findChildAst sf = .ok (some (chainLit v)) ∧
      v = .CompositeLit none [kv "Optional" (.Ident (str "true"))]) := by
  by_cases h1 : g = str "first"
  · subst h1
    left
    have : sf = chainBuilder "first" (chainLit (.CallExpr (.Ident (str "second")) [])) :=
      (Option.some.inj h).symm
    subst this
    exact ⟨rfl, _, rfl, rfl⟩
  · by_cases h2 : g = str "second"
    · subst h2
      right; left
      have : sf = chainBuilder "second" (chainLit (.CallExpr (.Ident (str "third")) [])) :=
        (Option.some.inj h).symm
      subst this
      exact ⟨rfl, _, rfl, rfl⟩
    · by_cases h3 : g = str "third"
      · subst h3
        right; right
        have : sf = chainBuilder "third"
            (chainLit (.CompositeLit none [kv "Optional" (.Ident (str "true"))])) :=
          (Option.some.inj h).symm
        subst this
        exact ⟨rfl, _, rfl, rfl⟩
      · exfalso
        unfold chainSchemaFuncs at h
        rw [lookup_cons_ne _ _ _ _ (Ne.symm h1), lookup_cons_ne _ _ _ _ (Ne.symm h2),
          lookup_cons_ne _ _ _ _ (Ne.symm h3)] at h
        cases h

theorem chain_depth (g : GoString) (sf : schemaFunc) (C : CompositeLit)
    (hl : chainSchemaFuncs.lookup g = some sf) (hc : findChildAst sf = .ok (some C)) :
    keyDepth (str "Schema") C.toNode ≤ 2 := by
  rcases chain_lookup hl with ⟨_, v, hv, rfl⟩ | ⟨_, v, hv, rfl⟩ | ⟨_, v, hv, rfl⟩ <;>
  · rw [hv] at hc
    cases hc
    decide

theorem no_reach_leaf (g : GoString) :
    ¬ Reaches ⟨none, [kv "Optional" (.Ident (str "true"))]⟩ g := by
  intro h
  have hw : walkToSchema (CompositeLit.toNode ⟨none, [kv "Optional" (.Ident (str "true"))]⟩) =
      .ok none := by rfl
  cases h with
  | call hw1 _ => rw [hw] at hw1; cases hw1
  | nested hw1 _ _ => rw [hw] at hw1; cases hw1

theorem chain_rank (g : GoString) (sf : schemaFunc) (C : CompositeLit) (g1 : GoString)
    (hl : chainSchemaFuncs.lookup g = some sf) (hc : findChildAst sf = .ok (some C))
    (hr : Reaches C g1) (_h1 : (chainSchemaFuncs.lookup g1).isSome) :
    (if g1 = str "first" then 2 else if g1 = str "second" then 1 else 0) <
      (if g = str "first" then 2 else if g = str "second" then 1 else 0) := by
  rcases chain_lookup hl with ⟨rfl, v, hv, rfl⟩ | ⟨rfl, v, hv, rfl⟩ | ⟨rfl, v, hv, rfl⟩
  · rw [hv] at hc
    cases hc
    rcases reaches_chainLit hr with ⟨args, ha⟩ | ⟨t, es, ha, _⟩
    · cases ha
      decide
    · cases ha
  · rw [hv] at hc
    cases hc
    rcases reaches_chainLit hr with ⟨args, ha⟩ | ⟨t, es, ha, _⟩
    · cases ha
      decide
    · cases ha
  · rw [hv] at hc
    cases hc
    rcases reaches_chainLit hr with ⟨args, ha⟩ | ⟨t, es, ha, hr1⟩
    · cases ha
    · cases ha
      exact absurd hr1 (no_reach_leaf g1)

theorem chain_top (g : GoString) (_h : ReachesFrom chainCallSchema g)
    (_h1 : (chainSchemaFuncs.lookup g).isSome) :
    (if g = str "first" then 2 else if g = str "second" then 1 else 0) < 3 := by
  split
  · decide
  · split <;> decide

/-! ## Claims on termination -/

/-- The counterexample to C17: the schema `{"top": first()}` has nesting depth 1 and the
longest chain of builders, `first`, `second`, `third`, has length 3; the schema literal of each
builder has nesting depth 3. With a recursion budget of 13 calls of `appendAttributes` and
`buildAttribute`, more than twice 1 + 3 and more than twice 3 + 3, the resolution is
unfinished; it returns with 14. -/
theorem resolution_exceeds_depth :
    nestingDepth chainCallSchema = 1 ∧
    chainSchemaFuncs.keys = [str "first", str "second", str "third"] ∧
    nestingDepth (chainLit (.CallExpr (.Ident (str "second")) [])) = 3 ∧
    appendAttributes plainLib 13 [] imageFunc (some chainCallSchema) chainSchemaFuncs =
      .diverge ∧
    appendAttributes plainLib 14 [] imageFunc (some chainCallSchema) chainSchemaFuncs =
      .ok chainAttributes :=
  ⟨by decide, by decide, by decide, by rfl, by rfl⟩

/-- C17, amended: let no builder reach itself: a rank of the builders falls along every call
from the schema literal of a builder, through its nested `Schema` literals, to a builder of
the index; let `c` be above the ranks of the builders the schema literal `S` reaches, and `D`
bound the depth of the `Schema` pairs in the schema literals of the builders. Then the mutual
recursion of `appendAttributes` and `buildAttribute` on `S` terminates, with a value or a
failure, within `2 * (nestingDepth S + c * D)` calls one inside the other: with this budget
the outcome is not the one of an unfinished run, and it is the same with every larger
budget. -/
theorem resolution_terminates (L : Lib) (sfs : GoMap schemaFunc) (rank : GoString → Nat)
    (D c : Nat) (S : CompositeLit)
    (hD : ∀ g sf C, sfs.lookup g = some sf → findChildAst sf = .ok (some C) →
      keyDepth (str "Schema") C.toNode ≤ D)
    (hrank : ∀ g sf C g1, sfs.lookup g = some sf → findChildAst sf = .ok (some C) →
      Reaches C g1 → (sfs.lookup g1).isSome → rank g1 < rank g)
    (hS : ∀ g, ReachesFrom S g → (sfs.lookup g).isSome → rank g < c)
    (attrs : List Attribute) (rf : schemaFunc) :
    appendAttributes L (2 * (nestingDepth S + c * D)) attrs rf (some S) sfs ≠ .diverge ∧
    ∀ fuel, 2 * (nestingDepth S + c * D) ≤ fuel →
      appendAttributes L fuel attrs rf (some S) sfs =
        appendAttributes L (2 * (nestingDepth S + c * D)) attrs rf (some S) sfs := by
  have h : appendAttributes L (2 * (nestingDepth S + c * D)) attrs rf (some S) sfs ≠
      .diverge := by
    refine (resolution_budget L sfs rank D hD hrank _).1 S _ c attrs rf (le_refl _) hS ?_
    unfold nestingDepth
    rw [Nat.mul_comm c D]
  exact ⟨h, budget_mono_le L _ attrs rf (some S) sfs h⟩

/-- The witness of C17, amended: the chain `first`, `second`, `third` with the ranks 2, 1, 0,
where `c` is 3 and `D` is 2; the budget is 14. -/
theorem resolution_terminates_witness :
    appendAttributes plainLib 14 [] imageFunc (some chainCallSchema) chainSchemaFuncs ≠
      .diverge ∧
    appendAttributes plainLib 1000 [] imageFunc (some chainCallSchema) chainSchemaFuncs =
      appendAttributes plainLib 14 [] imageFunc (some chainCallSchema) chainSchemaFuncs :=
  have h := resolution_terminates plainLib chainSchemaFuncs
    (fun g => if g = str "first" then 2 else if g = str "second" then 1 else 0) 2 3
    chainCallSchema chain_depth chain_rank chain_top [] imageFunc
  ⟨h.1, h.2 1000 (by decide)⟩

/-! ## A builder that calls itself -/

/-- A loop that does not return normally on the first elements does not on more. -/
theorem forElts_append_stop (step : List Attribute → Node → Outcome (List Attribute)) :
    ∀ (pre : List Node) (attrs : List Attribute) (rest : List Node),
      (∀ out, forElts step attrs pre ≠ .ok out) →
      forElts step attrs (pre ++ rest) = forElts step attrs pre
  | [], attrs, rest, h => absurd rfl (h attrs)
  | e :: es, attrs, rest, h => by
    simp only [List.cons_append, forElts] at h ⊢
    cases hs : step attrs e with
    | ok attrs1 =>
      rw [hs] at h
      exact forElts_append_stop step es attrs1 rest h
    | error err => rfl
    | panic => rfl
    | diverge => rfl

theorem selfAfterMissing_error (fuel : Nat) :
    appendAttributes plainLib (fuel + 3) [] imageFunc (some selfCallSchema)
      (selfSchemaFuncs selfAfterMissingLit) =
        .error (.Errorf (str "unable to find schema func for missing")) := by
  induction fuel with
  | zero => rfl
  | succ n ih =>
    exact (budget_mono plainLib (n + 3)).1 [] imageFunc (some selfCallSchema) _ _ ih (by simp)

/-- The counterexample to C18: the schema literal of the builder `selfSchema` has the nested
schema `{"x": missing(), "self": selfSchema()}`, with a field that calls `selfSchema`, and the
resolution of the field `"loop": selfSchema()` returns: with a budget of 3, and with a budget
of 1000, it is the error of the field `x`, whose builder is not in the index. -/
theorem self_reference_returns :
    (selfSchemaFuncs selfAfterMissingLit).lookup (str "selfSchema") =
      some (selfBuilder selfAfterMissingLit) ∧
    findChildAst (selfBuilder selfAfterMissingLit) = .ok (some selfAfterMissingLit) ∧
    walkToSchema selfAfterMissingLit.toNode = .ok (some ⟨some schemaMapType,
      [.KeyValueExpr (quoted "x") (.CallExpr (.Ident (str "missing")) []),
       .KeyValueExpr (quoted "self") (.CallExpr (.Ident (str "selfSchema")) [])]⟩) ∧
    appendAttributes plainLib 3 [] imageFunc (some selfCallSchema)
      (selfSchemaFuncs selfAfterMissingLit) =
        .error (.Errorf (str "unable to find schema func for missing")) ∧
    appendAttributes plainLib 1000 [] imageFunc (some selfCallSchema)
      (selfSchemaFuncs selfAfterMissingLit) =
        .error (.Errorf (str "unable to find schema func for missing")) :=
  ⟨rfl, rfl, rfl, selfAfterMissing_error 0, selfAfterMissing_error 997⟩

/-- C18, amended: let the builder `g` of the index have the schema literal `C`, whose four
keys `buildAttribute` can read, and let the nested `Schema` literal of `C` have a field whose
value is the call `g()`, after fields whose resolution does not fail. Then the resolution of a
schema whose first field has the value `g()` never returns: for every recursion budget it is
unfinished. -/
theorem self_reference_diverges (L : Lib) (sfs : GoMap schemaFunc) (g : GoString)
    (sf : schemaFunc) (C S : CompositeLit) (pre post args : List Node) (raw k : GoString)
    (d : GoString) (b1 b2 b3 : Bool)
    (hl : sfs.lookup g = some sf) (hc : findChildAst sf = .ok (some C))
    (hd : stringKeyValue L (some C) (str "Description") = .ok d)
    (h1 : boolKeyValue L (some C) (str "Required") = .ok b1)
    (h2 : boolKeyValue L (some C) (str "Optional") = .ok b2)
    (h3 : boolKeyValue L (some C) (str "Computed") = .ok b3)
    (hw : walkToSchema C.toNode = .ok (some S))
    (hS : S.Elts = pre ++ .KeyValueExpr (.BasicLit raw) (.CallExpr (.Ident g) args) :: post)
    (hu : L.Unquote raw = some k)
    (hpre : ∀ fuel, appendAttributes L fuel [] sf (some ⟨S.Typ, pre⟩) sfs ≠ .panic ∧
      ∀ err, appendAttributes L fuel [] sf (some ⟨S.Typ, pre⟩) sfs ≠ .error err) :
    ∀ (fuel : Nat) (attrs : List Attribute) (rf : schemaFunc) (t : Option Node)
      (raw0 k0 : GoString) (args0 rest : List Node), L.Unquote raw0 = some k0 →
      appendAttributes L fuel attrs rf
        (some ⟨t, .KeyValueExpr (.BasicLit raw0) (.CallExpr (.Ident g) args0) :: rest⟩) sfs =
          .diverge := by
  have hB : ∀ fuel : Nat, (∀ k0, buildAttribute L fuel sf k0 (some C) sfs = .diverge) ∧
      appendAttributes L fuel [] sf (some S) sfs = .diverge := by
    intro fuel
    induction fuel with
    | zero => exact ⟨fun _ => by rw [buildAttribute], by rw [appendAttributes]⟩
    | succ n ih =>
      constructor
      · intro k0
        rw [buildAttribute]
        simp only [hd, h1, h2, h3, hw, ih.2]
      · have hp := hpre (n + 1)
        simp only [appendAttributes] at hp ⊢
        rw [hS]
        cases hf : forElts (appendElt L (fun sf k c => buildAttribute L n sf k c sfs) sf sfs)
            [] pre with
        | ok attrs1 =>
          rw [forElts_append _ pre [] attrs1 _ hf]
          simp [forElts, appendElt, hu, hl, hc, ih.1 k]
        | error err => exact absurd hf (hp.2 err)
        | panic => exact absurd hf hp.1
        | diverge =>
          rw [forElts_append_stop _ pre [] _ (by rw [hf]; simp), hf]
  intro fuel attrs rf t raw0 k0 args0 rest hu0
  cases fuel with
  | zero => rw [appendAttributes]
  | succ n =>
    simp [appendAttributes, forElts, appendElt, hu0, hl, hc, (hB n).1 k0]

/-- The witness of C18, amended: the builder `selfSchema` whose schema literal is
`&schema.Schema{Elem: &schema.Resource{Schema: {"self": selfSchema()}}}`, and the schema
`{"loop": selfSchema()}`. -/
theorem self_reference_diverges_witness :
    appendAttributes plainLib 7 [] imageFunc (some selfCallSchema) (selfSchemaFuncs selfLit) =
      .diverge ∧
    appendAttributes plainLib 1000 [] imageFunc (some selfCallSchema)
      (selfSchemaFuncs selfLit) = .diverge :=
  have h := self_reference_diverges plainLib (selfSchemaFuncs selfLit) (str "selfSchema")
    (selfBuilder selfLit) selfLit
    ⟨some schemaMapType,
      [.KeyValueExpr (quoted "self") (.CallExpr (.Ident (str "selfSchema")) [])]⟩
    [] [] [] (str ("\"" ++ "self" ++ "\"")) (str "self") [] false false false
    rfl rfl rfl rfl rfl rfl rfl rfl rfl
    (fun n => by cases n <;> simp [appendAttributes, forElts])
  ⟨h 7 [] imageFunc (some schemaMapType) (str ("\"" ++ "loop" ++ "\"")) (str "loop") [] [] rfl,
   h 1000 [] imageFunc (some schemaMapType) (str ("\"" ++ "loop" ++ "\"")) (str "loop") [] []
    rfl⟩

end Websitedoc
